import Mathlib

/-!
# Bill splitter: expense shares, balances and settlements

A shallow embedding of `src/services/bill-service/src/split_calculator.cpp`
(with the declarations of `split_calculator.h`).

Modelling conventions

* `double` is the field `ℚ` (exact arithmetic); the literals `0.01`, `100.0`
  are the rationals `1/100`, `100`.  Two things `ℚ` cannot show are embedded
  separately.  A division whose divisor is zero is `inf`/`NaN` in the program
  and `0` in `ℚ`: the instrumented definitions (`calculateExpenseSharesTraced`
  and the traced folds) record every division and every call of the share
  calculator as it is evaluated.  The matching loop of `optimizeSettlements`
  branches on remainders it has just computed, which the program rounds and
  which may be infinite or NaN: `runMatchLoop64` is that loop on IEEE 754
  binary64 values.
* `std::map<std::string, double>` and a JSON object of numbers are association
  lists kept in strictly ascending key order (`StdMap`), which is the order in
  which the program iterates over them.  Keys are compared with the order of
  `String`, which on UTF-8 text is the byte order `std::string` uses.
* the records of the `expenses` and `participants` arrays are typed: a field is
  either absent (`none`) or holds a value of the type the program converts it
  to.
* a `json` argument that the program only inspects through `is_array`,
  `contains`, `empty` and a numeric conversion is a small inductive type with
  exactly those observations; a failed conversion (nlohmann `type_error`) is
  `Except.error`.
-/

namespace BillSplitter

/-! ## JSON values seen by the calculator -/

/-- A member of the `customShares` object: either a JSON number, carrying the
`double` it converts to, or a value with no conversion to `double`. -/
inductive JsonValue where
  | number (value : ℚ)
  | other
  deriving DecidableEq, Repr

/-- The `customShares` argument, `const json&`: any JSON value. -/
inductive Json where
  | null
  | primitive
  | array (size : Nat)
  | object (members : List (String × JsonValue))
  deriving DecidableEq, Repr

/-- `json::empty()`: `null` is empty, an array or object is empty when it has no
element, every other value is not. -/
def Json.empty : Json → Bool
  | .null => true
  | .primitive => false
  | .array n => n == 0
  | .object ms => ms.isEmpty

/-- `json::contains(key)`: only an object can contain a key. -/
def Json.contains : Json → String → Bool
  | .object ms, key => (ms.lookup key).isSome
  | _, _ => false

/-- `json::operator[](key) const`, used by the program only after `contains`. -/
def Json.get : Json → String → JsonValue
  | .object ms, key => (ms.lookup key).getD JsonValue.other
  | _, _ => JsonValue.other

/-- The implicit conversion `double x = j;`, which throws on a non-number. -/
def JsonValue.toDouble : JsonValue → Except String ℚ
  | .number x => .ok x
  | .other => .error "type_error.302"

/-- The default argument `json::object()` of `calculateExpenseShares`. -/
def defaultCustomShares : Json := Json.object []

/-- A JSON object whose members are all numbers. -/
def Json.ofNumbers (m : List (String × ℚ)) : Json :=
  Json.object (m.map fun kv => (kv.1, JsonValue.number kv.2))

/-! ## Records of `split_calculator.h` -/

structure ExpenseShare where
  userId : String
  amount : ℚ
  percentage : ℚ
  deriving DecidableEq, Repr

structure Settlement where
  fromUserId : String
  toUserId : String
  amount : ℚ
  deriving DecidableEq, Repr

/-! ## `calculateExpenseShares` -/

/-- The loop of the `"percentage"` branch (lines 20-26). -/
def percentageShares (totalAmount : ℚ) (customShares : Json) :
    List String → Except String (List ExpenseShare)
  | [] => .ok []
  | userId :: rest =>
    if customShares.contains userId then
      match (customShares.get userId).toDouble with
      | .error e => .error e
      | .ok percentage =>
        let amount := (totalAmount * percentage) / 100
        match percentageShares totalAmount customShares rest with
        | .error e => .error e
        | .ok shares => .ok (⟨userId, amount, percentage⟩ :: shares)
    else percentageShares totalAmount customShares rest

/-- The loop of the `"custom"` branch (lines 29-35). -/
def customAmountShares (totalAmount : ℚ) (customShares : Json) :
    List String → Except String (List ExpenseShare)
  | [] => .ok []
  | userId :: rest =>
    if customShares.contains userId then
      match (customShares.get userId).toDouble with
      | .error e => .error e
      | .ok amount =>
        let percentage := (amount / totalAmount) * 100
        match customAmountShares totalAmount customShares rest with
        | .error e => .error e
        | .ok shares => .ok (⟨userId, amount, percentage⟩ :: shares)
    else customAmountShares totalAmount customShares rest

/-- `SplitCalculator::calculateExpenseShares` (lines 5-39). -/
def calculateExpenseShares (totalAmount : ℚ) (splitType : String)
    (participantIds : List String) (customShares : Json) :
    Except String (List ExpenseShare) :=
  if splitType = "equal" then
    let shareAmount := totalAmount / (participantIds.length : ℚ)
    .ok (participantIds.map fun userId =>
      ⟨userId, shareAmount, 100 / (participantIds.length : ℚ)⟩)
  else if splitType = "percentage" ∧ ¬ customShares.empty then
    percentageShares totalAmount customShares participantIds
  else if splitType = "custom" ∧ ¬ customShares.empty then
    customAmountShares totalAmount customShares participantIds
  else
    .ok []

/-! ## `std::map<std::string, double>` -/

/-- An ordered map from user id to amount: the entries in iteration order. -/
abbrev StdMap := List (String × ℚ)

namespace StdMap

/-- `m.find(key)`; `none` is `m.end()`. -/
def find : StdMap → String → Option ℚ
  | [], _ => none
  | (k, v) :: rest, key => if key = k then some v else find rest key

/-- `m.find(key) != m.end()`. -/
def contains (m : StdMap) (key : String) : Bool := (m.find key).isSome

/-- `m[key] = value`: overwrite the entry, or insert it at its place in key
order. -/
def assign : StdMap → String → ℚ → StdMap
  | [], key, value => [(key, value)]
  | (k, v) :: rest, key, value =>
    if key = k then (k, value) :: rest
    else if key < k then (key, value) :: (k, v) :: rest
    else (k, v) :: assign rest key value

/-- `m[key] += delta` (a missing key is first inserted with `0.0`). -/
def addTo (m : StdMap) (key : String) (delta : ℚ) : StdMap :=
  m.assign key ((m.find key).getD 0 + delta)

/-- The keys, in iteration order. -/
def keys (m : StdMap) : List String := m.map Prod.fst

/-- The sum of the values. -/
def sum (m : StdMap) : ℚ := (m.map Prod.snd).sum

/-- Well-formedness of a `std::map`: keys strictly ascending (hence distinct). -/
def WF (m : StdMap) : Prop := (m.map Prod.fst).Pairwise (· < ·)

end StdMap

/-! ## The JSON inputs of the balance folds -/

/-- A participant record; only `user_id` is read. -/
structure Participant where
  user_id : Option String
  deriving DecidableEq, Repr

/-- An expense record; only `payer_id`, `amount` and `split_type` are read. -/
structure Expense where
  payer_id : Option String
  amount : Option ℚ
  split_type : Option String
  deriving DecidableEq, Repr

/-- A `json` argument that is expected to be an array of records. -/
inductive JsonList (α : Type) where
  | array (elements : List α)
  | notArray
  deriving DecidableEq, Repr

/-- `j.is_array()`. -/
def JsonList.is_array {α : Type} : JsonList α → Bool
  | .array _ => true
  | .notArray => false

/-- The elements a range-for visits. -/
def JsonList.elements {α : Type} : JsonList α → List α
  | .array xs => xs
  | .notArray => []

/-- A `for` loop over expenses whose body may throw. -/
def forEachExpense (body : StdMap → Expense → Except String StdMap) :
    List Expense → StdMap → Except String StdMap
  | [], balances => .ok balances
  | expense :: rest, balances =>
    match body balances expense with
    | .error e => .error e
    | .ok balances => forEachExpense body rest balances

/-! ## `calculateEventSettlements`, lines 45-96: the balance fold -/

/-- Lines 48-54. -/
def settlementsInitBalances (participants : JsonList Participant) : StdMap :=
  if participants.is_array then
    participants.elements.foldl
      (fun balances participant =>
        match participant.user_id with
        | some userId => balances.assign userId 0
        | none => balances)
      []
  else []

/-- Lines 68-75. -/
def settlementsParticipantIds (participants : JsonList Participant) : List String :=
  if participants.is_array then
    participants.elements.filterMap fun participant => participant.user_id
  else []

/-- Lines 59-94: the body of the expense loop. -/
def settlementsExpenseBody (participants : JsonList Participant)
    (balances : StdMap) (expense : Expense) : Except String StdMap :=
  match expense.payer_id, expense.amount with
  | some payerId, some amount =>
    let splitType := expense.split_type.getD "equal"
    let participantIds := settlementsParticipantIds participants
    if participantIds.isEmpty then .ok balances
    else
      match calculateExpenseShares amount splitType participantIds defaultCustomShares with
      | .error e => .error e
      | .ok shares =>
        let balances :=
          if balances.contains payerId then balances.addTo payerId amount else balances
        .ok (shares.foldl
          (fun balances share =>
            if balances.contains share.userId then
              balances.addTo share.userId (-share.amount)
            else balances)
          balances)
  | _, _ => .ok balances

/-! ## `calculateUserBalances`, lines 101-163 -/

/-- Lines 110-117. -/
def balancesInit (participants : JsonList Participant) : StdMap :=
  if participants.is_array then
    participants.elements.foldl
      (fun balances participant =>
        match participant.user_id with
        | some userId => balances.assign userId 0
        | none => balances)
      []
  else []

/-- Lines 130-137. -/
def balancesParticipantIds (participants : JsonList Participant) : List String :=
  if participants.is_array then
    participants.elements.filterMap fun participant => participant.user_id
  else []

/-- Lines 122-153: the body of the expense loop. -/
def balancesExpenseBody (participants : JsonList Participant)
    (balances : StdMap) (expense : Expense) : Except String StdMap :=
  match expense.payer_id, expense.amount with
  | some payerId, some amount =>
    let splitType := expense.split_type.getD "equal"
    let participantIds := balancesParticipantIds participants
    if participantIds.isEmpty then .ok balances
    else
      match calculateExpenseShares amount splitType participantIds defaultCustomShares with
      | .error e => .error e
      | .ok shares =>
        let balances :=
          if balances.contains payerId then balances.addTo payerId amount else balances
        .ok (shares.foldl
          (fun balances share =>
            if balances.contains share.userId then
              balances.addTo share.userId (-share.amount)
            else balances)
          balances)
  | _, _ => .ok balances

/-- `SplitCalculator::calculateUserBalances` (lines 101-163).  The returned JSON
object of numbers is an ordered map like `balances`; lines 158-160 copy the
entries into it one by one.  `eventId` is not used. -/
def calculateUserBalances (_eventId : String) (expenses : JsonList Expense)
    (participants : JsonList Participant) : Except String StdMap :=
  let balances := balancesInit participants
  let folded :=
    if expenses.is_array then
      forEachExpense (balancesExpenseBody participants) expenses.elements balances
    else .ok balances
  match folded with
  | .error e => .error e
  | .ok balances =>
    .ok (balances.foldl (fun result entry => result.assign entry.1 entry.2) [])

/-! ## `optimizeSettlements`, lines 165-204 -/

/-- Lines 171-177, first branch: the debtors with the magnitude of their debt. -/
def debtorsOf (balances : StdMap) : List (String × ℚ) :=
  balances.filterMap fun entry =>
    if entry.2 < -(1 / 100) then some (entry.1, -entry.2) else none

/-- Lines 171-177, second branch: the creditors with their credit. -/
def creditorsOf (balances : StdMap) : List (String × ℚ) :=
  balances.filterMap fun entry =>
    if entry.2 < -(1 / 100) then none
    else if entry.2 > 1 / 100 then some (entry.1, entry.2) else none

/-- The order `std::sort` establishes with the comparator
`a.second > b.second`: no element is followed by one of larger amount. -/
def byAmountDesc (a b : String × ℚ) : Prop := b.2 ≤ a.2

instance : DecidableRel byAmountDesc := fun a b => inferInstanceAs (Decidable (b.2 ≤ a.2))

/-- Lines 180-183: `std::sort` by descending amount.  The C++ standard leaves the
order of entries of equal amount open; this model keeps them in input order
(what an insertion sort does), which is one of the results `StdSortSpec`
admits. -/
def sortByAmountDesc (entries : List (String × ℚ)) : List (String × ℚ) :=
  entries.insertionSort byAmountDesc

/-- Lines 186-201, the matching loop, in exact arithmetic; the two arguments are
`debtors` from index `i` on and `creditors` from index `j` on, with the amounts
as updated so far.  Every remainder is exact and finite here, so one of the two
is zero after each iteration; the loop of the program on `double`, with rounded
remainders, infinities and NaN, is `runMatchLoop64`. -/
def matchSettlements : List (String × ℚ) → List (String × ℚ) → List Settlement
  | [], _ => []
  | _ :: _, [] => []
  | (debtor, debt) :: debtors, (creditor, credit) :: creditors =>
    ⟨debtor, creditor, min debt credit⟩ ::
      if _h₁ : debt - min debt credit < 1 / 100 then
        if _h₂ : credit - min debt credit < 1 / 100 then
          matchSettlements debtors creditors
        else
          matchSettlements debtors ((creditor, credit - min debt credit) :: creditors)
      else
        if _h₂ : credit - min debt credit < 1 / 100 then
          matchSettlements ((debtor, debt - min debt credit) :: debtors) creditors
        else
          matchSettlements ((debtor, debt - min debt credit) :: debtors)
            ((creditor, credit - min debt credit) :: creditors)
termination_by debtors creditors => debtors.length + creditors.length
decreasing_by
  · simp only [List.length_cons]; omega
  · simp only [List.length_cons]; omega
  · simp only [List.length_cons]; omega
  · exfalso
    rcases le_total debt credit with h | h
    · rw [min_eq_left h, sub_self] at _h₁
      exact _h₁ (by norm_num)
    · rw [min_eq_right h, sub_self] at _h₂
      exact _h₂ (by norm_num)

/-- `SplitCalculator::optimizeSettlements` (lines 165-204), in exact arithmetic
and with `sortByAmountDesc` for `std::sort`. -/
def optimizeSettlements (balances : StdMap) : List Settlement :=
  matchSettlements (sortByAmountDesc (debtorsOf balances))
    (sortByAmountDesc (creditorsOf balances))

/-- `SplitCalculator::calculateEventSettlements` (lines 41-99). -/
def calculateEventSettlements (expenses : JsonList Expense)
    (participants : JsonList Participant) : Except String (List Settlement) :=
  let balances := settlementsInitBalances participants
  let folded :=
    if expenses.is_array then
      forEachExpense (settlementsExpenseBody participants) expenses.elements balances
    else .ok balances
  match folded with
  | .error e => .error e
  | .ok balances => .ok (optimizeSettlements balances)

/-! ## Vocabulary of the properties -/

/-- The ids of the tracked participants: the `user_id`s of the records. -/
def trackedIds (participants : JsonList Participant) : List String :=
  participants.elements.filterMap fun participant => participant.user_id

/-- The total amount of the `settlements` in which `user` has the given role
(`Settlement.fromUserId` or `Settlement.toUserId`). -/
def transferred (role : Settlement → String) (settlements : List Settlement)
    (user : String) : ℚ :=
  ((settlements.filter fun s => role s = user).map Settlement.amount).sum

/-- What `user` pays in `settlements`. -/
def paidBy (settlements : List Settlement) (user : String) : ℚ :=
  transferred Settlement.fromUserId settlements user

/-- What `user` receives in `settlements`. -/
def receivedBy (settlements : List Settlement) (user : String) : ℚ :=
  transferred Settlement.toUserId settlements user

/-- The balance of `user` after all `settlements` are applied: raised by what the
user pays, lowered by what the user receives. -/
def adjustedBalance (balance : ℚ) (settlements : List Settlement) (user : String) : ℚ :=
  balance + paidBy settlements user - receivedBy settlements user

/-! ## Closed forms of the two balance folds

The folds call `calculateExpenseShares` without an override map, so the call
cannot throw and only the `"equal"` policy yields shares.  The definitions
below state the resulting fold without `Except`; the lemmas
`balancesExpenseBody_eq` and `settlementsExpenseBody_eq` prove that the
embedded loop bodies compute exactly this. -/

/-- The shares a fold obtains for an expense. -/
def foldShares (ids : List String) (amount : ℚ) (splitType : String) : List ExpenseShare :=
  if splitType = "equal" then
    ids.map fun id => ⟨id, amount / (ids.length : ℚ), 100 / (ids.length : ℚ)⟩
  else []

/-- Lines 145-147: the payer, when tracked, is credited the amount. -/
def creditPayer (balances : StdMap) (payerId : String) (amount : ℚ) : StdMap :=
  if balances.contains payerId then balances.addTo payerId amount else balances

/-- Lines 149-153: every tracked share holder is debited the share. -/
def debitShares (balances : StdMap) (shares : List ExpenseShare) : StdMap :=
  shares.foldl
    (fun (balances : StdMap) share =>
      if balances.contains share.userId then balances.addTo share.userId (-share.amount)
      else balances)
    balances

/-- The effect of one expense on the balances. -/
def expenseEffect (ids : List String) (balances : StdMap) (expense : Expense) : StdMap :=
  match expense.payer_id, expense.amount with
  | some payerId, some amount =>
    if ids.isEmpty then balances
    else
      debitShares (creditPayer balances payerId amount)
        (foldShares ids amount (expense.split_type.getD "equal"))
  | _, _ => balances

/-- The balances every tracked id starts with. -/
def zeroBalances (ids : List String) : StdMap :=
  ids.foldl (fun (balances : StdMap) id => balances.assign id 0) []

/-- The balances after all expenses. -/
def foldedBalances (expenses : List Expense) (ids : List String) : StdMap :=
  expenses.foldl (expenseEffect ids) (zeroBalances ids)

/-- The total of the amounts of a list of shares. -/
def sharesTotal (shares : List ExpenseShare) : ℚ := (shares.map ExpenseShare.amount).sum

/-- What the shares debit from `user`. -/
def debited (shares : List ExpenseShare) (user : String) : ℚ :=
  ((shares.filter fun s => s.userId = user).map ExpenseShare.amount).sum

/-- What one expense adds to the balance of a tracked `user`: the credit when
the user is the payer, minus the shares of the user. -/
def netEffect (ids : List String) (user : String) (expense : Expense) : ℚ :=
  match expense.payer_id, expense.amount with
  | some payerId, some amount =>
    if ids.isEmpty then 0
    else
      (if payerId = user then amount else 0) -
        debited (foldShares ids amount (expense.split_type.getD "equal")) user
  | _, _ => 0

/-- The total of the amounts of a list of settlements. -/
def settlementsTotal (settlements : List Settlement) : ℚ :=
  (settlements.map Settlement.amount).sum

/-- What one expense adds to the sum of the balances: the credit when the payer
is tracked, minus all its shares (which all go to tracked users). -/
def sumEffect (ids : List String) (expense : Expense) : ℚ :=
  match expense.payer_id, expense.amount with
  | some payerId, some amount =>
    if ids.isEmpty then 0
    else
      (if payerId ∈ ids then amount else 0) -
        sharesTotal (foldShares ids amount (expense.split_type.getD "equal"))
  | _, _ => 0

/-- An amount of whole cents: an integer multiple of 0.01. -/
def WholeCents (q : ℚ) : Prop := ∃ n : ℤ, q = n / 100

/-! ## The caller, `SettlementsController::getEventSettlements` -/

/-- Lines 47-60 of `settlements_controller.cpp`: when the requesting user is the
event creator, a participant record for that user is appended to the
participants read from the database (which become a one-element array when they
were no array). -/
def participantsWithCreator (participants : JsonList Participant) (isCreator : Bool)
    (userId : String) : JsonList Participant :=
  if isCreator then
    match participants with
    | .array records => .array (records ++ [⟨some userId⟩])
    | .notArray => .array [⟨some userId⟩]
  else participants

/-! ## The divisions and calls of a run

The share calculator and the two folds once more, statement by statement, in a
writer monad: every floating-point division the program evaluates is recorded
with its operands when it is evaluated, and every call of
`calculateExpenseShares` from a fold is recorded with its arguments when it is
made.  The values computed are those of the definitions above
(`calculateExpenseSharesTraced_value`, `calculateUserBalancesTraced_value`,
`calculateEventSettlementsTraced_value`). -/

/-- What a run records: a division `dividend / divisor` that was evaluated, or
a call `calculateExpenseShares(totalAmount, splitType, participantIds)`. -/
inductive Event where
  | divide (dividend divisor : ℚ)
  | call (totalAmount : ℚ) (splitType : String) (participantIds : List String)
  deriving DecidableEq, Repr

/-- A value with the events recorded while it was computed, oldest first. -/
structure Traced (α : Type) where
  value : α
  events : List Event

instance : Monad Traced where
  pure x := ⟨x, []⟩
  bind x f := ⟨(f x.value).value, x.events ++ (f x.value).events⟩

/-- The division `a / b`: the quotient, and the record that it was evaluated. -/
def tracedDivide (a b : ℚ) : Traced ℚ := ⟨a / b, [Event.divide a b]⟩

/-- The loop of the `"equal"` branch (lines 15-17); every iteration evaluates
`100.0 / participantIds.size()` for the share it appends. -/
def equalSharesTraced (shareAmount : ℚ) (size : Nat) : List String → Traced (List ExpenseShare)
  | [] => pure []
  | userId :: rest => do
    let percentage ← tracedDivide 100 size
    let shares ← equalSharesTraced shareAmount size rest
    pure (⟨userId, shareAmount, percentage⟩ :: shares)

/-- The loop of the `"percentage"` branch (lines 20-26). -/
def percentageSharesTraced (totalAmount : ℚ) (customShares : Json) :
    List String → Traced (Except String (List ExpenseShare))
  | [] => pure (.ok [])
  | userId :: rest =>
    if customShares.contains userId then
      match (customShares.get userId).toDouble with
      | .error e => pure (.error e)
      | .ok percentage => do
        let amount ← tracedDivide (totalAmount * percentage) 100
        let shares ← percentageSharesTraced totalAmount customShares rest
        match shares with
        | .error e => pure (.error e)
        | .ok shares => pure (.ok (⟨userId, amount, percentage⟩ :: shares))
    else percentageSharesTraced totalAmount customShares rest

/-- The loop of the `"custom"` branch (lines 29-35). -/
def customAmountSharesTraced (totalAmount : ℚ) (customShares : Json) :
    List String → Traced (Except String (List ExpenseShare))
  | [] => pure (.ok [])
  | userId :: rest =>
    if customShares.contains userId then
      match (customShares.get userId).toDouble with
      | .error e => pure (.error e)
      | .ok amount => do
        let quotient ← tracedDivide amount totalAmount
        let shares ← customAmountSharesTraced totalAmount customShares rest
        match shares with
        | .error e => pure (.error e)
        | .ok shares => pure (.ok (⟨userId, amount, quotient * 100⟩ :: shares))
    else customAmountSharesTraced totalAmount customShares rest

/-- `SplitCalculator::calculateExpenseShares` (lines 5-39) with its divisions
recorded.  In the `"equal"` branch line 14 divides by `participantIds.size()`
first, before the loop and whatever the size is. -/
def calculateExpenseSharesTraced (totalAmount : ℚ) (splitType : String)
    (participantIds : List String) (customShares : Json) :
    Traced (Except String (List ExpenseShare)) :=
  if splitType = "equal" then do
    let shareAmount ← tracedDivide totalAmount participantIds.length
    let shares ← equalSharesTraced shareAmount participantIds.length participantIds
    pure (.ok shares)
  else if splitType = "percentage" ∧ ¬ customShares.empty then
    percentageSharesTraced totalAmount customShares participantIds
  else if splitType = "custom" ∧ ¬ customShares.empty then
    customAmountSharesTraced totalAmount customShares participantIds
  else
    pure (.ok [])

/-- The call `calculateExpenseShares(amount, splitType, participantIds)` of
lines 82 and 143, in which `customShares` takes its default: the call is
recorded, then the callee runs. -/
def tracedCall (amount : ℚ) (splitType : String) (participantIds : List String) :
    Traced (Except String (List ExpenseShare)) :=
  ⟨(calculateExpenseSharesTraced amount splitType participantIds defaultCustomShares).value,
    Event.call amount splitType participantIds ::
      (calculateExpenseSharesTraced amount splitType participantIds defaultCustomShares).events⟩

/-- A `for` loop over expenses whose body may throw, with the events of the
iterations that ran. -/
def forEachExpenseTraced (body : StdMap → Expense → Traced (Except String StdMap)) :
    List Expense → StdMap → Traced (Except String StdMap)
  | [], balances => pure (.ok balances)
  | expense :: rest, balances => do
    let result ← body balances expense
    match result with
    | .error e => pure (.error e)
    | .ok balances => forEachExpenseTraced body rest balances

/-- Lines 59-94, the body of the expense loop of `calculateEventSettlements`,
with the guard of lines 77-79 before the call of line 82. -/
def settlementsExpenseBodyTraced (participants : JsonList Participant)
    (balances : StdMap) (expense : Expense) : Traced (Except String StdMap) :=
  match expense.payer_id, expense.amount with
  | some payerId, some amount =>
    let splitType := expense.split_type.getD "equal"
    let participantIds := settlementsParticipantIds participants
    if participantIds.isEmpty then pure (.ok balances)
    else do
      let result ← tracedCall amount splitType participantIds
      match result with
      | .error e => pure (.error e)
      | .ok shares =>
        let balances :=
          if balances.contains payerId then balances.addTo payerId amount else balances
        pure (.ok (shares.foldl
          (fun (balances : StdMap) share =>
            if balances.contains share.userId then
              balances.addTo share.userId (-share.amount)
            else balances)
          balances))
  | _, _ => pure (.ok balances)

/-- Lines 122-153, the body of the expense loop of `calculateUserBalances`, with
the guard of lines 139-141 before the call of line 143. -/
def balancesExpenseBodyTraced (participants : JsonList Participant)
    (balances : StdMap) (expense : Expense) : Traced (Except String StdMap) :=
  match expense.payer_id, expense.amount with
  | some payerId, some amount =>
    let splitType := expense.split_type.getD "equal"
    let participantIds := balancesParticipantIds participants
    if participantIds.isEmpty then pure (.ok balances)
    else do
      let result ← tracedCall amount splitType participantIds
      match result with
      | .error e => pure (.error e)
      | .ok shares =>
        let balances :=
          if balances.contains payerId then balances.addTo payerId amount else balances
        pure (.ok (shares.foldl
          (fun (balances : StdMap) share =>
            if balances.contains share.userId then
              balances.addTo share.userId (-share.amount)
            else balances)
          balances))
  | _, _ => pure (.ok balances)

/-- `SplitCalculator::calculateUserBalances` (lines 101-163) with the calls and
divisions of the run. -/
def calculateUserBalancesTraced (_eventId : String) (expenses : JsonList Expense)
    (participants : JsonList Participant) : Traced (Except String StdMap) := do
  let balances := balancesInit participants
  let folded ←
    (if expenses.is_array then
      forEachExpenseTraced (balancesExpenseBodyTraced participants) expenses.elements balances
    else pure (.ok balances))
  match folded with
  | .error e => pure (.error e)
  | .ok balances =>
    pure (.ok (balances.foldl (fun (result : StdMap) entry => result.assign entry.1 entry.2) []))

/-- `SplitCalculator::calculateEventSettlements` (lines 41-99) with the calls
and divisions of the run; `optimizeSettlements` divides nothing. -/
def calculateEventSettlementsTraced (expenses : JsonList Expense)
    (participants : JsonList Participant) : Traced (Except String (List Settlement)) := do
  let balances := settlementsInitBalances participants
  let folded ←
    (if expenses.is_array then
      forEachExpenseTraced (settlementsExpenseBodyTraced participants) expenses.elements
        balances
    else pure (.ok balances))
  match folded with
  | .error e => pure (.error e)
  | .ok balances => pure (.ok (optimizeSettlements balances))

/-! ## `optimizeSettlements` on IEEE 754 binary64

The definitions above read `double` as `ℚ`.  The matching loop is the one place
where the program branches on amounts it has just computed, so it is embedded a
second time on binary64 values: rounded subtraction, infinities and NaN
included.  Only the operations the loop uses are defined: unary minus, `-`,
`<` (and `>`, its mirror image) and `std::min`. -/

/-- A binary64 value.  Every finite double, normal or subnormal, is an integer
multiple of `2^-1074`, and `finite units` is the value `units * 2^-1074`.  The
doubles are the infinities, NaN and the `finite units` with `|units|` at most
`maxUnits` and unchanged by `roundUnits`.  The two zeros are the one value
`finite 0`, and NaN has no payload: the loop observes neither. -/
inductive F64 where
  | finite (units : ℤ)
  | posInf
  | negInf
  | nan
  deriving DecidableEq, Repr

/-- The number of binary digits of `n` (`0` for `0`); `fuel` bounds the number
of halvings and `fuel = n` always suffices. -/
def bitLength : ℕ → ℕ → ℕ
  | 0, _ => 0
  | fuel + 1, n => if n = 0 then 0 else bitLength fuel (n / 2) + 1

/-- Rounding of a magnitude, given in units of `2^-1074`, to 53 significant
binary digits: to the nearest such number, and to the one with an even last
digit when two are equally near (the default rounding of IEEE 754). -/
def roundUnits (n : ℕ) : ℕ :=
  if n < 2 ^ 53 then n
  else
    let k := bitLength n n - 53
    let q := n / 2 ^ k
    let r := n % 2 ^ k
    if 2 * r < 2 ^ k then q * 2 ^ k
    else if 2 * r = 2 ^ k ∧ q % 2 = 0 then q * 2 ^ k
    else (q + 1) * 2 ^ k

/-- The largest finite double, `(2^53 - 1) * 2^971`, in units of `2^-1074`. -/
def maxUnits : ℕ := (2 ^ 53 - 1) * 2 ^ 2045

/-- The double an exact result `z * 2^-1074` is delivered as: rounded, and an
infinity when the rounded magnitude exceeds the largest finite double. -/
def F64.ofUnits (z : ℤ) : F64 :=
  if roundUnits z.natAbs ≤ maxUnits then
    F64.finite (if z < 0 then -(roundUnits z.natAbs : ℤ) else (roundUnits z.natAbs : ℤ))
  else if z < 0 then F64.negInf else F64.posInf

/-- The double `m * 2^(e - 1074)`. -/
def F64.scaled (m : ℤ) (e : ℕ) : F64 := F64.finite (m * ((2 ^ e : ℕ) : ℤ))

/-- The double of a whole number. -/
def F64.ofInt (n : ℤ) : F64 := F64.scaled n 1074

/-- Unary minus. -/
def F64.neg : F64 → F64
  | .finite a => .finite (-a)
  | .posInf => .negInf
  | .negInf => .posInf
  | .nan => .nan

/-- The operator `-`: the exact difference, rounded; NaN when an operand is
NaN or both are the same infinity. -/
def F64.sub : F64 → F64 → F64
  | .finite a, .finite b => F64.ofUnits (a - b)
  | .nan, _ => .nan
  | _, .nan => .nan
  | .posInf, .posInf => .nan
  | .negInf, .negInf => .nan
  | .posInf, _ => .posInf
  | .negInf, _ => .negInf
  | .finite _, .posInf => .negInf
  | .finite _, .negInf => .posInf

/-- The operator `<`, false whenever an operand is NaN; `a > b` is `lt b a`. -/
def F64.lt : F64 → F64 → Bool
  | .finite a, .finite b => decide (a < b)
  | .nan, _ => false
  | _, .nan => false
  | .negInf, .negInf => false
  | .negInf, _ => true
  | _, .negInf => false
  | .posInf, _ => false
  | .finite _, .posInf => true

/-- `std::min(a, b)`, which is `(b < a) ? b : a`. -/
def F64.min (a b : F64) : F64 := if F64.lt b a then b else a

/-- The literal `0.01`: the double nearest to 1/100, `0x1.47ae147ae147bp-7`. -/
def cent : F64 := F64.scaled 5764607523034235 1015

/-- The record `Settlement` with its `double` as binary64. -/
structure Settlement64 where
  fromUserId : String
  toUserId : String
  amount : F64
  deriving DecidableEq, Repr

/-- Lines 171-177, first branch, on binary64. -/
def debtorsOf64 (balances : List (String × F64)) : List (String × F64) :=
  balances.filterMap fun entry =>
    if F64.lt entry.2 (F64.neg cent) then some (entry.1, F64.neg entry.2) else none

/-- Lines 171-177, second branch, on binary64. -/
def creditorsOf64 (balances : List (String × F64)) : List (String × F64) :=
  balances.filterMap fun entry =>
    if F64.lt entry.2 (F64.neg cent) then none
    else if F64.lt cent entry.2 then some (entry.1, entry.2) else none

/-- Insertion into a list sorted by descending amount, before the first entry
of smaller amount. -/
def insertByAmountDesc64 (x : String × F64) : List (String × F64) → List (String × F64)
  | [] => [x]
  | y :: ys => if F64.lt x.2 y.2 then y :: insertByAmountDesc64 x ys else x :: y :: ys

/-- Lines 180-183 on binary64: one result `std::sort` may deliver (entries of
equal amount stay in input order), and the only one when the amounts differ. -/
def sortByAmountDesc64 : List (String × F64) → List (String × F64)
  | [] => []
  | x :: xs => insertByAmountDesc64 x (sortByAmountDesc64 xs)

/-- The variables of the matching loop. -/
structure MatchState64 where
  debtors : List (String × F64)
  creditors : List (String × F64)
  i : Nat
  j : Nat
  settlements : List Settlement64
  deriving DecidableEq, Repr

/-- Line 187: the loop condition. -/
def MatchState64.running (s : MatchState64) : Bool :=
  decide (s.i < s.debtors.length) && decide (s.j < s.creditors.length)

/-- Lines 188-200: one iteration (the state is returned as it is when a cursor
is out of range, which the loop condition excludes). -/
def matchIteration64 (s : MatchState64) : MatchState64 :=
  match s.debtors[s.i]?, s.creditors[s.j]? with
  | some (debtor, debt), some (creditor, credit) =>
    let amount := F64.min debt credit
    ⟨s.debtors.set s.i (debtor, F64.sub debt amount),
      s.creditors.set s.j (creditor, F64.sub credit amount),
      if F64.lt (F64.sub debt amount) cent then s.i + 1 else s.i,
      if F64.lt (F64.sub credit amount) cent then s.j + 1 else s.j,
      s.settlements ++ [⟨debtor, creditor, amount⟩]⟩
  | _, _ => s

/-- What is known of a run of the loop after a bounded number of iterations:
the loop has ended and `settlements` is returned, or it is still running and
has appended `settlements` so far. -/
inductive LoopOutcome where
  | returned (settlements : List Settlement64)
  | stillRunning (settlements : List Settlement64)
  deriving DecidableEq, Repr

/-- Lines 186-203: the loop, run for at most `fuel` iterations. -/
def runMatchLoop64 : Nat → MatchState64 → LoopOutcome
  | 0, s => if s.running then .stillRunning s.settlements else .returned s.settlements
  | fuel + 1, s =>
    if s.running then runMatchLoop64 fuel (matchIteration64 s) else .returned s.settlements

/-- `SplitCalculator::optimizeSettlements` (lines 165-204) on binary64, for a
given result of `std::sort` and a bound on the iterations of the loop.  The
balance map is the list of its entries in key order. -/
def optimizeSettlements64With (sort : List (String × F64) → List (String × F64))
    (fuel : Nat) (balances : List (String × F64)) : LoopOutcome :=
  runMatchLoop64 fuel ⟨sort (debtorsOf64 balances), sort (creditorsOf64 balances), 0, 0, []⟩

/-- `optimizeSettlements` on binary64 with `sortByAmountDesc64` for `std::sort`. -/
def optimizeSettlements64 (fuel : Nat) (balances : List (String × F64)) : LoopOutcome :=
  optimizeSettlements64With sortByAmountDesc64 fuel balances

/-- The outcome with `settlements` put before its own. -/
def LoopOutcome.prepend (settlements : List Settlement64) : LoopOutcome → LoopOutcome
  | .returned rest => .returned (settlements ++ rest)
  | .stillRunning rest => .stillRunning (settlements ++ rest)

/-- The loop of `runMatchLoop64` as a function of what lies from the cursors on:
`debtors` from index `i` and `creditors` from index `j`, with the amounts as
updated so far (`runMatchLoop64_eq`). -/
def matchLoop64 : Nat → List (String × F64) → List (String × F64) → LoopOutcome
  | _, [], _ => .returned []
  | _, _ :: _, [] => .returned []
  | 0, _ :: _, _ :: _ => .stillRunning []
  | fuel + 1, (debtor, debt) :: debtors, (creditor, credit) :: creditors =>
    (matchLoop64 fuel
      (if F64.lt (F64.sub debt (F64.min debt credit)) cent then debtors
        else (debtor, F64.sub debt (F64.min debt credit)) :: debtors)
      (if F64.lt (F64.sub credit (F64.min debt credit)) cent then creditors
        else (creditor, F64.sub credit (F64.min debt credit)) :: creditors)).prepend
      [⟨debtor, creditor, F64.min debt credit⟩]

/-- A finite double: not an infinity, not NaN, of magnitude at most the largest
finite double. -/
def F64.IsFinite : F64 → Prop
  | .finite units => units.natAbs ≤ maxUnits
  | _ => False

instance (x : F64) : Decidable x.IsFinite :=
  match x with
  | .finite units => inferInstanceAs (Decidable (units.natAbs ≤ maxUnits))
  | .posInf => isFalse id
  | .negInf => isFalse id
  | .nan => isFalse id

/-- A finite double that is not negative: what an entry of `debtors` or
`creditors` holds when the balances are finite. -/
def F64.IsAmount (x : F64) : Prop :=
  ∃ units : ℤ, x = F64.finite units ∧ 0 ≤ units ∧ units ≤ (maxUnits : ℤ)

/-- The number of participants with a nonzero balance, on binary64. -/
def nonzeroCount64 (balances : List (String × F64)) : Nat :=
  (balances.filter fun entry => entry.2 ≠ F64.finite 0).length

/-- The exact value of a finite double in units of `2^-1074` (`0` for a value
that is not finite). -/
def F64.units : F64 → ℤ
  | .finite units => units
  | _ => 0

/-- What `user` pays in `settlements`, summed exactly, in units of `2^-1074`. -/
def paidUnits (settlements : List Settlement64) (user : String) : ℤ :=
  ((settlements.filter fun s => s.fromUserId = user).map fun s => s.amount.units).sum

/-- What `user` receives in `settlements`, summed exactly, in units of
`2^-1074`. -/
def receivedUnits (settlements : List Settlement64) (user : String) : ℤ :=
  ((settlements.filter fun s => s.toUserId = user).map fun s => s.amount.units).sum

/-- The exact balance of `user` after all `settlements` are applied, in units
of `2^-1074`. -/
def adjustedUnits (balance : F64) (settlements : List Settlement64) (user : String) : ℤ :=
  balance.units + paidUnits settlements user - receivedUnits settlements user

/-- An exact amount, in units of `2^-1074`, that is below 0.01. -/
def BelowCent (units : ℤ) : Prop := 100 * units < ((2 ^ 1074 : ℕ) : ℤ)

instance (units : ℤ) : Decidable (BelowCent units) :=
  inferInstanceAs (Decidable (100 * units < ((2 ^ 1074 : ℕ) : ℤ)))

/-- The balances -35.85, 13.44, 14.33 and 13.7 as the doubles the program
holds: `-0x1.1eccccccccccdp+5`, `0x1.ae147ae147ae1p+3`, `0x1.ca8f5c28f5c29p+3`
and `0x1.b666666666666p+3`. -/
def roundedBalances : List (String × F64) :=
  [("A", F64.scaled (-5045438957538509) 1027), ("B", F64.scaled 7566047373982433 1025),
    ("C", F64.scaled 8067072832527401 1025), ("D", F64.scaled 3856207180935987 1026)]

/-- The balances -1365.65, 490.95, 487.4, 387.2900000000001 and 5 as doubles. -/
def shortfallBalances : List (String × F64) :=
  [("P", F64.scaled 8636883738506035 1030), ("Q", F64.scaled 4287215739024179 1031),
    ("R", F64.scaled 3406638866570937 1031), ("S", F64.ofInt 5),
    ("X", F64.scaled (-3003096108944589) 1033)]

/-- One creditor, `A = 3 + 2^-50`, and the debts `1 + 3 * 2^-52`, `1 + 2^-52`
and `1`, which sum to the credit exactly. -/
def singleCreditorBalances : List (String × F64) :=
  [("A", F64.scaled 3377699720527873 1024), ("B", F64.scaled (-4503599627370499) 1022),
    ("C", F64.scaled (-4503599627370497) 1022), ("D", F64.ofInt (-1))]

/-- A balance map with an infinite credit and an infinite debt. -/
def infiniteBalances : List (String × F64) := [("A", F64.posInf), ("B", F64.negInf)]

/-- What the program returns on `roundedBalances`: A pays C 14.33, D 13.7 and B
7.820000000000004 (`0x1.f47ae147ae14cp+2`). -/
def roundedSettlements : List Settlement64 :=
  [⟨"A", "C", F64.scaled 8067072832527401 1025⟩, ⟨"A", "D", F64.scaled 3856207180935987 1026⟩,
    ⟨"A", "B", F64.scaled 2201134317877331 1026⟩]

/-- What the program returns on `shortfallBalances`: X pays P 490.95, Q 487.4
and R 387.2900000000001, and nothing to S. -/
def shortfallSettlements : List Settlement64 :=
  [⟨"X", "P", F64.scaled 8636883738506035 1030⟩, ⟨"X", "Q", F64.scaled 4287215739024179 1031⟩,
    ⟨"X", "R", F64.scaled 3406638866570937 1031⟩]

/-- What the program returns on `singleCreditorBalances`: B and C pay their
debts, D pays `1 - 2^-52`. -/
def singleCreditorSettlements : List Settlement64 :=
  [⟨"B", "A", F64.scaled 4503599627370499 1022⟩, ⟨"C", "A", F64.scaled 4503599627370497 1022⟩,
    ⟨"D", "A", F64.scaled 4503599627370495 1022⟩]

/-- The balances 60, -30 and -30 as doubles. -/
def exampleBalances64 : List (String × F64) :=
  [("A", F64.ofInt 60), ("B", F64.ofInt (-30)), ("C", F64.ofInt (-30))]

/-! ## `std::sort` in exact arithmetic -/

/-- What the C++ standard promises of `std::sort` with the comparator of lines
180-183: a rearrangement of the entries in which none is followed by an entry
of larger amount.  The order of entries of equal amount is left open. -/
def StdSortSpec (sort : List (String × ℚ) → List (String × ℚ)) : Prop :=
  ∀ entries, (sort entries).Perm entries ∧ (sort entries).Pairwise fun a b => b.2 ≤ a.2

/-- `optimizeSettlements` in exact arithmetic for a given result of `std::sort`;
`optimizeSettlements` is the instance with `sortByAmountDesc`. -/
def optimizeSettlementsWith (sort : List (String × ℚ) → List (String × ℚ))
    (balances : StdMap) : List Settlement :=
  matchSettlements (sort (debtorsOf balances)) (sort (creditorsOf balances))

/-! # Properties

## The ordered map -/

namespace StdMap

theorem find_assign_self (m : StdMap) (k : String) (v : ℚ) :
    find (assign m k v) k = some v := by
  induction m with
  | nil => simp [assign, find]
  | cons e rest ih =>
    obtain ⟨k', v'⟩ := e
    unfold assign
    split_ifs with h1 h2
    · simp [find, h1]
    · simp [find]
    · simp [find, h1, ih]

theorem find_assign_ne (m : StdMap) (k : String) (v : ℚ) (k' : String) (h : k' ≠ k) :
    find (assign m k v) k' = find m k' := by
  induction m with
  | nil => simp [assign, find, h]
  | cons e rest ih =>
    obtain ⟨k₀, v₀⟩ := e
    unfold assign
    split_ifs with h1 h2
    · subst h1; simp [find, h]
    · simp [find, h]
    · simp [find, ih]

theorem mem_keys_of_find {m : StdMap} {k : String} {v : ℚ} (h : find m k = some v) :
    k ∈ keys m := by
  induction m with
  | nil => simp [find] at h
  | cons e rest ih =>
    obtain ⟨k₀, v₀⟩ := e
    unfold find at h
    split_ifs at h with h1
    · simp [keys, h1]
    · have := ih h
      simp only [keys, List.map_cons, List.mem_cons] at this ⊢
      exact Or.inr this

theorem find_isSome_iff (m : StdMap) (k : String) :
    (find m k).isSome = true ↔ k ∈ keys m := by
  induction m with
  | nil => simp [find, keys]
  | cons e rest ih =>
    obtain ⟨k₀, v₀⟩ := e
    unfold find
    split_ifs with h1
    · simp [keys, h1]
    · simp only [keys, List.map_cons, List.mem_cons, h1, false_or]
      exact ih

theorem contains_iff (m : StdMap) (k : String) : contains m k = true ↔ k ∈ keys m :=
  find_isSome_iff m k

theorem mem_keys_assign (m : StdMap) (k : String) (v : ℚ) (k' : String) :
    k' ∈ keys (assign m k v) ↔ k' = k ∨ k' ∈ keys m := by
  induction m with
  | nil => simp [assign, keys]
  | cons e rest ih =>
    obtain ⟨k₀, v₀⟩ := e
    unfold assign
    split_ifs with h1 h2
    · subst h1; simp [keys]
    · simp [keys]
    · simp only [keys, List.map_cons, List.mem_cons] at ih ⊢
      rw [ih]; tauto

theorem wf_cons {k : String} {v : ℚ} {rest : StdMap} :
    WF ((k, v) :: rest) ↔ (∀ k' ∈ keys rest, k < k') ∧ WF rest := by
  simp [WF, keys, List.pairwise_cons]

theorem wf_assign {m : StdMap} (h : WF m) (k : String) (v : ℚ) : WF (assign m k v) := by
  induction m with
  | nil => simp [assign, WF]
  | cons e rest ih =>
    obtain ⟨k₀, v₀⟩ := e
    obtain ⟨hlt, hrest⟩ := wf_cons.1 h
    unfold assign
    split_ifs with h1 h2
    · exact wf_cons.2 ⟨hlt, hrest⟩
    · refine wf_cons.2 ⟨?_, h⟩
      intro k' hk'
      simp only [keys, List.map_cons, List.mem_cons] at hk'
      rcases hk' with rfl | hk'
      · exact h2
      · exact lt_trans h2 (hlt k' hk')
    · refine wf_cons.2 ⟨?_, ih hrest⟩
      intro k' hk'
      rcases (mem_keys_assign rest k v k').1 hk' with rfl | hk'
      · exact lt_of_le_of_ne (not_lt.1 h2) (Ne.symm h1)
      · exact hlt k' hk'

theorem find_eq_none_of_lt {m : StdMap} {k : String} (h : ∀ k' ∈ keys m, k < k') :
    find m k = none := by
  cases hf : find m k with
  | none => rfl
  | some v => exact absurd (h k (mem_keys_of_find hf)) (lt_irrefl k)

theorem keys_assign_of_find {m : StdMap} (h : WF m) {k : String} {old : ℚ}
    (hf : find m k = some old) (v : ℚ) : keys (assign m k v) = keys m := by
  induction m with
  | nil => simp [find] at hf
  | cons e rest ih =>
    obtain ⟨k₀, v₀⟩ := e
    obtain ⟨hlt, hrest⟩ := wf_cons.1 h
    unfold assign
    unfold find at hf
    split_ifs with h1 h2
    · rfl
    · exfalso
      rw [if_neg h1] at hf
      have : find rest k = none :=
        find_eq_none_of_lt fun k' hk' => lt_trans h2 (hlt k' hk')
      rw [this] at hf; cases hf
    · rw [if_neg h1] at hf
      simp only [keys, List.map_cons] at ih ⊢
      rw [ih hrest hf]

theorem sum_assign_of_find {m : StdMap} (h : WF m) {k : String} {old : ℚ}
    (hf : find m k = some old) (v : ℚ) : sum (assign m k v) = sum m - old + v := by
  induction m with
  | nil => simp [find] at hf
  | cons e rest ih =>
    obtain ⟨k₀, v₀⟩ := e
    obtain ⟨hlt, hrest⟩ := wf_cons.1 h
    unfold assign
    unfold find at hf
    split_ifs with h1 h2
    · rw [if_pos h1] at hf
      cases hf
      simp only [sum, List.map_cons, List.sum_cons]; ring
    · exfalso
      rw [if_neg h1] at hf
      have : find rest k = none :=
        find_eq_none_of_lt fun k' hk' => lt_trans h2 (hlt k' hk')
      rw [this] at hf; cases hf
    · rw [if_neg h1] at hf
      simp only [sum, List.map_cons, List.sum_cons] at ih ⊢
      rw [ih hrest hf]; ring

theorem assign_append_of_lt (acc : StdMap) (k : String) (v : ℚ)
    (h : ∀ k' ∈ keys acc, k' < k) : assign acc k v = acc ++ [(k, v)] := by
  induction acc with
  | nil => rfl
  | cons e rest ih =>
    obtain ⟨k₀, v₀⟩ := e
    have h0 : k₀ < k := h k₀ (by simp [keys])
    unfold assign
    rw [if_neg (ne_of_gt h0), if_neg (not_lt.2 (le_of_lt h0))]
    rw [ih fun k' hk' => h k' (by simp only [keys, List.map_cons, List.mem_cons] at hk' ⊢; exact Or.inr hk')]
    rfl

theorem copy_entries_aux (m acc : StdMap) (h : WF (acc ++ m)) :
    m.foldl (fun (result : StdMap) entry => result.assign entry.1 entry.2) acc = acc ++ m := by
  induction m generalizing acc with
  | nil => simp
  | cons e rest ih =>
    obtain ⟨k, v⟩ := e
    simp only [List.foldl_cons]
    have hlt : ∀ k' ∈ keys acc, k' < k := by
      intro k' hk'
      have := h
      simp only [WF, List.map_append, List.map_cons, List.pairwise_append] at this
      exact this.2.2 k' hk' k (by simp)
    rw [assign_append_of_lt acc k v hlt]
    have h' : WF ((acc ++ [(k, v)]) ++ rest) := by simpa using h
    rw [ih _ h']
    simp

theorem copy_entries {m : StdMap} (h : WF m) :
    m.foldl (fun (result : StdMap) entry => result.assign entry.1 entry.2) [] = m := by
  simpa using copy_entries_aux m [] (by simpa using h)

end StdMap

/-! ## The balance folds -/

namespace StdMap

theorem wf_addTo {m : StdMap} (h : WF m) (k : String) (d : ℚ) : WF (addTo m k d) :=
  wf_assign h k _

theorem keys_addTo {m : StdMap} (h : WF m) {k : String} (hk : contains m k = true) (d : ℚ) :
    keys (addTo m k d) = keys m := by
  unfold contains at hk
  obtain ⟨old, hold⟩ := Option.isSome_iff_exists.1 hk
  exact keys_assign_of_find h hold _

theorem sum_addTo {m : StdMap} (h : WF m) {k : String} (hk : contains m k = true) (d : ℚ) :
    sum (addTo m k d) = sum m + d := by
  unfold contains at hk
  obtain ⟨old, hold⟩ := Option.isSome_iff_exists.1 hk
  unfold addTo
  rw [sum_assign_of_find h hold, hold]
  simp only [Option.getD_some]
  ring

theorem wf_nil : WF ([] : StdMap) := by simp [WF]

end StdMap

theorem calculateExpenseShares_default (amount : ℚ) (splitType : String) (ids : List String) :
    calculateExpenseShares amount splitType ids defaultCustomShares =
      .ok (foldShares ids amount splitType) := by
  unfold calculateExpenseShares foldShares
  by_cases h : splitType = "equal"
  · simp [h]
  · simp [h, defaultCustomShares, Json.empty]

theorem balancesParticipantIds_eq (participants : JsonList Participant) :
    balancesParticipantIds participants = trackedIds participants := by
  cases participants <;> rfl

theorem settlementsParticipantIds_eq (participants : JsonList Participant) :
    settlementsParticipantIds participants = trackedIds participants := by
  cases participants <;> rfl

theorem foldl_assign_filterMap (ps : List Participant) (acc : StdMap) :
    ps.foldl
      (fun (balances : StdMap) participant =>
        match participant.user_id with
        | some userId => balances.assign userId 0
        | none => balances) acc =
    (ps.filterMap fun participant => participant.user_id).foldl
      (fun (balances : StdMap) id => balances.assign id 0) acc := by
  induction ps generalizing acc with
  | nil => rfl
  | cons p rest ih =>
    cases hp : p.user_id with
    | none => simp [List.filterMap_cons, hp, ih]
    | some u => simp [List.filterMap_cons, hp, ih]

theorem balancesInit_eq (participants : JsonList Participant) :
    balancesInit participants = zeroBalances (trackedIds participants) := by
  cases participants with
  | array ps => exact foldl_assign_filterMap ps []
  | notArray => rfl

theorem settlementsInitBalances_eq (participants : JsonList Participant) :
    settlementsInitBalances participants = zeroBalances (trackedIds participants) := by
  cases participants with
  | array ps => exact foldl_assign_filterMap ps []
  | notArray => rfl

theorem balancesExpenseBody_eq (participants : JsonList Participant) (balances : StdMap)
    (expense : Expense) :
    balancesExpenseBody participants balances expense =
      .ok (expenseEffect (trackedIds participants) balances expense) := by
  unfold balancesExpenseBody expenseEffect debitShares creditPayer
  rw [balancesParticipantIds_eq]
  cases expense.payer_id <;> cases expense.amount <;> try rfl
  simp only [calculateExpenseShares_default]
  split_ifs <;> rfl

theorem settlementsExpenseBody_eq (participants : JsonList Participant) (balances : StdMap)
    (expense : Expense) :
    settlementsExpenseBody participants balances expense =
      .ok (expenseEffect (trackedIds participants) balances expense) := by
  unfold settlementsExpenseBody expenseEffect debitShares creditPayer
  rw [settlementsParticipantIds_eq]
  cases expense.payer_id <;> cases expense.amount <;> try rfl
  simp only [calculateExpenseShares_default]
  split_ifs <;> rfl

theorem forEachExpense_eq (body : StdMap → Expense → Except String StdMap)
    (effect : StdMap → Expense → StdMap) (h : ∀ b e, body b e = .ok (effect b e))
    (expenses : List Expense) (balances : StdMap) :
    forEachExpense body expenses balances = .ok (expenses.foldl effect balances) := by
  induction expenses generalizing balances with
  | nil => rfl
  | cons e rest ih =>
    unfold forEachExpense
    rw [h]
    exact ih _

/-! ### Invariants of the fold: key order and key set -/

theorem wf_zeroBalances_aux (ids : List String) (acc : StdMap) (h : StdMap.WF acc) :
    StdMap.WF (ids.foldl (fun (balances : StdMap) id => balances.assign id 0) acc) := by
  induction ids generalizing acc with
  | nil => exact h
  | cons id rest ih => exact ih _ (StdMap.wf_assign h id 0)

theorem wf_zeroBalances (ids : List String) : StdMap.WF (zeroBalances ids) :=
  wf_zeroBalances_aux ids [] StdMap.wf_nil

theorem mem_keys_zeroBalances_aux (ids : List String) (acc : StdMap) (k : String) :
    k ∈ StdMap.keys (ids.foldl (fun (balances : StdMap) id => balances.assign id 0) acc) ↔
      k ∈ ids ∨ k ∈ StdMap.keys acc := by
  induction ids generalizing acc with
  | nil => simp
  | cons id rest ih =>
    simp only [List.foldl_cons, List.mem_cons]
    rw [ih, StdMap.mem_keys_assign]
    tauto

theorem mem_keys_zeroBalances (ids : List String) (k : String) :
    k ∈ StdMap.keys (zeroBalances ids) ↔ k ∈ ids := by
  unfold zeroBalances
  rw [mem_keys_zeroBalances_aux]
  simp [StdMap.keys]

theorem StdMap.mem_assign {m : StdMap} {k : String} {v : ℚ} {e : String × ℚ}
    (h : e ∈ StdMap.assign m k v) : e = (k, v) ∨ e ∈ m := by
  induction m with
  | nil => simpa [StdMap.assign] using h
  | cons e₀ rest ih =>
    obtain ⟨k₀, v₀⟩ := e₀
    unfold StdMap.assign at h
    split_ifs at h with h1 h2
    · rcases List.mem_cons.1 h with h | h
      · left; rw [h, h1]
      · right; exact List.mem_cons_of_mem _ h
    · rcases List.mem_cons.1 h with h | h
      · left; exact h
      · right; exact h
    · rcases List.mem_cons.1 h with h | h
      · right; rw [h]; exact List.mem_cons_self _ _
      · rcases ih h with h | h
        · left; exact h
        · right; exact List.mem_cons_of_mem _ h

theorem values_zeroBalances_aux (ids : List String) (acc : StdMap)
    (h : ∀ e ∈ acc, e.2 = 0) :
    ∀ e ∈ ids.foldl (fun (balances : StdMap) id => balances.assign id 0) acc, e.2 = 0 := by
  induction ids generalizing acc with
  | nil => exact h
  | cons id rest ih =>
    simp only [List.foldl_cons]
    apply ih
    intro e he
    rcases StdMap.mem_assign he with rfl | he
    · rfl
    · exact h e he

theorem values_zeroBalances (ids : List String) : ∀ e ∈ zeroBalances ids, e.2 = 0 :=
  values_zeroBalances_aux ids [] (by simp)

theorem sum_zeroBalances (ids : List String) : StdMap.sum (zeroBalances ids) = 0 := by
  unfold StdMap.sum
  apply List.sum_eq_zero
  intro x hx
  obtain ⟨e, he, rfl⟩ := List.mem_map.1 hx
  exact values_zeroBalances ids e he

theorem wf_creditPayer {b : StdMap} (h : StdMap.WF b) (p : String) (a : ℚ) :
    StdMap.WF (creditPayer b p a) := by
  unfold creditPayer
  split_ifs
  · exact StdMap.wf_addTo h p a
  · exact h

theorem keys_creditPayer {b : StdMap} (h : StdMap.WF b) (p : String) (a : ℚ) :
    StdMap.keys (creditPayer b p a) = StdMap.keys b := by
  unfold creditPayer
  split_ifs with hc
  · exact StdMap.keys_addTo h hc a
  · rfl

theorem sum_creditPayer {b : StdMap} (h : StdMap.WF b) (p : String) (a : ℚ) :
    StdMap.sum (creditPayer b p a) = StdMap.sum b + (if p ∈ StdMap.keys b then a else 0) := by
  unfold creditPayer
  split_ifs with hc hk hk
  · exact StdMap.sum_addTo h hc a
  · exact absurd ((StdMap.contains_iff b p).1 hc) hk
  · exact absurd ((StdMap.contains_iff b p).2 hk) hc
  · simp

theorem debitShares_invariant (shares : List ExpenseShare) (b : StdMap) (h : StdMap.WF b) :
    StdMap.WF (debitShares b shares) ∧ StdMap.keys (debitShares b shares) = StdMap.keys b ∧
    StdMap.sum (debitShares b shares) =
      StdMap.sum b - sharesTotal (shares.filter fun s => s.userId ∈ StdMap.keys b) := by
  induction shares generalizing b with
  | nil => simp [debitShares, sharesTotal, h]
  | cons s rest ih =>
    unfold debitShares
    simp only [List.foldl_cons]
    by_cases hc : b.contains s.userId = true
    · have hk := (StdMap.contains_iff b s.userId).1 hc
      rw [if_pos hc]
      have hwf := StdMap.wf_addTo h s.userId (-s.amount)
      have hkeys := StdMap.keys_addTo h hc (-s.amount)
      obtain ⟨i1, i2, i3⟩ := ih _ hwf
      unfold debitShares at i1 i2 i3
      refine ⟨i1, i2.trans hkeys, ?_⟩
      rw [i3, hkeys, StdMap.sum_addTo h hc]
      simp only [sharesTotal, List.filter_cons, hk, decide_True, if_true, List.map_cons,
        List.sum_cons]
      ring
    · have hk : ¬ s.userId ∈ StdMap.keys b := fun hk => hc ((StdMap.contains_iff b s.userId).2 hk)
      rw [if_neg hc]
      obtain ⟨i1, i2, i3⟩ := ih _ h
      unfold debitShares at i1 i2 i3
      refine ⟨i1, i2, ?_⟩
      rw [i3]
      simp [sharesTotal, List.filter_cons, hk]


theorem mem_foldShares {ids : List String} {amount : ℚ} {splitType : String}
    {s : ExpenseShare} (h : s ∈ foldShares ids amount splitType) : s.userId ∈ ids := by
  unfold foldShares at h
  split_ifs at h
  · obtain ⟨id, hid, rfl⟩ := List.mem_map.1 h
    exact hid
  · simp at h

/-- What one expense does to the balances: the key order and the key set stay,
and the sum moves by the credit that reaches a tracked payer minus the shares
that reach tracked participants. -/
theorem expenseEffect_invariant (ids : List String) (b : StdMap) (e : Expense)
    (h : StdMap.WF b) :
    StdMap.WF (expenseEffect ids b e) ∧
    StdMap.keys (expenseEffect ids b e) = StdMap.keys b := by
  unfold expenseEffect
  cases e.payer_id with
  | none => exact ⟨h, rfl⟩
  | some p =>
    cases e.amount with
    | none => exact ⟨h, rfl⟩
    | some a =>
      simp only
      split_ifs
      · exact ⟨h, rfl⟩
      · obtain ⟨i1, i2, _⟩ := debitShares_invariant
          (foldShares ids a (e.split_type.getD "equal")) _ (wf_creditPayer h p a)
        exact ⟨i1, i2.trans (keys_creditPayer h p a)⟩

theorem sum_expenseEffect (ids : List String) (b : StdMap) (e : Expense)
    (h : StdMap.WF b) (hkeys : ∀ k, k ∈ StdMap.keys b ↔ k ∈ ids) (p : String) (a : ℚ)
    (hp : e.payer_id = some p) (ha : e.amount = some a) :
    StdMap.sum (expenseEffect ids b e) =
      StdMap.sum b + (if p ∈ ids then a else 0) -
        sharesTotal (foldShares ids a (e.split_type.getD "equal")) := by
  unfold expenseEffect
  rw [hp, ha]
  simp only
  split_ifs with hemp hmem hmem
  · have : ids = [] := List.isEmpty_iff.1 hemp
    subst this
    simp at hmem
  · have : ids = [] := List.isEmpty_iff.1 hemp
    subst this
    simp [foldShares, sharesTotal]
  all_goals
    obtain ⟨_, _, i3⟩ := debitShares_invariant
      (foldShares ids a (e.split_type.getD "equal")) _ (wf_creditPayer h p a)
    rw [i3, sum_creditPayer h, keys_creditPayer h]
    have hall : (foldShares ids a (e.split_type.getD "equal")).filter
        (fun s => s.userId ∈ StdMap.keys b) = foldShares ids a (e.split_type.getD "equal") := by
      apply List.filter_eq_self.2
      intro s hs
      simpa using (hkeys s.userId).2 (mem_foldShares hs)
    rw [hall]
    simp [hkeys, hmem]

theorem foldl_expenseEffect_invariant (ids : List String) (es : List Expense) (b : StdMap)
    (h : StdMap.WF b) :
    StdMap.WF (es.foldl (expenseEffect ids) b) ∧
    StdMap.keys (es.foldl (expenseEffect ids) b) = StdMap.keys b := by
  induction es generalizing b with
  | nil => exact ⟨h, rfl⟩
  | cons e rest ih =>
    obtain ⟨h1, h2⟩ := expenseEffect_invariant ids b e h
    obtain ⟨i1, i2⟩ := ih _ h1
    exact ⟨i1, i2.trans h2⟩

theorem wf_foldedBalances (es : List Expense) (ids : List String) :
    StdMap.WF (foldedBalances es ids) :=
  (foldl_expenseEffect_invariant ids es _ (wf_zeroBalances ids)).1

theorem keys_foldedBalances (es : List Expense) (ids : List String) :
    StdMap.keys (foldedBalances es ids) = StdMap.keys (zeroBalances ids) :=
  (foldl_expenseEffect_invariant ids es _ (wf_zeroBalances ids)).2

/-- The closed form of `calculateUserBalances`: it never throws and returns
the folded balances. -/
theorem calculateUserBalances_eq (eventId : String) (expenses : JsonList Expense)
    (participants : JsonList Participant) :
    calculateUserBalances eventId expenses participants =
      .ok (foldedBalances expenses.elements (trackedIds participants)) := by
  have hfold : (if expenses.is_array then
        forEachExpense (balancesExpenseBody participants) expenses.elements
          (balancesInit participants)
      else .ok (balancesInit participants)) =
      .ok (foldedBalances expenses.elements (trackedIds participants)) := by
    cases expenses with
    | array es =>
      simp only [JsonList.is_array, JsonList.elements, if_true]
      rw [forEachExpense_eq _ _ (balancesExpenseBody_eq participants), balancesInit_eq]
      rfl
    | notArray =>
      simp only [JsonList.is_array, JsonList.elements]
      rw [balancesInit_eq]
      rfl
  unfold calculateUserBalances
  simp only [hfold]
  rw [StdMap.copy_entries (wf_foldedBalances _ _)]

/-- The closed form of `calculateEventSettlements`. -/
theorem calculateEventSettlements_eq (expenses : JsonList Expense)
    (participants : JsonList Participant) :
    calculateEventSettlements expenses participants =
      .ok (optimizeSettlements (foldedBalances expenses.elements (trackedIds participants))) := by
  have hfold : (if expenses.is_array then
        forEachExpense (settlementsExpenseBody participants) expenses.elements
          (settlementsInitBalances participants)
      else .ok (settlementsInitBalances participants)) =
      .ok (foldedBalances expenses.elements (trackedIds participants)) := by
    cases expenses with
    | array es =>
      simp only [JsonList.is_array, JsonList.elements, if_true]
      rw [forEachExpense_eq _ _ (settlementsExpenseBody_eq participants),
        settlementsInitBalances_eq]
      rfl
    | notArray =>
      simp only [JsonList.is_array, JsonList.elements]
      rw [settlementsInitBalances_eq]
      rfl
  unfold calculateEventSettlements
  simp only [hfold]

theorem sum_foldl_expenseEffect (ids : List String) (es : List Expense) (b : StdMap)
    (h : StdMap.WF b) (hkeys : ∀ k, k ∈ StdMap.keys b ↔ k ∈ ids)
    (hes : ∀ e ∈ es, ∀ p a, e.payer_id = some p → e.amount = some a →
      p ∈ ids ∧ sharesTotal (foldShares ids a (e.split_type.getD "equal")) = a) :
    StdMap.sum (es.foldl (expenseEffect ids) b) = StdMap.sum b := by
  induction es generalizing b with
  | nil => rfl
  | cons e rest ih =>
    simp only [List.foldl_cons]
    obtain ⟨h1, h2⟩ := expenseEffect_invariant ids b e h
    rw [ih _ h1 (fun k => by rw [h2]; exact hkeys k)
      (fun e' he' => hes e' (List.mem_cons_of_mem _ he'))]
    cases hp : e.payer_id with
    | none => simp [expenseEffect, hp]
    | some p =>
      cases ha : e.amount with
      | none => simp [expenseEffect, hp, ha]
      | some a =>
        obtain ⟨hmem, htot⟩ := hes e (List.mem_cons_self _ _) p a hp ha
        rw [sum_expenseEffect ids b e h hkeys p a hp ha, htot, if_pos hmem]
        ring

/-! ## Zero-sum of the balances (C1) and the two folds (C10) -/

theorem sharesTotal_foldShares_equal (ids : List String) (amount : ℚ) (h : ids ≠ []) :
    sharesTotal (foldShares ids amount "equal") = amount := by
  have hlen : (ids.length : ℚ) ≠ 0 := by simpa using h
  simp only [sharesTotal, foldShares, if_true, List.map_map]
  have hmap : List.map (ExpenseShare.amount ∘ fun id =>
        (⟨id, amount / (ids.length : ℚ), 100 / (ids.length : ℚ)⟩ : ExpenseShare)) ids =
      List.replicate ids.length (amount / (ids.length : ℚ)) := by
    rw [List.eq_replicate_iff]
    refine ⟨by simp, ?_⟩
    intro x hx
    obtain ⟨_, _, rfl⟩ := List.mem_map.1 hx
    rfl
  rw [hmap, List.sum_replicate, nsmul_eq_mul]
  field_simp

/-- C1 fails as stated.  Participants A and B, one expense paid by A of amount
100 with policy `"percentage"`: the payer is tracked and nobody receives a share
(the fold passes no override map, so the calculator returns no share), yet the
balances are A = 100, B = 0 and sum to 100. -/
theorem zero_sum_fails_for_percentage_expense :
    trackedIds (.array [⟨some "A"⟩, ⟨some "B"⟩]) = ["A", "B"] ∧
    calculateExpenseShares 100 "percentage" ["A", "B"] defaultCustomShares = .ok [] ∧
    calculateUserBalances "event" (.array [⟨some "A", some 100, some "percentage"⟩])
      (.array [⟨some "A"⟩, ⟨some "B"⟩]) = .ok [("A", 100), ("B", 0)] ∧
    StdMap.sum [("A", 100), ("B", 0)] ≠ 0 := by
  refine ⟨rfl, ?_, ?_, ?_⟩
  · simp [calculateExpenseShares_default, foldShares]
  · rw [calculateUserBalances_eq]
    simp [foldedBalances, zeroBalances, trackedIds, JsonList.elements, expenseEffect, foldShares,
      debitShares, creditPayer, StdMap.assign, StdMap.contains, StdMap.find, StdMap.addTo]
  · simp [StdMap.sum]

/-- C1 (amended): zero-sum.  For every participant list and every expense list
in which every expense with a payer and an amount has a tracked payer and the
shares the fold computes for it add up to its amount, `calculateUserBalances`
returns a balance map whose values sum to zero.  (Every share the fold computes
goes to a tracked participant, so that condition of the claim always holds.) -/
theorem balances_sum_zero (eventId : String) (expenses : JsonList Expense)
    (participants : JsonList Participant)
    (h : ∀ e ∈ expenses.elements, ∀ p a, e.payer_id = some p → e.amount = some a →
      p ∈ trackedIds participants ∧
      ∀ shares,
        calculateExpenseShares a (e.split_type.getD "equal") (trackedIds participants)
          defaultCustomShares = .ok shares →
        sharesTotal shares = a) :
    ∃ balances, calculateUserBalances eventId expenses participants = .ok balances ∧
      StdMap.sum balances = 0 := by
  refine ⟨_, calculateUserBalances_eq eventId expenses participants, ?_⟩
  unfold foldedBalances
  rw [sum_foldl_expenseEffect _ _ _ (wf_zeroBalances _) (mem_keys_zeroBalances _), sum_zeroBalances]
  intro e he p a hp ha
  obtain ⟨h1, h2⟩ := h e he p a hp ha
  exact ⟨h1, h2 _ (calculateExpenseShares_default _ _ _)⟩

/-- C1 (amended) at participants A, B, C with the equal-split expenses (A, 90)
and (B, 30, no `split_type`). -/
theorem balances_sum_zero_witness :
    ∃ balances,
      calculateUserBalances "event"
        (.array [⟨some "A", some 90, some "equal"⟩, ⟨some "B", some 30, none⟩])
        (.array [⟨some "A"⟩, ⟨some "B"⟩, ⟨some "C"⟩]) = .ok balances ∧
      StdMap.sum balances = 0 := by
  apply balances_sum_zero
  intro e he p a hp ha
  refine ⟨?_, ?_⟩
  · simp only [JsonList.elements, List.mem_cons, List.mem_singleton, List.not_mem_nil,
      or_false] at he
    rcases he with rfl | rfl <;> cases hp <;> simp [trackedIds, JsonList.elements]
  · intro shares hs
    rw [calculateExpenseShares_default] at hs
    cases hs
    simp only [JsonList.elements, List.mem_cons, List.mem_singleton, List.not_mem_nil,
      or_false] at he
    rcases he with rfl | rfl <;> cases ha <;>
      exact sharesTotal_foldShares_equal _ _ (by simp [trackedIds, JsonList.elements])

/-- C10: `calculateEventSettlements` is `optimizeSettlements` applied to the
balance map `calculateUserBalances` returns, for any `eventId`; neither call
throws. -/
theorem settlements_refine_balances (eventId : String) (expenses : JsonList Expense)
    (participants : JsonList Participant) :
    ∃ balances, calculateUserBalances eventId expenses participants = .ok balances ∧
      calculateEventSettlements expenses participants = .ok (optimizeSettlements balances) :=
  ⟨_, calculateUserBalances_eq eventId expenses participants,
    calculateEventSettlements_eq expenses participants⟩

/-! ## The matching loop -/

/-- One iteration of the matching loop: a settlement of the smaller of the two
amounts, then each cursor moves on when its entry is left below a cent. -/
theorem matchSettlements_cons (d : String) (x : ℚ) (ds : List (String × ℚ)) (c : String)
    (y : ℚ) (cs : List (String × ℚ)) :
    matchSettlements ((d, x) :: ds) ((c, y) :: cs) =
      ⟨d, c, min x y⟩ ::
        matchSettlements (if x - min x y < 1 / 100 then ds else (d, x - min x y) :: ds)
          (if y - min x y < 1 / 100 then cs else (c, y - min x y) :: cs) := by
  rw [matchSettlements]
  split_ifs <;> rfl

theorem matchSettlements_nil_left (cs : List (String × ℚ)) : matchSettlements [] cs = [] := by
  rw [matchSettlements]

theorem matchSettlements_nil_right (ds : List (String × ℚ)) : matchSettlements ds [] = [] := by
  cases ds with
  | nil => rw [matchSettlements]
  | cons e rest => rw [matchSettlements]

/-- After the two subtractions at least one of the two entries is below a cent,
so at least one cursor moves: this is why the loop terminates. -/
theorem one_cursor_moves (x y : ℚ) : x - min x y < 1 / 100 ∨ y - min x y < 1 / 100 := by
  rcases le_total x y with h | h
  · left; rw [min_eq_left h, sub_self]; norm_num
  · right; rw [min_eq_right h, sub_self]; norm_num

/-- Induction along the iterations of the matching loop. -/
theorem matchSettlements_induction {P : List (String × ℚ) → List (String × ℚ) → Prop}
    (nil_left : ∀ cs, P [] cs) (nil_right : ∀ ds, P ds [])
    (step : ∀ d x ds c y cs,
      P (if x - min x y < 1 / 100 then ds else (d, x - min x y) :: ds)
        (if y - min x y < 1 / 100 then cs else (c, y - min x y) :: cs) →
      P ((d, x) :: ds) ((c, y) :: cs)) :
    ∀ ds cs, P ds cs := by
  intro ds cs
  generalize hn : ds.length + cs.length = n
  induction n using Nat.strong_induction_on generalizing ds cs with
  | _ n ih =>
    cases ds with
    | nil => exact nil_left cs
    | cons e ds =>
      cases cs with
      | nil => exact nil_right _
      | cons f cs =>
        obtain ⟨d, x⟩ := e
        obtain ⟨c, y⟩ := f
        apply step
        refine ih _ ?_ _ _ rfl
        subst hn
        rcases one_cursor_moves x y with h | h
        · rw [if_pos h]
          split_ifs <;> simp only [List.length_cons] <;> omega
        · rw [if_pos h]
          split_ifs <;> simp only [List.length_cons] <;> omega

/-! ## What the settlements transfer -/

theorem transferred_cons (role : Settlement → String) (s : Settlement)
    (rest : List Settlement) (u : String) :
    transferred role (s :: rest) u =
      (if role s = u then s.amount else 0) + transferred role rest u := by
  unfold transferred
  rw [List.filter_cons]
  split_ifs with h1 h2 h2
  · simp
  · simp at h1; exact absurd h1 h2
  · simp at h1; exact absurd h2 h1
  · simp

theorem transferred_eq_zero (role : Settlement → String) (settlements : List Settlement)
    (u : String) (h : ∀ s ∈ settlements, role s ≠ u) : transferred role settlements u = 0 := by
  induction settlements with
  | nil => rfl
  | cons s rest ih =>
    rw [transferred_cons, if_neg (h s (List.mem_cons_self _ _)),
      ih fun t ht => h t (List.mem_cons_of_mem _ ht)]
    simp

theorem mem_keys_next {cond : Prop} [Decidable cond] {u k : String} {x : ℚ}
    {es : List (String × ℚ)}
    (h : k ∈ (if cond then es else (u, x) :: es).map Prod.fst) :
    k ∈ u :: es.map Prod.fst := by
  split_ifs at h
  · exact List.mem_cons_of_mem _ h
  · simpa using h

theorem nodup_keys_next {cond : Prop} [Decidable cond] {u : String} (x : ℚ)
    {es : List (String × ℚ)} (h : (((u, x) :: es).map Prod.fst).Nodup) (x' : ℚ) :
    ((if cond then es else (u, x') :: es).map Prod.fst).Nodup := by
  split_ifs
  · exact (List.nodup_cons.1 h).2
  · exact h

theorem mem_next_of_mem {cond : Prop} [Decidable cond] {u : String} {x : ℚ}
    {es : List (String × ℚ)} {e : String × ℚ} (h : e ∈ es) :
    e ∈ (if cond then es else (u, x) :: es) := by
  split_ifs
  · exact h
  · exact List.mem_cons_of_mem _ h

/-- Every settlement goes from a listed debtor to a listed creditor. -/
theorem matchSettlements_parties (ds cs : List (String × ℚ)) :
    ∀ s ∈ matchSettlements ds cs,
      s.fromUserId ∈ ds.map Prod.fst ∧ s.toUserId ∈ cs.map Prod.fst := by
  refine matchSettlements_induction (P := fun ds cs => ∀ s ∈ matchSettlements ds cs,
    s.fromUserId ∈ ds.map Prod.fst ∧ s.toUserId ∈ cs.map Prod.fst) ?_ ?_ ?_ ds cs
  · intro cs s hs; simp [matchSettlements_nil_left] at hs
  · intro ds s hs; simp [matchSettlements_nil_right] at hs
  · intro d x ds c y cs ih s hs
    rw [matchSettlements_cons] at hs
    rcases List.mem_cons.1 hs with rfl | hs
    · simp
    · obtain ⟨h1, h2⟩ := ih s hs
      exact ⟨by simpa using mem_keys_next h1, by simpa using mem_keys_next h2⟩

/-- Every settlement amount is positive when all listed amounts are. -/
theorem matchSettlements_amount_pos (ds cs : List (String × ℚ)) :
    (∀ e ∈ ds, 0 < e.2) → (∀ e ∈ cs, 0 < e.2) →
      ∀ s ∈ matchSettlements ds cs, 0 < s.amount := by
  refine matchSettlements_induction (P := fun ds cs => (∀ e ∈ ds, 0 < e.2) →
    (∀ e ∈ cs, 0 < e.2) → ∀ s ∈ matchSettlements ds cs, 0 < s.amount) ?_ ?_ ?_ ds cs
  · intro cs _ _ s hs; simp [matchSettlements_nil_left] at hs
  · intro ds _ _ s hs; simp [matchSettlements_nil_right] at hs
  · intro d x ds c y cs ih hds hcs s hs
    have hx : 0 < x := hds (d, x) (List.mem_cons_self _ _)
    have hy : 0 < y := hcs (c, y) (List.mem_cons_self _ _)
    rw [matchSettlements_cons] at hs
    rcases List.mem_cons.1 hs with rfl | hs
    · exact lt_min hx hy
    · refine ih ?_ ?_ s hs
      · intro e he
        split_ifs at he with h
        · exact hds e (List.mem_cons_of_mem _ he)
        · rcases List.mem_cons.1 he with rfl | he
          · exact lt_of_lt_of_le (by norm_num) (not_lt.1 h)
          · exact hds e (List.mem_cons_of_mem _ he)
      · intro e he
        split_ifs at he with h
        · exact hcs e (List.mem_cons_of_mem _ he)
        · rcases List.mem_cons.1 he with rfl | he
          · exact lt_of_lt_of_le (by norm_num) (not_lt.1 h)
          · exact hcs e (List.mem_cons_of_mem _ he)

/-- One side of one iteration: nobody's transfers exceed the listed amount. -/
theorem side_le (role : Settlement → String) (u : String) (x a : ℚ)
    (es : List (String × ℚ)) (s : Settlement) (rest : List Settlement)
    (hs : role s = u) (ha : s.amount = a) (hle : a ≤ x) (hu : u ∉ es.map Prod.fst)
    (hparties : ∀ t ∈ rest,
      role t ∈ (if x - a < 1 / 100 then es else (u, x - a) :: es).map Prod.fst)
    (hrest : ∀ e ∈ (if x - a < 1 / 100 then es else (u, x - a) :: es),
      transferred role rest e.1 ≤ e.2) :
    ∀ e ∈ (u, x) :: es, transferred role (s :: rest) e.1 ≤ e.2 := by
  intro e he
  rw [transferred_cons]
  rcases List.mem_cons.1 he with rfl | he
  · rw [if_pos hs, ha]
    by_cases hc : x - a < 1 / 100
    · rw [if_pos hc] at hparties
      rw [transferred_eq_zero role rest u fun t ht h => hu (h ▸ hparties t ht)]
      simpa using hle
    · rw [if_neg hc] at hrest
      have := hrest (u, x - a) (List.mem_cons_self _ _)
      simp only at this ⊢
      linarith
  · have hne : role s ≠ e.1 := by
      rw [hs]
      intro h
      exact hu (h ▸ List.mem_map_of_mem Prod.fst he)
    rw [if_neg hne, zero_add]
    exact hrest e (mem_next_of_mem he)

/-- One side of one iteration: everybody ends less than a cent short. -/
theorem side_exhausted (role : Settlement → String) (u : String) (x a : ℚ)
    (es : List (String × ℚ)) (s : Settlement) (rest : List Settlement)
    (hs : role s = u) (ha : s.amount = a) (hu : u ∉ es.map Prod.fst)
    (hparties : ∀ t ∈ rest,
      role t ∈ (if x - a < 1 / 100 then es else (u, x - a) :: es).map Prod.fst)
    (hrest : ∀ e ∈ (if x - a < 1 / 100 then es else (u, x - a) :: es),
      e.2 - transferred role rest e.1 < 1 / 100) :
    ∀ e ∈ (u, x) :: es, e.2 - transferred role (s :: rest) e.1 < 1 / 100 := by
  intro e he
  rw [transferred_cons]
  rcases List.mem_cons.1 he with rfl | he
  · rw [if_pos hs, ha]
    by_cases hc : x - a < 1 / 100
    · rw [if_pos hc] at hparties
      rw [transferred_eq_zero role rest u fun t ht h => hu (h ▸ hparties t ht)]
      simpa using hc
    · rw [if_neg hc] at hrest
      have := hrest (u, x - a) (List.mem_cons_self _ _)
      simp only at this ⊢
      linarith
  · have hne : role s ≠ e.1 := by
      rw [hs]
      intro h
      exact hu (h ▸ List.mem_map_of_mem Prod.fst he)
    rw [if_neg hne, zero_add]
    exact hrest e (mem_next_of_mem he)

theorem nonneg_next {u : String} {x a : ℚ} {es : List (String × ℚ)} (hle : a ≤ x)
    (h : ∀ e ∈ (u, x) :: es, 0 ≤ e.2) :
    ∀ e ∈ (if x - a < 1 / 100 then es else (u, x - a) :: es), 0 ≤ e.2 := by
  intro e he
  split_ifs at he
  · exact h e (List.mem_cons_of_mem _ he)
  · rcases List.mem_cons.1 he with rfl | he
    · simpa using hle
    · exact h e (List.mem_cons_of_mem _ he)

/-- No debtor pays more than the listed debt. -/
theorem paidBy_le (ds cs : List (String × ℚ)) :
    (ds.map Prod.fst).Nodup → (∀ e ∈ ds, 0 ≤ e.2) →
      ∀ e ∈ ds, paidBy (matchSettlements ds cs) e.1 ≤ e.2 := by
  refine matchSettlements_induction (P := fun ds cs => (ds.map Prod.fst).Nodup →
    (∀ e ∈ ds, 0 ≤ e.2) → ∀ e ∈ ds, paidBy (matchSettlements ds cs) e.1 ≤ e.2) ?_ ?_ ?_ ds cs
  · intro cs _ _ e he; simp at he
  · intro ds _ hds e he
    rw [matchSettlements_nil_right]
    exact hds e he
  · intro d x ds c y cs ih hnd hds
    rw [matchSettlements_cons]
    exact side_le Settlement.fromUserId d x (min x y) ds _ _ rfl rfl (min_le_left x y)
      (List.nodup_cons.1 hnd).1 (fun t ht => (matchSettlements_parties _ _ t ht).1)
      (ih (nodup_keys_next x hnd _) (nonneg_next (min_le_left x y) hds))

/-- No creditor receives more than the listed credit. -/
theorem receivedBy_le (ds cs : List (String × ℚ)) :
    (cs.map Prod.fst).Nodup → (∀ e ∈ cs, 0 ≤ e.2) →
      ∀ e ∈ cs, receivedBy (matchSettlements ds cs) e.1 ≤ e.2 := by
  refine matchSettlements_induction (P := fun ds cs => (cs.map Prod.fst).Nodup →
    (∀ e ∈ cs, 0 ≤ e.2) → ∀ e ∈ cs, receivedBy (matchSettlements ds cs) e.1 ≤ e.2) ?_ ?_ ?_ ds cs
  · intro cs _ hcs e he
    rw [matchSettlements_nil_left]
    exact hcs e he
  · intro ds _ _ e he; simp at he
  · intro d x ds c y cs ih hnd hcs
    rw [matchSettlements_cons]
    exact side_le Settlement.toUserId c y (min x y) cs _ _ rfl rfl (min_le_right x y)
      (List.nodup_cons.1 hnd).1 (fun t ht => (matchSettlements_parties _ _ t ht).2)
      (ih (nodup_keys_next y hnd _) (nonneg_next (min_le_right x y) hcs))

/-- When the loop ends, every debtor or every creditor is less than a cent
short of the listed amount. -/
theorem one_side_exhausted (ds cs : List (String × ℚ)) :
    (ds.map Prod.fst).Nodup → (cs.map Prod.fst).Nodup →
      (∀ e ∈ ds, e.2 - paidBy (matchSettlements ds cs) e.1 < 1 / 100) ∨
      (∀ e ∈ cs, e.2 - receivedBy (matchSettlements ds cs) e.1 < 1 / 100) := by
  refine matchSettlements_induction (P := fun ds cs => (ds.map Prod.fst).Nodup →
    (cs.map Prod.fst).Nodup →
      (∀ e ∈ ds, e.2 - paidBy (matchSettlements ds cs) e.1 < 1 / 100) ∨
      (∀ e ∈ cs, e.2 - receivedBy (matchSettlements ds cs) e.1 < 1 / 100)) ?_ ?_ ?_ ds cs
  · intro cs _ _; left; intro e he; simp at he
  · intro ds _ _; right; intro e he; simp at he
  · intro d x ds c y cs ih hnd hnc
    rw [matchSettlements_cons]
    rcases ih (nodup_keys_next x hnd _) (nodup_keys_next y hnc _) with h | h
    · left
      exact side_exhausted Settlement.fromUserId d x (min x y) ds _ _ rfl rfl
        (List.nodup_cons.1 hnd).1 (fun t ht => (matchSettlements_parties _ _ t ht).1) h
    · right
      exact side_exhausted Settlement.toUserId c y (min x y) cs _ _ rfl rfl
        (List.nodup_cons.1 hnc).1 (fun t ht => (matchSettlements_parties _ _ t ht).2) h

theorem transferred_nonneg (role : Settlement → String) (settlements : List Settlement)
    (u : String) (h : ∀ s ∈ settlements, 0 < s.amount) : 0 ≤ transferred role settlements u := by
  induction settlements with
  | nil => simp [transferred]
  | cons s rest ih =>
    rw [transferred_cons]
    have h1 := ih fun t ht => h t (List.mem_cons_of_mem _ ht)
    have h2 := h s (List.mem_cons_self _ _)
    split_ifs <;> linarith

/-! ## Debtors and creditors of a balance map -/

theorem perm_sortByAmountDesc (l : List (String × ℚ)) : (sortByAmountDesc l).Perm l :=
  List.perm_insertionSort _ l

theorem mem_sortByAmountDesc {l : List (String × ℚ)} {e : String × ℚ} :
    e ∈ sortByAmountDesc l ↔ e ∈ l :=
  (perm_sortByAmountDesc l).mem_iff

theorem nodup_keys_sortByAmountDesc {l : List (String × ℚ)} (h : (l.map Prod.fst).Nodup) :
    ((sortByAmountDesc l).map Prod.fst).Nodup :=
  ((perm_sortByAmountDesc l).map Prod.fst).nodup_iff.2 h

theorem mem_keys_sortByAmountDesc {l : List (String × ℚ)} {k : String} :
    k ∈ (sortByAmountDesc l).map Prod.fst ↔ k ∈ l.map Prod.fst :=
  ((perm_sortByAmountDesc l).map Prod.fst).mem_iff

theorem mem_debtorsOf {balances : StdMap} {e : String × ℚ} :
    e ∈ debtorsOf balances ↔ (e.1, -e.2) ∈ balances ∧ 1 / 100 < e.2 := by
  unfold debtorsOf
  rw [List.mem_filterMap]
  constructor
  · rintro ⟨entry, hmem, h⟩
    split_ifs at h with hlt
    cases h
    simp only [neg_neg]
    exact ⟨hmem, by linarith⟩
  · rintro ⟨hmem, h⟩
    refine ⟨(e.1, -e.2), hmem, ?_⟩
    have : -e.2 < -(1 / 100) := by linarith
    simp only [this, if_true, neg_neg]

theorem mem_creditorsOf {balances : StdMap} {e : String × ℚ} :
    e ∈ creditorsOf balances ↔ e ∈ balances ∧ 1 / 100 < e.2 := by
  unfold creditorsOf
  rw [List.mem_filterMap]
  constructor
  · rintro ⟨entry, hmem, h⟩
    split_ifs at h with h1 h2
    cases h
    exact ⟨hmem, h2⟩
  · rintro ⟨hmem, h⟩
    refine ⟨e, hmem, ?_⟩
    have h1 : ¬ e.2 < -(1 / 100) := by
      intro h'
      linarith
    have h2 : e.2 > 1 / 100 := h
    simp only [h1, h2, if_true, if_false]

theorem StdMap.nodup_keys {m : StdMap} (h : StdMap.WF m) : (m.map Prod.fst).Nodup :=
  List.Pairwise.imp (fun hlt => ne_of_lt hlt) h

theorem StdMap.value_unique {m : StdMap} (h : StdMap.WF m) {k : String} {v w : ℚ}
    (hv : (k, v) ∈ m) (hw : (k, w) ∈ m) : v = w := by
  have := List.inj_on_of_nodup_map (StdMap.nodup_keys h) hv hw rfl
  exact (Prod.mk.inj this).2

theorem nodup_keys_debtorsOf {balances : StdMap} (h : (balances.map Prod.fst).Nodup) :
    ((debtorsOf balances).map Prod.fst).Nodup := by
  induction balances with
  | nil => simp [debtorsOf]
  | cons entry rest ih =>
    obtain ⟨hnot, hrest⟩ := List.nodup_cons.1 h
    have ih := ih hrest
    unfold debtorsOf at ih ⊢
    rw [List.filterMap_cons]
    split_ifs with hlt
    · simp only [List.map_cons, List.nodup_cons]
      refine ⟨?_, ih⟩
      intro hmem
      obtain ⟨e, he, hk⟩ := List.mem_map.1 hmem
      have := (@mem_debtorsOf rest e).1 he
      apply hnot
      rw [← hk]
      exact List.mem_map.2 ⟨_, this.1, rfl⟩
    · exact ih

theorem nodup_keys_creditorsOf {balances : StdMap} (h : (balances.map Prod.fst).Nodup) :
    ((creditorsOf balances).map Prod.fst).Nodup := by
  induction balances with
  | nil => simp [creditorsOf]
  | cons entry rest ih =>
    obtain ⟨hnot, hrest⟩ := List.nodup_cons.1 h
    have ih := ih hrest
    unfold creditorsOf at ih ⊢
    rw [List.filterMap_cons]
    split_ifs with h1 h2
    · exact ih
    · simp only [List.map_cons, List.nodup_cons]
      refine ⟨?_, ih⟩
      intro hmem
      obtain ⟨e, he, hk⟩ := List.mem_map.1 hmem
      have := (@mem_creditorsOf rest e).1 he
      apply hnot
      rw [← hk]
      exact List.mem_map_of_mem Prod.fst this.1
    · exact ih

/-- In a well-formed map the debtors are the users with a balance below `-0.01`. -/
theorem mem_keys_debtors_iff {balances : StdMap} (h : StdMap.WF balances) {e : String × ℚ}
    (he : e ∈ balances) :
    e.1 ∈ (sortByAmountDesc (debtorsOf balances)).map Prod.fst ↔ e.2 < -(1 / 100) := by
  rw [mem_keys_sortByAmountDesc]
  constructor
  · intro hk
    obtain ⟨d, hd, hk⟩ := List.mem_map.1 hk
    obtain ⟨hmem, hlt⟩ := mem_debtorsOf.1 hd
    rw [hk] at hmem
    have := StdMap.value_unique h hmem (show (e.1, e.2) ∈ balances from he)
    linarith
  · intro hlt
    refine List.mem_map.2 ⟨(e.1, -e.2), mem_debtorsOf.2 ⟨by simpa using he, ?_⟩, rfl⟩
    simp only
    linarith

/-- In a well-formed map the creditors are the users with a balance above `0.01`. -/
theorem mem_keys_creditors_iff {balances : StdMap} (h : StdMap.WF balances) {e : String × ℚ}
    (he : e ∈ balances) :
    e.1 ∈ (sortByAmountDesc (creditorsOf balances)).map Prod.fst ↔ 1 / 100 < e.2 := by
  rw [mem_keys_sortByAmountDesc]
  constructor
  · intro hk
    obtain ⟨c, hc, hk⟩ := List.mem_map.1 hk
    obtain ⟨hmem, hlt⟩ := mem_creditorsOf.1 hc
    have hmem' : (e.1, c.2) ∈ balances := by rw [← hk]; exact hmem
    have := StdMap.value_unique h hmem' (show (e.1, e.2) ∈ balances from he)
    linarith
  · intro hlt
    exact List.mem_map.2 ⟨e, mem_creditorsOf.2 ⟨he, hlt⟩, rfl⟩

theorem debtors_pos (balances : StdMap) :
    ∀ e ∈ sortByAmountDesc (debtorsOf balances), 0 < e.2 := by
  intro e he
  have := (mem_debtorsOf.1 (mem_sortByAmountDesc.1 he)).2
  linarith

theorem creditors_pos (balances : StdMap) :
    ∀ e ∈ sortByAmountDesc (creditorsOf balances), 0 < e.2 := by
  intro e he
  have := (mem_creditorsOf.1 (mem_sortByAmountDesc.1 he)).2
  linarith

theorem optimizeSettlements_amount_pos (balances : StdMap) :
    ∀ s ∈ optimizeSettlements balances, 0 < s.amount :=
  matchSettlements_amount_pos _ _ (debtors_pos balances) (creditors_pos balances)

/-- What a participant of a well-formed balance map pays and receives. -/
theorem paid_received_bounds {balances : StdMap} (h : StdMap.WF balances) {e : String × ℚ}
    (he : e ∈ balances) :
    (e.2 < -(1 / 100) →
      0 ≤ paidBy (optimizeSettlements balances) e.1 ∧
      paidBy (optimizeSettlements balances) e.1 ≤ -e.2 ∧
      receivedBy (optimizeSettlements balances) e.1 = 0) ∧
    (1 / 100 < e.2 →
      0 ≤ receivedBy (optimizeSettlements balances) e.1 ∧
      receivedBy (optimizeSettlements balances) e.1 ≤ e.2 ∧
      paidBy (optimizeSettlements balances) e.1 = 0) ∧
    (¬ e.2 < -(1 / 100) → ¬ 1 / 100 < e.2 →
      paidBy (optimizeSettlements balances) e.1 = 0 ∧
      receivedBy (optimizeSettlements balances) e.1 = 0) := by
  have hnd := StdMap.nodup_keys h
  have hpaid0 : ¬ e.2 < -(1 / 100) → paidBy (optimizeSettlements balances) e.1 = 0 := by
    intro hn
    apply transferred_eq_zero
    intro s hs heq
    have := (matchSettlements_parties _ _ s hs).1
    rw [heq] at this
    exact hn ((mem_keys_debtors_iff h he).1 this)
  have hrecv0 : ¬ 1 / 100 < e.2 → receivedBy (optimizeSettlements balances) e.1 = 0 := by
    intro hn
    apply transferred_eq_zero
    intro s hs heq
    have := (matchSettlements_parties _ _ s hs).2
    rw [heq] at this
    exact hn ((mem_keys_creditors_iff h he).1 this)
  refine ⟨?_, ?_, fun h1 h2 => ⟨hpaid0 h1, hrecv0 h2⟩⟩
  · intro hlt
    refine ⟨transferred_nonneg _ _ _ (optimizeSettlements_amount_pos balances), ?_,
      hrecv0 (by intro h'; linarith)⟩
    have hmem : (e.1, -e.2) ∈ sortByAmountDesc (debtorsOf balances) :=
      mem_sortByAmountDesc.2 (mem_debtorsOf.2 ⟨by simpa using he, by simp only; linarith⟩)
    exact paidBy_le _ _ (nodup_keys_sortByAmountDesc (nodup_keys_debtorsOf hnd))
      (fun e' he' => le_of_lt (debtors_pos balances e' he')) _ hmem
  · intro hlt
    refine ⟨transferred_nonneg _ _ _ (optimizeSettlements_amount_pos balances), ?_,
      hpaid0 (by intro h'; linarith)⟩
    have hmem : e ∈ sortByAmountDesc (creditorsOf balances) :=
      mem_sortByAmountDesc.2 (mem_creditorsOf.2 ⟨he, hlt⟩)
    exact receivedBy_le _ _ (nodup_keys_sortByAmountDesc (nodup_keys_creditorsOf hnd))
      (fun e' he' => le_of_lt (creditors_pos balances e' he')) _ hmem

/-! ## Settlement soundness (C2) -/

theorem lookup_numbers (ov : List (String × ℚ)) (id : String) :
    (ov.map fun kv => (kv.1, JsonValue.number kv.2)).lookup id =
      (ov.lookup id).map JsonValue.number := by
  induction ov with
  | nil => rfl
  | cons kv rest ih =>
    obtain ⟨k, v⟩ := kv
    simp only [List.map_cons, List.lookup_cons]
    cases h : (id == k) with
    | true => rfl
    | false => exact ih

theorem percentageShares_ofNumbers (amount : ℚ) (ov : List (String × ℚ)) (ids : List String) :
    percentageShares amount (Json.ofNumbers ov) ids =
      .ok (ids.filterMap fun id =>
        (ov.lookup id).map fun p => (⟨id, amount * p / 100, p⟩ : ExpenseShare)) := by
  induction ids with
  | nil => rfl
  | cons id rest ih =>
    unfold percentageShares
    rw [ih]
    simp only [Json.ofNumbers, Json.contains, Json.get, lookup_numbers]
    cases h : ov.lookup id with
    | none => simp [List.filterMap_cons, h]
    | some p => simp [List.filterMap_cons, h, JsonValue.toDouble]

theorem customAmountShares_ofNumbers (amount : ℚ) (ov : List (String × ℚ)) (ids : List String) :
    customAmountShares amount (Json.ofNumbers ov) ids =
      .ok (ids.filterMap fun id =>
        (ov.lookup id).map fun v => (⟨id, v, v / amount * 100⟩ : ExpenseShare)) := by
  induction ids with
  | nil => rfl
  | cons id rest ih =>
    unfold customAmountShares
    rw [ih]
    simp only [Json.ofNumbers, Json.contains, Json.get, lookup_numbers]
    cases h : ov.lookup id with
    | none => simp [List.filterMap_cons, h]
    | some p => simp [List.filterMap_cons, h, JsonValue.toDouble]

theorem ofNumbers_empty (ov : List (String × ℚ)) (h : ov ≠ []) :
    (Json.ofNumbers ov).empty = false := by
  cases ov with
  | nil => exact absurd rfl h
  | cons kv rest => rfl

/-- C4: equal split.  For a non-empty id list of length `N` the `"equal"` policy
returns one share per id, in input order, each with amount `amount / N` and
percentage `100 / N`. -/
theorem equal_split_shares (amount : ℚ) (ids : List String) (customShares : Json)
    (_h : ids ≠ []) :
    calculateExpenseShares amount "equal" ids customShares =
      .ok (ids.map fun id => ⟨id, amount / (ids.length : ℚ), 100 / (ids.length : ℚ)⟩) := by
  simp [calculateExpenseShares]

/-- C4 at 100 among A, B, C, D: four shares of 25 with percentage 25. -/
theorem equal_split_shares_witness :
    calculateExpenseShares 100 "equal" ["A", "B", "C", "D"] defaultCustomShares =
      .ok [⟨"A", 25, 25⟩, ⟨"B", 25, 25⟩, ⟨"C", 25, 25⟩, ⟨"D", 25, 25⟩] := by
  rw [equal_split_shares 100 ["A", "B", "C", "D"] defaultCustomShares (by simp)]
  norm_num

/-- C5: percentage split.  With a non-empty override map of numbers the
`"percentage"` policy returns, in id-list order, one share for each listed id
that is a key of the map, with percentage `overrides[id]` and amount
`amount * overrides[id] / 100`; other ids get no share. -/
theorem percentage_split_shares (amount : ℚ) (ids : List String)
    (overrides : List (String × ℚ)) (h : overrides ≠ []) :
    calculateExpenseShares amount "percentage" ids (Json.ofNumbers overrides) =
      .ok (ids.filterMap fun id =>
        (overrides.lookup id).map fun p => ⟨id, amount * p / 100, p⟩) := by
  simp [calculateExpenseShares, ofNumbers_empty overrides h, percentageShares_ofNumbers]

/-- C5 at 200 with the overrides A: 30, B: 70: A = 60 and B = 140. -/
theorem percentage_split_shares_witness :
    calculateExpenseShares 200 "percentage" ["A", "B"] (Json.ofNumbers [("A", 30), ("B", 70)]) =
      .ok [⟨"A", 60, 30⟩, ⟨"B", 140, 70⟩] := by
  rw [percentage_split_shares 200 ["A", "B"] [("A", 30), ("B", 70)] (by simp)]
  simp [List.lookup]
  norm_num

/-- C6: custom split.  With `amount > 0` and a non-empty override map of numbers
the `"custom"` policy returns, in id-list order, one share for each listed id
that is a key of the map, with amount `overrides[id]` and percentage
`overrides[id] / amount * 100`; other ids get no share. -/
theorem custom_split_shares (amount : ℚ) (ids : List String)
    (overrides : List (String × ℚ)) (_hpos : 0 < amount) (h : overrides ≠ []) :
    calculateExpenseShares amount "custom" ids (Json.ofNumbers overrides) =
      .ok (ids.filterMap fun id =>
        (overrides.lookup id).map fun v => ⟨id, v, v / amount * 100⟩) := by
  simp [calculateExpenseShares, ofNumbers_empty overrides h, customAmountShares_ofNumbers]

/-- C6 at 150 with the overrides A: 50, B: 100: A = 50 at 100/3 percent and
B = 100 at 200/3 percent. -/
theorem custom_split_shares_witness :
    calculateExpenseShares 150 "custom" ["A", "B"] (Json.ofNumbers [("A", 50), ("B", 100)]) =
      .ok [⟨"A", 50, 100 / 3⟩, ⟨"B", 100, 200 / 3⟩] := by
  rw [custom_split_shares 150 ["A", "B"] [("A", 50), ("B", 100)] (by norm_num) (by simp)]
  simp [List.lookup]
  norm_num

/-- C7: `calculateExpenseShares` returns the empty list, and throws nothing,
when the policy is none of `"equal"`, `"percentage"`, `"custom"`, and when the
policy is `"percentage"` or `"custom"` and the override map is empty. -/
theorem shares_empty_without_policy_or_overrides (amount : ℚ) (splitType : String)
    (ids : List String) (customShares : Json)
    (h : (splitType ≠ "equal" ∧ splitType ≠ "percentage" ∧ splitType ≠ "custom") ∨
      ((splitType = "percentage" ∨ splitType = "custom") ∧ customShares.empty = true)) :
    calculateExpenseShares amount splitType ids customShares = .ok [] := by
  rcases h with ⟨h1, h2, h3⟩ | ⟨h1 | h1, h2⟩
  · simp [calculateExpenseShares, h1, h2, h3]
  · subst h1; simp [calculateExpenseShares, h2]
  · subst h1; simp [calculateExpenseShares, h2]

/-- C7 at the unknown policy `"weighted"` and at `"percentage"` with the default
override map. -/
theorem shares_empty_without_policy_or_overrides_witness :
    calculateExpenseShares 80 "weighted" ["A", "B"] (Json.ofNumbers [("A", 1)]) = .ok [] ∧
    calculateExpenseShares 80 "percentage" ["A", "B"] defaultCustomShares = .ok [] :=
  ⟨shares_empty_without_policy_or_overrides 80 "weighted" ["A", "B"] _
      (Or.inl ⟨by decide, by decide, by decide⟩),
   shares_empty_without_policy_or_overrides 80 "percentage" ["A", "B"] _
      (Or.inr ⟨Or.inl rfl, rfl⟩)⟩

/-- C8: with an empty participant id list `calculateExpenseShares` returns the
empty list and throws nothing, for every amount, policy and override map. -/
theorem shares_of_no_participants (amount : ℚ) (splitType : String) (customShares : Json) :
    calculateExpenseShares amount splitType [] customShares = .ok [] := by
  unfold calculateExpenseShares
  split_ifs <;> simp [percentageShares, customAmountShares]

/-! ## Who takes part in the settlements (C11, C12) -/

theorem StdMap.find_of_mem {m : StdMap} (h : StdMap.WF m) {k : String} {v : ℚ}
    (hm : (k, v) ∈ m) : StdMap.find m k = some v := by
  induction m with
  | nil => simp at hm
  | cons e rest ih =>
    obtain ⟨k₀, v₀⟩ := e
    obtain ⟨hlt, hrest⟩ := StdMap.wf_cons.1 h
    unfold StdMap.find
    rcases List.mem_cons.1 hm with heq | hmem
    · cases heq
      simp
    · have hk : k ∈ StdMap.keys rest := List.mem_map.2 ⟨(k, v), hmem, rfl⟩
      rw [if_neg (ne_of_gt (hlt k hk))]
      exact ih hrest hmem

theorem optimizeSettlements_parties (balances : StdMap) :
    ∀ s ∈ optimizeSettlements balances,
      (∃ b, (s.fromUserId, b) ∈ balances ∧ b < -(1 / 100)) ∧
      (∃ b, (s.toUserId, b) ∈ balances ∧ 1 / 100 < b) := by
  intro s hs
  obtain ⟨hf, ht⟩ := matchSettlements_parties _ _ s hs
  rw [mem_keys_sortByAmountDesc] at hf ht
  obtain ⟨d, hd, hdk⟩ := List.mem_map.1 hf
  obtain ⟨c, hc, hck⟩ := List.mem_map.1 ht
  obtain ⟨hd1, hd2⟩ := mem_debtorsOf.1 hd
  obtain ⟨hc1, hc2⟩ := mem_creditorsOf.1 hc
  refine ⟨⟨-d.2, by rw [← hdk]; exact hd1, by linarith⟩, ⟨c.2, by rw [← hck]; exact hc1, hc2⟩⟩

/-- C11: debtor/creditor partition.  In a well-formed balance map every
settlement of `optimizeSettlements` goes from a user whose balance is below
`-0.01` to a user whose balance is above `0.01`, and a user whose balance lies
in `[-0.01, 0.01]` is neither payer nor receiver of any settlement. -/
theorem settlements_between_debtors_and_creditors (balances : StdMap)
    (h : StdMap.WF balances) :
    (∀ s ∈ optimizeSettlements balances,
      (∃ b, StdMap.find balances s.fromUserId = some b ∧ b < -(1 / 100)) ∧
      (∃ b, StdMap.find balances s.toUserId = some b ∧ 1 / 100 < b)) ∧
    (∀ e ∈ balances, -(1 / 100) ≤ e.2 → e.2 ≤ 1 / 100 →
      ∀ s ∈ optimizeSettlements balances, s.fromUserId ≠ e.1 ∧ s.toUserId ≠ e.1) := by
  constructor
  · intro s hs
    obtain ⟨⟨b, hb, hlt⟩, ⟨c, hc, hgt⟩⟩ := optimizeSettlements_parties balances s hs
    exact ⟨⟨b, StdMap.find_of_mem h hb, hlt⟩, ⟨c, StdMap.find_of_mem h hc, hgt⟩⟩
  · intro e he hlo hhi s hs
    obtain ⟨hf, ht⟩ := matchSettlements_parties _ _ s hs
    constructor
    · intro heq
      rw [heq] at hf
      have := (mem_keys_debtors_iff h he).1 hf
      linarith
    · intro heq
      rw [heq] at ht
      have := (mem_keys_creditors_iff h he).1 ht
      linarith

theorem optimizeSettlements_example :
    optimizeSettlements [("A", 50), ("B", -10), ("C", -40), ("D", 0)] =
      [⟨"C", "A", 40⟩, ⟨"B", "A", 10⟩] := by
  norm_num [optimizeSettlements, debtorsOf, creditorsOf, List.filterMap_cons, sortByAmountDesc,
    List.insertionSort, List.orderedInsert, byAmountDesc, matchSettlements_cons,
    matchSettlements_nil_left, matchSettlements_nil_right]

/-- C11 at the balances A = 50, B = -10, C = -40, D = 0, whose settlements are
C to A and B to A. -/
theorem settlements_between_debtors_and_creditors_witness :
    StdMap.WF [("A", 50), ("B", -10), ("C", -40), ("D", 0)] ∧
    ((∀ s ∈ optimizeSettlements [("A", 50), ("B", -10), ("C", -40), ("D", 0)],
      (∃ b, StdMap.find [("A", 50), ("B", -10), ("C", -40), ("D", 0)] s.fromUserId = some b ∧
        b < -(1 / 100)) ∧
      (∃ b, StdMap.find [("A", 50), ("B", -10), ("C", -40), ("D", 0)] s.toUserId = some b ∧
        1 / 100 < b)) ∧
    (∀ e ∈ ([("A", 50), ("B", -10), ("C", -40), ("D", 0)] : StdMap),
      -(1 / 100) ≤ e.2 → e.2 ≤ 1 / 100 →
      ∀ s ∈ optimizeSettlements [("A", 50), ("B", -10), ("C", -40), ("D", 0)],
        s.fromUserId ≠ e.1 ∧ s.toUserId ≠ e.1)) :=
  ⟨by simp [StdMap.WF]; decide,
    settlements_between_debtors_and_creditors _ (by simp [StdMap.WF]; decide)⟩

/-- C12: every settlement returned by `optimizeSettlements` has a strictly
positive amount. -/
theorem settlement_amounts_positive (balances : StdMap) (s : Settlement)
    (hs : s ∈ optimizeSettlements balances) : 0 < s.amount :=
  matchSettlements_amount_pos _ _ (debtors_pos balances) (creditors_pos balances) s hs

/-- C12 at the balances A = 50, B = -10, C = -40, D = 0 and the settlement from
C to A. -/
theorem settlement_amounts_positive_witness :
    (⟨"C", "A", 40⟩ : Settlement) ∈
      optimizeSettlements [("A", 50), ("B", -10), ("C", -40), ("D", 0)] ∧
    0 < (⟨"C", "A", 40⟩ : Settlement).amount :=
  ⟨by rw [optimizeSettlements_example]; simp,
    settlement_amounts_positive [("A", 50), ("B", -10), ("C", -40), ("D", 0)] ⟨"C", "A", 40⟩
      (by rw [optimizeSettlements_example]; simp)⟩

/-! ## The balance of one participant -/

theorem StdMap.find_addTo (m : StdMap) (k : String) (d : ℚ) (k' : String) :
    StdMap.find (StdMap.addTo m k d) k' =
      if k' = k then some ((StdMap.find m k).getD 0 + d) else StdMap.find m k' := by
  unfold StdMap.addTo
  split_ifs with h
  · rw [h, StdMap.find_assign_self]
  · exact StdMap.find_assign_ne m k _ k' h

theorem find_creditPayer (b : StdMap) (p : String) (a : ℚ) (k : String) :
    StdMap.find (creditPayer b p a) k =
      (StdMap.find b k).map fun v => v + if p = k then a else 0 := by
  unfold creditPayer
  by_cases hc : b.contains p = true
  · rw [if_pos hc, StdMap.find_addTo]
    obtain ⟨v, hv⟩ := Option.isSome_iff_exists.1 hc
    by_cases hk : k = p
    · subst hk
      simp [hv]
    · rw [if_neg hk]
      have : ¬ p = k := fun h => hk h.symm
      simp [this]
  · rw [if_neg hc]
    by_cases hk : p = k
    · subst hk
      have : StdMap.find b p = none := by
        cases hf : StdMap.find b p with
        | none => rfl
        | some v => exact absurd (by simp [StdMap.contains, hf]) hc
      simp [this]
    · simp [hk]

theorem debited_cons (s : ExpenseShare) (rest : List ExpenseShare) (k : String) :
    debited (s :: rest) k = (if s.userId = k then s.amount else 0) + debited rest k := by
  unfold debited
  rw [List.filter_cons]
  split_ifs with h1 h2 h2
  · simp
  · simp at h1; exact absurd h1 h2
  · simp at h1; exact absurd h2 h1
  · simp

theorem find_debitShares (shares : List ExpenseShare) (b : StdMap) (k : String) :
    StdMap.find (debitShares b shares) k =
      (StdMap.find b k).map fun v => v - debited shares k := by
  induction shares generalizing b with
  | nil => simp [debitShares, debited]
  | cons s rest ih =>
    have hunfold : debitShares b (s :: rest) =
        debitShares (if b.contains s.userId then b.addTo s.userId (-s.amount) else b) rest := rfl
    rw [hunfold, ih, debited_cons]
    by_cases hc : b.contains s.userId = true
    · rw [if_pos hc, StdMap.find_addTo]
      obtain ⟨v, hv⟩ := Option.isSome_iff_exists.1 hc
      by_cases hk : k = s.userId
      · subst hk
        simp only [if_true, hv, Option.getD_some, Option.map_some']
        congr 1
        ring
      · rw [if_neg hk, if_neg fun h => hk h.symm, zero_add]
    · rw [if_neg hc]
      by_cases hk : s.userId = k
      · subst hk
        have : StdMap.find b s.userId = none := by
          cases hf : StdMap.find b s.userId with
          | none => rfl
          | some v => exact absurd (by simp [StdMap.contains, hf]) hc
        simp [this]
      · rw [if_neg hk, zero_add]

/-- One expense changes the balance of every tracked user by `netEffect`, and
tracks nobody new. -/
theorem find_expenseEffect (ids : List String) (b : StdMap) (e : Expense) (k : String) :
    StdMap.find (expenseEffect ids b e) k =
      (StdMap.find b k).map fun v => v + netEffect ids k e := by
  unfold expenseEffect netEffect
  cases e.payer_id with
  | none => simp
  | some p =>
    cases e.amount with
    | none => simp
    | some a =>
      simp only
      by_cases hemp : ids.isEmpty = true
      · rw [if_pos hemp, if_pos hemp]
        simp
      · rw [if_neg hemp, if_neg hemp, find_debitShares, find_creditPayer]
        cases StdMap.find b k with
        | none => rfl
        | some v =>
          simp only [Option.map_some']
          congr 1
          ring

theorem find_foldl_expenseEffect (ids : List String) (es : List Expense) (b : StdMap)
    (k : String) :
    StdMap.find (es.foldl (expenseEffect ids) b) k =
      (StdMap.find b k).map fun v => v + (es.map (netEffect ids k)).sum := by
  induction es generalizing b with
  | nil => simp
  | cons e rest ih =>
    simp only [List.foldl_cons, List.map_cons, List.sum_cons]
    rw [ih, find_expenseEffect]
    cases StdMap.find b k with
    | none => rfl
    | some v =>
      simp only [Option.map_some']
      congr 1
      ring

theorem find_zeroBalances_aux (ids : List String) (acc : StdMap) (k : String) :
    StdMap.find (ids.foldl (fun (balances : StdMap) id => balances.assign id 0) acc) k =
      if k ∈ ids then some 0 else StdMap.find acc k := by
  induction ids generalizing acc with
  | nil => simp
  | cons id rest ih =>
    simp only [List.foldl_cons, List.mem_cons]
    rw [ih]
    by_cases h1 : k ∈ rest
    · simp [h1]
    · by_cases h2 : k = id
      · subst h2
        simp [h1, StdMap.find_assign_self]
      · simp [h1, h2, StdMap.find_assign_ne _ _ _ _ h2]

theorem find_zeroBalances (ids : List String) (k : String) :
    StdMap.find (zeroBalances ids) k = if k ∈ ids then some 0 else none := by
  unfold zeroBalances
  rw [find_zeroBalances_aux]
  rfl

/-- The balance of every user after the fold: the tracked users, and only they,
have one, the sum of what the expenses add. -/
theorem find_foldedBalances (es : List Expense) (ids : List String) (k : String) :
    StdMap.find (foldedBalances es ids) k =
      if k ∈ ids then some ((es.map (netEffect ids k)).sum) else none := by
  unfold foldedBalances
  rw [find_foldl_expenseEffect, find_zeroBalances]
  split_ifs <;> simp

theorem debited_foldShares_equal (ids : List String) (amount : ℚ) (k : String) :
    debited (foldShares ids amount "equal") k =
      (ids.count k : ℚ) * (amount / (ids.length : ℚ)) := by
  unfold foldShares
  rw [if_pos rfl]
  generalize amount / (ids.length : ℚ) = share
  generalize 100 / (ids.length : ℚ) = pct
  induction ids with
  | nil => simp [debited]
  | cons id rest ih =>
    rw [List.map_cons, debited_cons, ih, List.count_cons]
    by_cases h : id = k
    · simp [h]; ring
    · simp [h]

/-! ## One equal-split expense (C14, C17) -/

theorem netEffect_equal (ids : List String) (k p : String) (a : ℚ) (st : Option String)
    (hst : st.getD "equal" = "equal") (hids : ids ≠ []) :
    netEffect ids k ⟨some p, some a, st⟩ =
      (if p = k then a else 0) - (ids.count k : ℚ) * (a / (ids.length : ℚ)) := by
  have hemp : ¬ ids.isEmpty = true := by simpa using hids
  simp only [netEffect, if_neg hemp, hst, debited_foldShares_equal]

/-- C14: single equal expense.  For participants with distinct ids among which
is the payer `p`, `calculateUserBalances` on the one expense (payer `p`, amount
`a`, split `"equal"`) gives `p` the balance `a - a/N` and every other
participant the balance `-a/N`. -/
theorem single_equal_expense (eventId : String) (a : ℚ) (p : String)
    (participants : JsonList Participant) (hnd : (trackedIds participants).Nodup)
    (hp : p ∈ trackedIds participants) :
    ∃ m, calculateUserBalances eventId (.array [⟨some p, some a, some "equal"⟩])
        participants = .ok m ∧
      StdMap.find m p = some (a - a / ((trackedIds participants).length : ℚ)) ∧
      ∀ u ∈ trackedIds participants, u ≠ p →
        StdMap.find m u = some (-(a / ((trackedIds participants).length : ℚ))) := by
  have hids : trackedIds participants ≠ [] := List.ne_nil_of_mem hp
  refine ⟨_, calculateUserBalances_eq _ _ _, ?_, ?_⟩
  · rw [find_foldedBalances, if_pos hp]
    simp only [JsonList.elements, List.map_cons, List.map_nil, List.sum_cons, List.sum_nil,
      add_zero]
    rw [netEffect_equal _ _ _ _ (some "equal") rfl hids, List.count_eq_one_of_mem hnd hp]
    simp
  · intro u hu hne
    rw [find_foldedBalances, if_pos hu]
    simp only [JsonList.elements, List.map_cons, List.map_nil, List.sum_cons, List.sum_nil,
      add_zero]
    rw [netEffect_equal _ _ _ _ (some "equal") rfl hids, List.count_eq_one_of_mem hnd hu,
      if_neg fun h => hne h.symm]
    simp

/-- C14 at payer A, amount 90, participants A, B, C: A = 60, B = -30, C = -30. -/
theorem single_equal_expense_witness :
    ∃ m, calculateUserBalances "event" (.array [⟨some "A", some 90, some "equal"⟩])
        (.array [⟨some "A"⟩, ⟨some "B"⟩, ⟨some "C"⟩]) = .ok m ∧
      StdMap.find m "A" = some 60 ∧ StdMap.find m "B" = some (-30) ∧
      StdMap.find m "C" = some (-30) := by
  have hT : trackedIds (.array [⟨some "A"⟩, ⟨some "B"⟩, ⟨some "C"⟩]) = ["A", "B", "C"] := rfl
  obtain ⟨m, hm, hA, hrest⟩ := single_equal_expense "event" 90 "A"
    (.array [⟨some "A"⟩, ⟨some "B"⟩, ⟨some "C"⟩]) (by rw [hT]; decide) (by rw [hT]; decide)
  rw [hT] at hA hrest
  refine ⟨m, hm, ?_, ?_, ?_⟩
  · rw [hA]; norm_num
  · rw [hrest "B" (by decide) (by decide)]; norm_num
  · rw [hrest "C" (by decide) (by decide)]; norm_num

/-- C17: untracked payer.  For participants with distinct ids (at least one) and
an equal-split expense of amount `a` whose payer is none of them,
`calculateUserBalances` throws nothing, credits nobody and debits every
participant `a/N`: each balance is `-a/N`, the balances sum to `-a`, and the
payer has no entry in the result. -/
theorem untracked_payer (eventId : String) (a : ℚ) (p : String)
    (participants : JsonList Participant) (hnd : (trackedIds participants).Nodup)
    (hids : trackedIds participants ≠ []) (hp : p ∉ trackedIds participants) :
    ∃ m, calculateUserBalances eventId (.array [⟨some p, some a, some "equal"⟩])
        participants = .ok m ∧
      (∀ u ∈ trackedIds participants,
        StdMap.find m u = some (-(a / ((trackedIds participants).length : ℚ)))) ∧
      StdMap.sum m = -a ∧ StdMap.find m p = none ∧ p ∉ StdMap.keys m := by
  refine ⟨_, calculateUserBalances_eq _ _ _, ?_, ?_, ?_, ?_⟩
  · intro u hu
    have hne : ¬ p = u := fun h => hp (h ▸ hu)
    rw [find_foldedBalances, if_pos hu]
    simp only [JsonList.elements, List.map_cons, List.map_nil, List.sum_cons, List.sum_nil,
      add_zero]
    rw [netEffect_equal _ _ _ _ (some "equal") rfl hids, List.count_eq_one_of_mem hnd hu, if_neg hne]
    simp
  · simp only [foldedBalances, JsonList.elements, List.foldl_cons, List.foldl_nil]
    rw [sum_expenseEffect _ _ _ (wf_zeroBalances _) (mem_keys_zeroBalances _) p a rfl rfl,
      sum_zeroBalances, if_neg hp]
    simp only [Option.getD_some]
    rw [sharesTotal_foldShares_equal _ _ hids]
    ring
  · rw [find_foldedBalances, if_neg hp]
  · rw [keys_foldedBalances, mem_keys_zeroBalances]
    exact hp

/-- C17 at payer X, amount 90, participants A, B, C: each balance is -30. -/
theorem untracked_payer_witness :
    ∃ m, calculateUserBalances "event" (.array [⟨some "X", some 90, some "equal"⟩])
        (.array [⟨some "A"⟩, ⟨some "B"⟩, ⟨some "C"⟩]) = .ok m ∧
      StdMap.find m "A" = some (-30) ∧ StdMap.find m "B" = some (-30) ∧
      StdMap.find m "C" = some (-30) ∧ StdMap.sum m = -90 ∧ StdMap.find m "X" = none := by
  have hT : trackedIds (.array [⟨some "A"⟩, ⟨some "B"⟩, ⟨some "C"⟩]) = ["A", "B", "C"] := rfl
  obtain ⟨m, hm, hall, hsum, hX, -⟩ := untracked_payer "event" 90 "X"
    (.array [⟨some "A"⟩, ⟨some "B"⟩, ⟨some "C"⟩]) (by rw [hT]; decide) (by rw [hT]; decide)
    (by rw [hT]; decide)
  rw [hT] at hall
  refine ⟨m, hm, ?_, ?_, ?_, hsum, hX⟩
  · rw [hall "A" (by decide)]; norm_num
  · rw [hall "B" (by decide)]; norm_num
  · rw [hall "C" (by decide)]; norm_num

/-! ## The end-to-end scenario (C16) and one creditor -/

theorem foldedBalances_scenario :
    foldedBalances [⟨some "A", some 90, some "equal"⟩, ⟨some "B", some 30, some "equal"⟩]
      ["A", "B", "C"] = [("A", 50), ("B", -10), ("C", -40)] := by
  have hAB : "A" < "B" := by simp; decide
  have hAC : "A" < "C" := by simp; decide
  have hBC : "B" < "C" := by simp; decide
  have hBA : ¬ "B" < "A" := by simp; decide
  have hCA : ¬ "C" < "A" := by simp; decide
  have hCB : ¬ "C" < "B" := by simp; decide
  simp [foldedBalances, zeroBalances, expenseEffect, foldShares, debitShares, creditPayer,
    StdMap.assign, StdMap.contains, StdMap.find, StdMap.addTo, hAB, hAC, hBC, hBA, hCA, hCB]
  norm_num


theorem optimizeSettlements_scenario :
    optimizeSettlements [("A", 50), ("B", -10), ("C", -40)] =
      [⟨"C", "A", 40⟩, ⟨"B", "A", 10⟩] := by
  norm_num [optimizeSettlements, debtorsOf, creditorsOf, List.filterMap_cons, sortByAmountDesc,
    List.insertionSort, List.orderedInsert, byAmountDesc, matchSettlements_cons,
    matchSettlements_nil_left, matchSettlements_nil_right]

/-- C16 fails as stated.  For participants A, B, C and the equal-split expenses
(A, 90) and (B, 30), `calculateEventSettlements` returns settlements whose
amounts do not total 90. -/
theorem scenario_total_is_not_90 :
    ¬ ∃ settlements,
      calculateEventSettlements
          (.array [⟨some "A", some 90, some "equal"⟩, ⟨some "B", some 30, some "equal"⟩])
          (.array [⟨some "A"⟩, ⟨some "B"⟩, ⟨some "C"⟩]) = .ok settlements ∧
        settlementsTotal settlements = 90 := by
  rintro ⟨settlements, h, htotal⟩
  rw [calculateEventSettlements_eq] at h
  have hT : trackedIds (.array [⟨some "A"⟩, ⟨some "B"⟩, ⟨some "C"⟩]) = ["A", "B", "C"] := rfl
  rw [hT] at h
  simp only [JsonList.elements] at h
  rw [foldedBalances_scenario, optimizeSettlements_scenario] at h
  cases h
  norm_num [settlementsTotal] at htotal

/-- C16 (amended): for participants A, B, C and the equal-split expenses (A, 90)
and (B, 30) the balances are A = 50, B = -10, C = -40 and
`calculateEventSettlements` returns C to A 40 and B to A 10, which total 50, the
sum of the two debts. -/
theorem scenario_settlements_total_50 :
    calculateUserBalances "event"
        (.array [⟨some "A", some 90, some "equal"⟩, ⟨some "B", some 30, some "equal"⟩])
        (.array [⟨some "A"⟩, ⟨some "B"⟩, ⟨some "C"⟩]) =
      .ok [("A", 50), ("B", -10), ("C", -40)] ∧
    calculateEventSettlements
        (.array [⟨some "A", some 90, some "equal"⟩, ⟨some "B", some 30, some "equal"⟩])
        (.array [⟨some "A"⟩, ⟨some "B"⟩, ⟨some "C"⟩]) =
      .ok [⟨"C", "A", 40⟩, ⟨"B", "A", 10⟩] ∧
    settlementsTotal [⟨"C", "A", 40⟩, ⟨"B", "A", 10⟩] = 50 := by
  have hT : trackedIds (.array [⟨some "A"⟩, ⟨some "B"⟩, ⟨some "C"⟩]) = ["A", "B", "C"] := rfl
  refine ⟨?_, ?_, ?_⟩
  · rw [calculateUserBalances_eq, hT]
    simp only [JsonList.elements]
    rw [foldedBalances_scenario]
  · rw [calculateEventSettlements_eq, hT]
    simp only [JsonList.elements]
    rw [foldedBalances_scenario, optimizeSettlements_scenario]
  · norm_num [settlementsTotal]

theorem sum_amounts_nonneg (ds : List (String × ℚ)) (h : ∀ e ∈ ds, 1 / 100 < e.2) :
    0 ≤ (ds.map Prod.snd).sum := by
  apply List.sum_nonneg
  intro x hx
  obtain ⟨e, he, rfl⟩ := List.mem_map.1 hx
  have := h e he
  linarith

/-- With one creditor whose credit is the total debt, every debtor pays the
whole debt to that creditor, in list order. -/
theorem matchSettlements_single_creditor (c : String) (ds : List (String × ℚ))
    (h : ∀ e ∈ ds, 1 / 100 < e.2) :
    matchSettlements ds [(c, (ds.map Prod.snd).sum)] =
      ds.map fun e => ⟨e.1, c, e.2⟩ := by
  induction ds with
  | nil => exact matchSettlements_nil_left _
  | cons d rest ih =>
    obtain ⟨dk, dx⟩ := d
    have hrest : ∀ e ∈ rest, 1 / 100 < e.2 := fun e he => h e (List.mem_cons_of_mem _ he)
    have hnonneg := sum_amounts_nonneg rest hrest
    simp only [List.map_cons, List.sum_cons]
    rw [matchSettlements_cons, min_eq_left (by linarith), sub_self, if_pos (by norm_num),
      add_sub_cancel_left]
    cases rest with
    | nil =>
      simp only [List.map_nil, List.sum_nil]
      rw [if_pos (by norm_num), matchSettlements_nil_left]
    | cons r rest' =>
      have hr := h r (List.mem_cons_of_mem _ (List.mem_cons_self _ _))
      have hnonneg' := sum_amounts_nonneg rest'
        fun e he => hrest e (List.mem_cons_of_mem _ he)
      have hnot : ¬ ((r :: rest').map Prod.snd).sum < 1 / 100 := by
        simp only [List.map_cons, List.sum_cons]
        linarith
      rw [if_neg hnot, ih hrest]

theorem sorted_sortByAmountDesc (l : List (String × ℚ)) :
    (sortByAmountDesc l).Pairwise fun a b => b.2 ≤ a.2 := by
  haveI : IsTotal (String × ℚ) byAmountDesc := ⟨fun a b => le_total b.2 a.2⟩
  haveI : IsTrans (String × ℚ) byAmountDesc := ⟨fun a b c hab hbc => le_trans hbc hab⟩
  exact List.sorted_insertionSort byAmountDesc l

/-! ## Records the folds skip or complete (C18, C19, C20) -/

theorem expenseEffect_malformed (ids : List String) (b : StdMap) (bad : Expense)
    (h : bad.payer_id = none ∨ bad.amount = none) : expenseEffect ids b bad = b := by
  unfold expenseEffect
  rcases h with h | h
  · rw [h]
  · rw [h]
    cases bad.payer_id <;> rfl

theorem foldedBalances_insert (ids : List String) (before after : List Expense)
    (e e' : Expense) (h : ∀ b, expenseEffect ids b e = expenseEffect ids b e') :
    foldedBalances (before ++ e :: after) ids = foldedBalances (before ++ e' :: after) ids := by
  unfold foldedBalances
  simp only [List.foldl_append, List.foldl_cons, h]

theorem foldedBalances_skip (ids : List String) (before after : List Expense)
    (e : Expense) (h : ∀ b, expenseEffect ids b e = b) :
    foldedBalances (before ++ e :: after) ids = foldedBalances (before ++ after) ids := by
  unfold foldedBalances
  simp only [List.foldl_append, List.foldl_cons, h]

/-- C18: malformed expenses are skipped.  Inserting anywhere in the expense list
a record that lacks `payer_id` or lacks `amount` changes neither the result of
`calculateUserBalances` nor that of `calculateEventSettlements`, and neither
call throws. -/
theorem malformed_expense_skipped (eventId : String) (participants : JsonList Participant)
    (before after : List Expense) (bad : Expense)
    (h : bad.payer_id = none ∨ bad.amount = none) :
    calculateUserBalances eventId (.array (before ++ bad :: after)) participants =
      calculateUserBalances eventId (.array (before ++ after)) participants ∧
    calculateEventSettlements (.array (before ++ bad :: after)) participants =
      calculateEventSettlements (.array (before ++ after)) participants ∧
    (∃ m, calculateUserBalances eventId (.array (before ++ bad :: after)) participants =
      .ok m) ∧
    (∃ settlements,
      calculateEventSettlements (.array (before ++ bad :: after)) participants =
        .ok settlements) := by
  have hskip := foldedBalances_skip (trackedIds participants) before after bad
    fun b => expenseEffect_malformed _ b bad h
  refine ⟨?_, ?_, ⟨_, calculateUserBalances_eq _ _ _⟩, ⟨_, calculateEventSettlements_eq _ _⟩⟩
  · rw [calculateUserBalances_eq, calculateUserBalances_eq]
    simp only [JsonList.elements]
    rw [hskip]
  · rw [calculateEventSettlements_eq, calculateEventSettlements_eq]
    simp only [JsonList.elements]
    rw [hskip]

/-- C18 at participants A, B, C: a record without `payer_id` between the
expenses (A, 90) and (B, 30) changes nothing. -/
theorem malformed_expense_skipped_witness :
    calculateUserBalances "event"
        (.array ([⟨some "A", some 90, some "equal"⟩] ++
          ⟨none, some 7, some "equal"⟩ :: [⟨some "B", some 30, some "equal"⟩]))
        (.array [⟨some "A"⟩, ⟨some "B"⟩, ⟨some "C"⟩]) =
      calculateUserBalances "event"
        (.array ([⟨some "A", some 90, some "equal"⟩] ++ [⟨some "B", some 30, some "equal"⟩]))
        (.array [⟨some "A"⟩, ⟨some "B"⟩, ⟨some "C"⟩]) :=
  (malformed_expense_skipped "event" (.array [⟨some "A"⟩, ⟨some "B"⟩, ⟨some "C"⟩])
    [⟨some "A", some 90, some "equal"⟩] [⟨some "B", some 30, some "equal"⟩]
    ⟨none, some 7, some "equal"⟩ (Or.inl rfl)).1

/-- C19: tracked set.  The keys of the map `calculateUserBalances` returns are
exactly the `user_id` values of the participant records, whatever the expenses,
and with an empty expense list every value is 0. -/
theorem balances_keys_are_tracked_ids (eventId : String) (expenses : JsonList Expense)
    (participants : JsonList Participant) :
    (∃ m, calculateUserBalances eventId expenses participants = .ok m ∧
      ∀ k, k ∈ StdMap.keys m ↔ k ∈ trackedIds participants) ∧
    (∃ m, calculateUserBalances eventId (.array []) participants = .ok m ∧
      ∀ e ∈ m, e.2 = 0) := by
  constructor
  · refine ⟨_, calculateUserBalances_eq _ _ _, fun k => ?_⟩
    rw [keys_foldedBalances, mem_keys_zeroBalances]
  · refine ⟨_, calculateUserBalances_eq _ _ _, ?_⟩
    exact values_zeroBalances _

/-- C20: default split policy.  An expense record without `split_type` gives the
same results of `calculateUserBalances` and of `calculateEventSettlements` as
the same record with `split_type` `"equal"`, wherever it stands in the list. -/
theorem absent_split_type_is_equal (eventId : String) (participants : JsonList Participant)
    (before after : List Expense) (payer : Option String) (amount : Option ℚ) :
    calculateUserBalances eventId (.array (before ++ ⟨payer, amount, none⟩ :: after))
        participants =
      calculateUserBalances eventId
        (.array (before ++ ⟨payer, amount, some "equal"⟩ :: after)) participants ∧
    calculateEventSettlements (.array (before ++ ⟨payer, amount, none⟩ :: after))
        participants =
      calculateEventSettlements (.array (before ++ ⟨payer, amount, some "equal"⟩ :: after))
        participants := by
  have hsame := foldedBalances_insert (trackedIds participants) before after
    ⟨payer, amount, none⟩ ⟨payer, amount, some "equal"⟩ fun _ => rfl
  constructor
  · rw [calculateUserBalances_eq, calculateUserBalances_eq]
    simp only [JsonList.elements]
    rw [hsame]
  · rw [calculateEventSettlements_eq, calculateEventSettlements_eq]
    simp only [JsonList.elements]
    rw [hsame]

/-! ## Bounds on what the settlements transfer (C25, C26, C28) -/

/-- C28: no self-payment.  In a well-formed balance map every settlement of
`optimizeSettlements` has a `fromUserId` different from its `toUserId`. -/
theorem no_self_payment (balances : StdMap) (h : StdMap.WF balances) (s : Settlement)
    (hs : s ∈ optimizeSettlements balances) : s.fromUserId ≠ s.toUserId := by
  obtain ⟨⟨b, hb, hlt⟩, ⟨c, hc, hgt⟩⟩ := optimizeSettlements_parties balances s hs
  intro heq
  rw [heq] at hb
  have := StdMap.value_unique h hb hc
  linarith

/-- C28 at the balances A = 50, B = -10, C = -40, D = 0 and the settlement from
C to A. -/
theorem no_self_payment_witness :
    (⟨"C", "A", 40⟩ : Settlement) ∈
      optimizeSettlements [("A", 50), ("B", -10), ("C", -40), ("D", 0)] ∧
    (⟨"C", "A", 40⟩ : Settlement).fromUserId ≠ (⟨"C", "A", 40⟩ : Settlement).toUserId :=
  ⟨by rw [optimizeSettlements_example]; simp,
    no_self_payment [("A", 50), ("B", -10), ("C", -40), ("D", 0)]
      (by simp [StdMap.WF]; decide) ⟨"C", "A", 40⟩
      (by rw [optimizeSettlements_example]; simp)⟩

/-! ## Order independence (C21) -/

/-- Two well-formed maps with the same keys and the same lookups are equal. -/
theorem StdMap.ext_of_find {m₁ m₂ : StdMap} (h₁ : StdMap.WF m₁) (h₂ : StdMap.WF m₂)
    (hkeys : StdMap.keys m₁ = StdMap.keys m₂)
    (hfind : ∀ k ∈ StdMap.keys m₁, StdMap.find m₁ k = StdMap.find m₂ k) : m₁ = m₂ := by
  induction m₁ generalizing m₂ with
  | nil =>
    cases m₂ with
    | nil => rfl
    | cons e rest => simp [StdMap.keys] at hkeys
  | cons e₁ rest₁ ih =>
    cases m₂ with
    | nil => simp [StdMap.keys] at hkeys
    | cons e₂ rest₂ =>
      obtain ⟨k₁, v₁⟩ := e₁
      obtain ⟨k₂, v₂⟩ := e₂
      simp only [StdMap.keys, List.map_cons, List.cons.injEq] at hkeys
      obtain ⟨hk, hrest⟩ := hkeys
      subst hk
      obtain ⟨hlt₁, hwf₁⟩ := StdMap.wf_cons.1 h₁
      obtain ⟨hlt₂, hwf₂⟩ := StdMap.wf_cons.1 h₂
      have hv : v₁ = v₂ := by
        have := hfind k₁ (by simp [StdMap.keys])
        simpa [StdMap.find] using this
      subst hv
      congr 1
      apply ih hwf₁ hwf₂ hrest
      intro k hk
      have hne : k ≠ k₁ := ne_of_gt (hlt₁ k hk)
      have := hfind k (by simp only [StdMap.keys, List.map_cons, List.mem_cons]; exact Or.inr hk)
      simpa [StdMap.find, hne] using this

theorem foldedBalances_perm (ids : List String) {es₁ es₂ : List Expense}
    (h : es₁.Perm es₂) : foldedBalances es₁ ids = foldedBalances es₂ ids := by
  apply StdMap.ext_of_find (wf_foldedBalances _ _) (wf_foldedBalances _ _)
  · rw [keys_foldedBalances, keys_foldedBalances]
  · intro k _
    rw [find_foldedBalances, find_foldedBalances, (h.map (netEffect ids k)).sum_eq]

/-- C21: order independence.  For expense lists that are permutations of each
other `calculateUserBalances` returns the same balance map. -/
theorem balances_order_independent (eventId : String) (participants : JsonList Participant)
    (es₁ es₂ : List Expense) (h : es₁.Perm es₂) :
    calculateUserBalances eventId (.array es₁) participants =
      calculateUserBalances eventId (.array es₂) participants := by
  rw [calculateUserBalances_eq, calculateUserBalances_eq]
  simp only [JsonList.elements]
  rw [foldedBalances_perm _ h]

/-- C21 at participants A, B, C and the expenses (A, 90) and (B, 30) in both
orders. -/
theorem balances_order_independent_witness :
    calculateUserBalances "event"
        (.array [⟨some "A", some 90, some "equal"⟩, ⟨some "B", some 30, some "equal"⟩])
        (.array [⟨some "A"⟩, ⟨some "B"⟩, ⟨some "C"⟩]) =
      calculateUserBalances "event"
        (.array [⟨some "B", some 30, some "equal"⟩, ⟨some "A", some 90, some "equal"⟩])
        (.array [⟨some "A"⟩, ⟨some "B"⟩, ⟨some "C"⟩]) :=
  balances_order_independent "event" _ _ _ (List.Perm.swap _ _ _)

/-! ## The sum of the balances (C22, C23) -/

theorem sum_expenseEffect_eq (ids : List String) (b : StdMap) (e : Expense)
    (h : StdMap.WF b) (hkeys : ∀ k, k ∈ StdMap.keys b ↔ k ∈ ids) :
    StdMap.sum (expenseEffect ids b e) = StdMap.sum b + sumEffect ids e := by
  cases hp : e.payer_id with
  | none => simp [expenseEffect, sumEffect, hp]
  | some p =>
    cases ha : e.amount with
    | none => simp [expenseEffect, sumEffect, hp, ha]
    | some a =>
      rw [sum_expenseEffect ids b e h hkeys p a hp ha]
      by_cases hemp : ids.isEmpty = true
      · have hnil : ids = [] := List.isEmpty_iff.1 hemp
        subst hnil
        simp [sumEffect, hp, ha, foldShares, sharesTotal]
      · simp only [sumEffect, hp, ha, if_neg hemp]
        ring

/-- The sum of the balances after the fold is the sum of what the expenses add. -/
theorem sum_foldedBalances (es : List Expense) (ids : List String) :
    StdMap.sum (foldedBalances es ids) = (es.map (sumEffect ids)).sum := by
  have hgen : ∀ (es : List Expense) (b : StdMap), StdMap.WF b →
      (∀ k, k ∈ StdMap.keys b ↔ k ∈ ids) →
      StdMap.sum (es.foldl (expenseEffect ids) b) =
        StdMap.sum b + (es.map (sumEffect ids)).sum := by
    intro es
    induction es with
    | nil => intro b _ _; simp
    | cons e rest ih =>
      intro b hb hkeys
      obtain ⟨h1, h2⟩ := expenseEffect_invariant ids b e hb
      simp only [List.foldl_cons, List.map_cons, List.sum_cons]
      rw [ih _ h1 (fun k => by rw [h2]; exact hkeys k), sum_expenseEffect_eq ids b e hb hkeys]
      ring
  unfold foldedBalances
  rw [hgen es _ (wf_zeroBalances ids) (mem_keys_zeroBalances ids), sum_zeroBalances, zero_add]

/-- C22: zero-sum for equal splits.  For every participant list (a `user_id` may
occur several times) and every expense list in which each expense has
`split_type` `"equal"` or none and each payer is among the participants, the
values of the map `calculateUserBalances` returns sum to zero. -/
theorem equal_splits_sum_zero (eventId : String) (expenses : JsonList Expense)
    (participants : JsonList Participant)
    (hsplit : ∀ e ∈ expenses.elements, e.split_type = some "equal" ∨ e.split_type = none)
    (hpayer : ∀ e ∈ expenses.elements, ∀ p, e.payer_id = some p →
      p ∈ trackedIds participants) :
    ∃ m, calculateUserBalances eventId expenses participants = .ok m ∧ StdMap.sum m = 0 := by
  refine ⟨_, calculateUserBalances_eq _ _ _, ?_⟩
  rw [sum_foldedBalances]
  apply List.sum_eq_zero
  intro x hx
  obtain ⟨e, he, rfl⟩ := List.mem_map.1 hx
  unfold sumEffect
  cases hp : e.payer_id with
  | none => rfl
  | some p =>
    cases ha : e.amount with
    | none => rfl
    | some a =>
      have hmem := hpayer e he p hp
      have hids : trackedIds participants ≠ [] := List.ne_nil_of_mem hmem
      have hemp : ¬ (trackedIds participants).isEmpty = true := by simpa using hids
      have hst : e.split_type.getD "equal" = "equal" := by
        rcases hsplit e he with h | h <;> rw [h] <;> rfl
      simp only [if_neg hemp, if_pos hmem, hst, sharesTotal_foldShares_equal _ _ hids, sub_self]

/-- C22 at participants A, B, A (A listed twice) and the expenses (A, 90) with
`split_type` `"equal"` and (B, 30) without `split_type`. -/
theorem equal_splits_sum_zero_witness :
    ∃ m, calculateUserBalances "event"
        (.array [⟨some "A", some 90, some "equal"⟩, ⟨some "B", some 30, none⟩])
        (.array [⟨some "A"⟩, ⟨some "B"⟩, ⟨some "A"⟩]) = .ok m ∧ StdMap.sum m = 0 := by
  apply equal_splits_sum_zero
  · intro e he
    simp only [JsonList.elements, List.mem_cons, List.mem_singleton, List.not_mem_nil,
      or_false] at he
    rcases he with rfl | rfl
    · exact Or.inl rfl
    · exact Or.inr rfl
  · intro e he p hp
    have hT : trackedIds (.array [⟨some "A"⟩, ⟨some "B"⟩, ⟨some "A"⟩]) = ["A", "B", "A"] := rfl
    rw [hT]
    simp only [JsonList.elements, List.mem_cons, List.mem_singleton, List.not_mem_nil,
      or_false] at he
    rcases he with rfl | rfl <;> cases hp <;> simp

/-! ## Expenses with another policy than `"equal"` (C23) -/

theorem foldShares_of_ne_equal (ids : List String) (a : ℚ) {st : String} (h : st ≠ "equal") :
    foldShares ids a st = [] := by
  unfold foldShares
  rw [if_neg h]

theorem netEffect_of_ne_equal (ids : List String) (k p : String) (a : ℚ) {st : String}
    (h : st ≠ "equal") (hids : ids ≠ []) :
    netEffect ids k ⟨some p, some a, some st⟩ = if p = k then a else 0 := by
  have hemp : ¬ ids.isEmpty = true := by simpa using hids
  simp [netEffect, hemp, foldShares_of_ne_equal ids a h, debited]

theorem sumEffect_of_ne_equal (ids : List String) (p : String) (a : ℚ) {st : String}
    (h : st ≠ "equal") (hp : p ∈ ids) :
    sumEffect ids ⟨some p, some a, some st⟩ = a := by
  have hemp : ¬ ids.isEmpty = true := by simpa using List.ne_nil_of_mem hp
  simp [sumEffect, hemp, hp, foldShares_of_ne_equal ids a h, sharesTotal]

/-- C23: the folds never forward an override map.  For an expense whose
`split_type` is any string other than `"equal"` (`"percentage"`, `"custom"` or
unknown) and whose payer is tracked, the share calculator returns no share, so
with the expense the payer's balance is higher by the full amount, every other
balance is the same and the sum of the balances is higher by the amount;
`calculateEventSettlements` settles these balances. -/
theorem unforwarded_overrides (eventId : String) (participants : JsonList Participant)
    (before after : List Expense) (p : String) (a : ℚ) (st : String)
    (hst : st ≠ "equal") (hp : p ∈ trackedIds participants) :
    calculateExpenseShares a st (trackedIds participants) defaultCustomShares = .ok [] ∧
    ∃ m m',
      calculateUserBalances eventId (.array (before ++ ⟨some p, some a, some st⟩ :: after))
        participants = .ok m ∧
      calculateUserBalances eventId (.array (before ++ after)) participants = .ok m' ∧
      calculateEventSettlements (.array (before ++ ⟨some p, some a, some st⟩ :: after))
        participants = .ok (optimizeSettlements m) ∧
      (∃ v, StdMap.find m' p = some v ∧ StdMap.find m p = some (v + a)) ∧
      (∀ k, k ≠ p → StdMap.find m k = StdMap.find m' k) ∧
      StdMap.sum m = StdMap.sum m' + a := by
  have hids : trackedIds participants ≠ [] := List.ne_nil_of_mem hp
  refine ⟨?_, _, _, calculateUserBalances_eq _ _ _, calculateUserBalances_eq _ _ _,
    calculateEventSettlements_eq _ _, ?_, ?_, ?_⟩
  · rw [calculateExpenseShares_default, foldShares_of_ne_equal _ _ hst]
  · refine ⟨((before ++ after).map (netEffect (trackedIds participants) p)).sum, ?_, ?_⟩
    · simp only [JsonList.elements]
      rw [find_foldedBalances, if_pos hp]
    · simp only [JsonList.elements]
      rw [find_foldedBalances, if_pos hp]
      simp only [List.map_append, List.map_cons, List.sum_append, List.sum_cons]
      rw [netEffect_of_ne_equal _ _ _ _ hst hids, if_pos rfl]
      congr 1
      ring
  · intro k hk
    simp only [JsonList.elements]
    rw [find_foldedBalances, find_foldedBalances]
    by_cases hmem : k ∈ trackedIds participants
    · rw [if_pos hmem, if_pos hmem]
      simp only [List.map_append, List.map_cons, List.sum_append, List.sum_cons]
      rw [netEffect_of_ne_equal _ _ _ _ hst hids, if_neg fun h => hk h.symm, zero_add]
    · rw [if_neg hmem, if_neg hmem]
  · simp only [JsonList.elements]
    rw [sum_foldedBalances, sum_foldedBalances]
    simp only [List.map_append, List.map_cons, List.sum_append, List.sum_cons]
    rw [sumEffect_of_ne_equal _ _ _ hst hp]
    ring

/-- C23 at participants A, B and the one expense (A, 100, `"percentage"`): A has
100, B has 0, the sum is 100. -/
theorem unforwarded_overrides_witness :
    ∃ m, calculateUserBalances "event" (.array [⟨some "A", some 100, some "percentage"⟩])
        (.array [⟨some "A"⟩, ⟨some "B"⟩]) = .ok m ∧
      StdMap.find m "A" = some 100 ∧ StdMap.find m "B" = some 0 ∧ StdMap.sum m = 100 := by
  have hT : trackedIds (.array [⟨some "A"⟩, ⟨some "B"⟩]) = ["A", "B"] := rfl
  obtain ⟨-, m, m', hm, hm', -, ⟨v, hv, hA⟩, hother, hsum⟩ :=
    unforwarded_overrides "event" (.array [⟨some "A"⟩, ⟨some "B"⟩]) [] [] "A" 100
      "percentage" (by decide) (by rw [hT]; decide)
  rw [calculateUserBalances_eq] at hm'
  cases hm'
  simp only [List.append_nil, JsonList.elements] at hv hother hsum
  rw [find_foldedBalances, hT] at hv
  simp only [List.mem_cons, true_or, if_true, List.map_nil, List.sum_nil,
    Option.some.injEq] at hv
  refine ⟨m, hm, ?_, ?_, ?_⟩
  · rw [hA, ← hv]; norm_num
  · rw [hother "B" (by decide), find_foldedBalances, hT]
    simp
  · rw [hsum, sum_foldedBalances]
    simp

/-! ## Participants listed more than once (C29) -/

theorem trackedIds_participantsWithCreator (participants : JsonList Participant)
    (creator : String) :
    trackedIds (participantsWithCreator participants true creator) =
      trackedIds participants ++ [creator] := by
  cases participants with
  | array records =>
    simp [participantsWithCreator, trackedIds, JsonList.elements, List.filterMap_append]
  | notArray => rfl

/-- C29: duplicate participants are charged once per occurrence.  For one
equal-split expense of amount `a`, `calculateUserBalances` gives every tracked
user the credit (when the user is the payer) minus `k * a / N`, where `k` is the
number of occurrences of the user's id among the `N` participant ids: `a / N`
for a user listed once.  The controller's appending of the event creator adds
one occurrence of the creator's id. -/
theorem duplicates_charged_per_occurrence (eventId : String)
    (participants : JsonList Participant) (p : String) (a : ℚ) :
    (∃ m, calculateUserBalances eventId (.array [⟨some p, some a, some "equal"⟩])
        participants = .ok m ∧
      ∀ u ∈ trackedIds participants,
        StdMap.find m u = some ((if p = u then a else 0) -
          ((trackedIds participants).count u : ℚ) *
            (a / ((trackedIds participants).length : ℚ)))) ∧
    (∀ creator : String,
      (trackedIds (participantsWithCreator participants true creator)).count creator =
        (trackedIds participants).count creator + 1 ∧
      (trackedIds (participantsWithCreator participants true creator)).length =
        (trackedIds participants).length + 1) := by
  constructor
  · refine ⟨_, calculateUserBalances_eq _ _ _, ?_⟩
    intro u hu
    rw [find_foldedBalances, if_pos hu]
    simp only [JsonList.elements, List.map_cons, List.map_nil, List.sum_cons, List.sum_nil,
      add_zero]
    rw [netEffect_equal _ _ _ _ (some "equal") rfl (List.ne_nil_of_mem hu)]
  · intro creator
    rw [trackedIds_participantsWithCreator]
    simp

/-- C29 at the stored participants A, B with creator A appended, and the expense
(B, 90): A, listed twice, is debited 60 and B is left with 90 - 30 = 60. -/
theorem duplicates_charged_per_occurrence_example :
    ∃ m, calculateUserBalances "event" (.array [⟨some "B", some 90, some "equal"⟩])
        (participantsWithCreator (.array [⟨some "A"⟩, ⟨some "B"⟩]) true "A") = .ok m ∧
      StdMap.find m "A" = some (-60) ∧ StdMap.find m "B" = some 60 := by
  have hT : trackedIds (participantsWithCreator (.array [⟨some "A"⟩, ⟨some "B"⟩]) true "A") =
      ["A", "B", "A"] := rfl
  obtain ⟨⟨m, hm, h⟩, -⟩ := duplicates_charged_per_occurrence "event"
    (participantsWithCreator (.array [⟨some "A"⟩, ⟨some "B"⟩]) true "A") "B" 90
  rw [hT] at h
  refine ⟨m, hm, ?_, ?_⟩
  · rw [h "A" (by decide)]
    simp [List.count_cons]
    norm_num
  · rw [h "B" (by decide)]
    simp [List.count_cons]
    norm_num

/-! ## Folds without participants -/

theorem foldedBalances_no_participants (es : List Expense) : foldedBalances es [] = [] := by
  unfold foldedBalances
  induction es with
  | nil => rfl
  | cons e rest ih =>
    rw [List.foldl_cons]
    have : expenseEffect [] (zeroBalances []) e = zeroBalances [] := by
      unfold expenseEffect
      cases e.payer_id <;> cases e.amount <;> rfl
    rw [this]
    exact ih

/-! ## Largest first (C27) -/

theorem pairwise_keys_next {cond : Prop} [Decidable cond] (f : String → ℚ) {u : String}
    (x x' : ℚ) {es : List (String × ℚ)}
    (h : ((((u, x) :: es).map Prod.fst).map f).Pairwise fun a b => b ≤ a) :
    (((if cond then es else (u, x') :: es).map Prod.fst).map f).Pairwise fun a b => b ≤ a := by
  split_ifs
  · simp only [List.map_cons, List.pairwise_cons] at h
    exact h.2
  · exact h

/-- The payers of the settlements follow the order of the debtors, and the
receivers that of the creditors. -/
theorem matchSettlements_order (f g : String → ℚ) (ds cs : List (String × ℚ)) :
    ((ds.map Prod.fst).map f).Pairwise (fun a b => b ≤ a) →
    ((cs.map Prod.fst).map g).Pairwise (fun a b => b ≤ a) →
      ((matchSettlements ds cs).map fun s => f s.fromUserId).Pairwise (fun a b => b ≤ a) ∧
      ((matchSettlements ds cs).map fun s => g s.toUserId).Pairwise (fun a b => b ≤ a) := by
  refine matchSettlements_induction (P := fun ds cs =>
    ((ds.map Prod.fst).map f).Pairwise (fun a b => b ≤ a) →
    ((cs.map Prod.fst).map g).Pairwise (fun a b => b ≤ a) →
      ((matchSettlements ds cs).map fun s => f s.fromUserId).Pairwise (fun a b => b ≤ a) ∧
      ((matchSettlements ds cs).map fun s => g s.toUserId).Pairwise (fun a b => b ≤ a))
    ?_ ?_ ?_ ds cs
  · intro cs _ _
    rw [matchSettlements_nil_left]
    simp
  · intro ds _ _
    rw [matchSettlements_nil_right]
    simp
  · intro d x ds c y cs ih hds hcs
    obtain ⟨ih1, ih2⟩ := ih (pairwise_keys_next f x _ hds) (pairwise_keys_next g y _ hcs)
    rw [matchSettlements_cons]
    simp only [List.map_cons, List.pairwise_cons] at hds hcs ⊢
    refine ⟨⟨?_, ih1⟩, ⟨?_, ih2⟩⟩
    · intro a ha
      obtain ⟨t, ht, rfl⟩ := List.mem_map.1 ha
      have hmem := mem_keys_next (matchSettlements_parties _ _ t ht).1
      rcases List.mem_cons.1 hmem with heq | hmem
      · rw [heq]
      · exact hds.1 _ (List.mem_map_of_mem f hmem)
    · intro a ha
      obtain ⟨t, ht, rfl⟩ := List.mem_map.1 ha
      have hmem := mem_keys_next (matchSettlements_parties _ _ t ht).2
      rcases List.mem_cons.1 hmem with heq | hmem
      · rw [heq]
      · exact hcs.1 _ (List.mem_map_of_mem g hmem)

theorem debt_of_debtor {balances : StdMap} (h : StdMap.WF balances) {e : String × ℚ}
    (he : e ∈ sortByAmountDesc (debtorsOf balances)) :
    StdMap.find balances e.1 = some (-e.2) :=
  StdMap.find_of_mem h (mem_debtorsOf.1 (mem_sortByAmountDesc.1 he)).1

theorem credit_of_creditor {balances : StdMap} (h : StdMap.WF balances) {e : String × ℚ}
    (he : e ∈ sortByAmountDesc (creditorsOf balances)) :
    StdMap.find balances e.1 = some e.2 :=
  StdMap.find_of_mem h (mem_creditorsOf.1 (mem_sortByAmountDesc.1 he)).1

/-- C27: largest-first order.  In a well-formed balance map, along the list
`optimizeSettlements` returns the debts of the successive payers are
non-increasing and the credits of the successive receivers are non-increasing;
the first settlement goes from a debtor of largest debt to a creditor of largest
credit, with the smaller of the two as amount. -/
theorem largest_first_order (balances : StdMap) (h : StdMap.WF balances) :
    ((optimizeSettlements balances).map fun s =>
      -((StdMap.find balances s.fromUserId).getD 0)).Pairwise (fun a b => b ≤ a) ∧
    ((optimizeSettlements balances).map fun s =>
      (StdMap.find balances s.toUserId).getD 0).Pairwise (fun a b => b ≤ a) ∧
    (∀ s rest, optimizeSettlements balances = s :: rest →
      ∃ debt credit,
        StdMap.find balances s.fromUserId = some (-debt) ∧
        StdMap.find balances s.toUserId = some credit ∧
        s.amount = min debt credit ∧
        (∀ e ∈ balances, e.2 < -(1 / 100) → -e.2 ≤ debt) ∧
        (∀ e ∈ balances, 1 / 100 < e.2 → e.2 ≤ credit)) := by
  have hD : (((sortByAmountDesc (debtorsOf balances)).map Prod.fst).map fun u =>
      -((StdMap.find balances u).getD 0)).Pairwise (fun a b => b ≤ a) := by
    have : ((sortByAmountDesc (debtorsOf balances)).map Prod.fst).map (fun u =>
        -((StdMap.find balances u).getD 0)) =
        (sortByAmountDesc (debtorsOf balances)).map Prod.snd := by
      rw [List.map_map]
      apply List.map_congr_left
      intro e he
      simp [debt_of_debtor h he]
    rw [this, List.pairwise_map]
    exact sorted_sortByAmountDesc _
  have hC : (((sortByAmountDesc (creditorsOf balances)).map Prod.fst).map fun u =>
      (StdMap.find balances u).getD 0).Pairwise (fun a b => b ≤ a) := by
    have : ((sortByAmountDesc (creditorsOf balances)).map Prod.fst).map (fun u =>
        (StdMap.find balances u).getD 0) =
        (sortByAmountDesc (creditorsOf balances)).map Prod.snd := by
      rw [List.map_map]
      apply List.map_congr_left
      intro e he
      simp [credit_of_creditor h he]
    rw [this, List.pairwise_map]
    exact sorted_sortByAmountDesc _
  obtain ⟨h1, h2⟩ := matchSettlements_order _ _ _ _ hD hC
  refine ⟨h1, h2, ?_⟩
  intro s rest hs
  unfold optimizeSettlements at hs
  have hsortD := sorted_sortByAmountDesc (debtorsOf balances)
  have hsortC := sorted_sortByAmountDesc (creditorsOf balances)
  have hmemD : ∀ e, e ∈ sortByAmountDesc (debtorsOf balances) →
      StdMap.find balances e.1 = some (-e.2) := fun e he => debt_of_debtor h he
  have hmemC : ∀ e, e ∈ sortByAmountDesc (creditorsOf balances) →
      StdMap.find balances e.1 = some e.2 := fun e he => credit_of_creditor h he
  have hallD : ∀ e ∈ balances, e.2 < -(1 / 100) →
      (e.1, -e.2) ∈ sortByAmountDesc (debtorsOf balances) := fun e he hlt =>
    mem_sortByAmountDesc.2 (mem_debtorsOf.2 ⟨by simpa using he, by simp only; linarith⟩)
  have hallC : ∀ e ∈ balances, 1 / 100 < e.2 →
      e ∈ sortByAmountDesc (creditorsOf balances) := fun e he hgt =>
    mem_sortByAmountDesc.2 (mem_creditorsOf.2 ⟨he, hgt⟩)
  generalize sortByAmountDesc (debtorsOf balances) = D at hs hsortD hmemD hallD
  generalize sortByAmountDesc (creditorsOf balances) = C at hs hsortC hmemC hallC
  cases D with
  | nil => rw [matchSettlements_nil_left] at hs; cases hs
  | cons d ds =>
    cases C with
    | nil => rw [matchSettlements_nil_right] at hs; cases hs
    | cons c cs =>
      obtain ⟨dk, dx⟩ := d
      obtain ⟨ck, cy⟩ := c
      rw [matchSettlements_cons] at hs
      cases hs
      refine ⟨dx, cy, hmemD _ (List.mem_cons_self _ _), hmemC _ (List.mem_cons_self _ _), rfl,
        ?_, ?_⟩
      · intro e he hlt
        rcases List.mem_cons.1 (hallD e he hlt) with heq | hmem
        · have := (Prod.mk.inj heq).2
          linarith
        · exact (List.pairwise_cons.1 hsortD).1 _ hmem
      · intro e he hgt
        rcases List.mem_cons.1 (hallC e he hgt) with heq | hmem
        · rw [heq]
        · exact (List.pairwise_cons.1 hsortC).1 _ hmem

/-- C27 at the balances A = 50, B = -10, C = -40, D = 0: the first settlement
goes from C (debt 40) to A (credit 50) with amount 40. -/
theorem largest_first_order_witness :
    ∃ debt credit,
      StdMap.find [("A", 50), ("B", -10), ("C", -40), ("D", 0)] "C" = some (-debt) ∧
      StdMap.find [("A", 50), ("B", -10), ("C", -40), ("D", 0)] "A" = some credit ∧
      (40 : ℚ) = min debt credit ∧
      (∀ e ∈ ([("A", 50), ("B", -10), ("C", -40), ("D", 0)] : StdMap),
        e.2 < -(1 / 100) → -e.2 ≤ debt) ∧
      (∀ e ∈ ([("A", 50), ("B", -10), ("C", -40), ("D", 0)] : StdMap),
        1 / 100 < e.2 → e.2 ≤ credit) :=
  (largest_first_order [("A", 50), ("B", -10), ("C", -40), ("D", 0)]
    (by simp [StdMap.WF]; decide)).2.2 ⟨"C", "A", 40⟩ [⟨"B", "A", 10⟩]
    optimizeSettlements_example

/-! ## Whole-cent balances (C24) -/

theorem WholeCents.sub {x y : ℚ} (hx : WholeCents x) (hy : WholeCents y) :
    WholeCents (x - y) := by
  obtain ⟨n, rfl⟩ := hx
  obtain ⟨m, rfl⟩ := hy
  exact ⟨n - m, by push_cast; ring⟩

theorem WholeCents.add {x y : ℚ} (hx : WholeCents x) (hy : WholeCents y) :
    WholeCents (x + y) := by
  obtain ⟨n, rfl⟩ := hx
  obtain ⟨m, rfl⟩ := hy
  exact ⟨n + m, by push_cast; ring⟩

theorem WholeCents.neg {x : ℚ} (hx : WholeCents x) : WholeCents (-x) := by
  obtain ⟨n, rfl⟩ := hx
  exact ⟨-n, by push_cast; ring⟩

theorem WholeCents.min {x y : ℚ} (hx : WholeCents x) (hy : WholeCents y) :
    WholeCents (min x y) := by
  rcases min_choice x y with h | h <;> rw [h] <;> assumption

theorem WholeCents.zero : WholeCents 0 := ⟨0, by simp⟩

/-- A whole-cent amount below one cent and not negative is zero. -/
theorem WholeCents.eq_zero {x : ℚ} (hx : WholeCents x) (h0 : 0 ≤ x) (h1 : x < 1 / 100) :
    x = 0 := by
  obtain ⟨n, rfl⟩ := hx
  have hn0 : (0 : ℚ) ≤ n := by linarith
  have hn1 : (n : ℚ) < 1 := by linarith
  have h0' : (0 : ℤ) ≤ n := by exact_mod_cast hn0
  have h1' : n < 1 := by exact_mod_cast hn1
  have : n = 0 := by omega
  rw [this]
  simp

theorem wholeCents_next {u : String} {x a : ℚ} {es : List (String × ℚ)}
    (ha : WholeCents a) (h : ∀ e ∈ (u, x) :: es, WholeCents e.2) :
    ∀ e ∈ (if x - a < 1 / 100 then es else (u, x - a) :: es), WholeCents e.2 := by
  intro e he
  split_ifs at he
  · exact h e (List.mem_cons_of_mem _ he)
  · rcases List.mem_cons.1 he with rfl | he
    · exact (h (u, x) (List.mem_cons_self _ _)).sub ha
    · exact h e (List.mem_cons_of_mem _ he)

theorem matchSettlements_wholeCents (ds cs : List (String × ℚ)) :
    (∀ e ∈ ds, WholeCents e.2) → (∀ e ∈ cs, WholeCents e.2) →
      ∀ s ∈ matchSettlements ds cs, WholeCents s.amount := by
  refine matchSettlements_induction (P := fun ds cs => (∀ e ∈ ds, WholeCents e.2) →
    (∀ e ∈ cs, WholeCents e.2) → ∀ s ∈ matchSettlements ds cs, WholeCents s.amount)
    ?_ ?_ ?_ ds cs
  · intro cs _ _ s hs; simp [matchSettlements_nil_left] at hs
  · intro ds _ _ s hs; simp [matchSettlements_nil_right] at hs
  · intro d x ds c y cs ih hds hcs s hs
    have hx : WholeCents x := hds (d, x) (List.mem_cons_self _ _)
    have hy : WholeCents y := hcs (c, y) (List.mem_cons_self _ _)
    rw [matchSettlements_cons] at hs
    rcases List.mem_cons.1 hs with rfl | hs
    · exact hx.min hy
    · exact ih (wholeCents_next (hx.min hy) hds) (wholeCents_next (hx.min hy) hcs) s hs

theorem transferred_wholeCents (role : Settlement → String) (settlements : List Settlement)
    (u : String) (h : ∀ s ∈ settlements, WholeCents s.amount) :
    WholeCents (transferred role settlements u) := by
  induction settlements with
  | nil => exact ⟨0, by simp [transferred]⟩
  | cons s rest ih =>
    rw [transferred_cons]
    have h1 := ih fun t ht => h t (List.mem_cons_of_mem _ ht)
    have h2 := h s (List.mem_cons_self _ _)
    split_ifs
    · exact h2.add h1
    · exact WholeCents.zero.add h1

theorem sum_indicator (k : String) (a : ℚ) (es : List (String × ℚ))
    (hk : k ∈ es.map Prod.fst) (hnd : (es.map Prod.fst).Nodup) :
    (es.map fun e => if k = e.1 then a else 0).sum = a := by
  induction es with
  | nil => simp at hk
  | cons e rest ih =>
    obtain ⟨hnot, hrest⟩ := List.nodup_cons.1 hnd
    simp only [List.map_cons, List.sum_cons]
    rcases List.mem_cons.1 hk with heq | hmem
    · have hzero : (rest.map fun e' => if k = e'.1 then a else 0).sum = 0 := by
        apply List.sum_eq_zero
        intro x hx
        obtain ⟨e', he', rfl⟩ := List.mem_map.1 hx
        have : k ≠ e'.1 := by
          intro h'
          apply hnot
          rw [← heq, h']
          exact List.mem_map_of_mem Prod.fst he'
        rw [if_neg this]
      rw [if_pos heq, hzero, add_zero]
    · have : k ≠ e.1 := by
        intro h'
        exact hnot (h' ▸ hmem)
      rw [if_neg this, zero_add, ih hmem hrest]

/-- What the listed users transfer in a role adds up to the total of the
settlements, when every settlement has a listed user in that role. -/
theorem sum_transferred (role : Settlement → String) (settlements : List Settlement)
    (es : List (String × ℚ)) (hnd : (es.map Prod.fst).Nodup)
    (h : ∀ s ∈ settlements, role s ∈ es.map Prod.fst) :
    (es.map fun e => transferred role settlements e.1).sum = settlementsTotal settlements := by
  induction settlements with
  | nil => simp [transferred, settlementsTotal]
  | cons s rest ih =>
    have hfun : (fun e : String × ℚ => transferred role (s :: rest) e.1) =
        fun e => (if role s = e.1 then s.amount else 0) + transferred role rest e.1 := by
      funext e
      exact transferred_cons role s rest e.1
    rw [hfun, List.sum_map_add, ih fun t ht => h t (List.mem_cons_of_mem _ ht),
      sum_indicator _ _ _ (h s (List.mem_cons_self _ _)) hnd]
    simp [settlementsTotal]

theorem eq_zero_of_sum_eq_zero (l : List ℚ) (hnonneg : ∀ x ∈ l, 0 ≤ x) (hsum : l.sum = 0) :
    ∀ x ∈ l, x = 0 := by
  induction l with
  | nil => intro x hx; simp at hx
  | cons a rest ih =>
    have ha := hnonneg a (List.mem_cons_self _ _)
    have hrest : 0 ≤ rest.sum :=
      List.sum_nonneg fun x hx => hnonneg x (List.mem_cons_of_mem _ hx)
    rw [List.sum_cons] at hsum
    intro x hx
    rcases List.mem_cons.1 hx with rfl | hx
    · linarith
    · exact ih (fun y hy => hnonneg y (List.mem_cons_of_mem _ hy)) (by linarith) x hx

theorem sum_map_sub_entries (es : List (String × ℚ)) (f g : String × ℚ → ℚ) :
    (es.map fun e => f e - g e).sum = (es.map f).sum - (es.map g).sum := by
  induction es with
  | nil => simp
  | cons e rest ih =>
    simp only [List.map_cons, List.sum_cons, ih]
    ring

/-- With whole-cent amounts of equal totals the matching loop leaves nothing
unpaid and nothing unreceived. -/
theorem matchSettlements_exact (ds cs : List (String × ℚ))
    (hnd : (ds.map Prod.fst).Nodup) (hnc : (cs.map Prod.fst).Nodup)
    (hds : ∀ e ∈ ds, 0 ≤ e.2) (hcs : ∀ e ∈ cs, 0 ≤ e.2)
    (hdw : ∀ e ∈ ds, WholeCents e.2) (hcw : ∀ e ∈ cs, WholeCents e.2)
    (htot : (ds.map Prod.snd).sum = (cs.map Prod.snd).sum) :
    (∀ e ∈ ds, paidBy (matchSettlements ds cs) e.1 = e.2) ∧
    (∀ e ∈ cs, receivedBy (matchSettlements ds cs) e.1 = e.2) := by
  have hamt := matchSettlements_wholeCents ds cs hdw hcw
  have hple := paidBy_le ds cs hnd hds
  have hrle := receivedBy_le ds cs hnc hcs
  have hpsum := sum_transferred Settlement.fromUserId (matchSettlements ds cs) ds hnd
    fun s hs => (matchSettlements_parties ds cs s hs).1
  have hrsum := sum_transferred Settlement.toUserId (matchSettlements ds cs) cs hnc
    fun s hs => (matchSettlements_parties ds cs s hs).2
  have hdrem : ((ds.map fun e => e.2 - paidBy (matchSettlements ds cs) e.1).sum) =
      ((cs.map fun e => e.2 - receivedBy (matchSettlements ds cs) e.1).sum) := by
    rw [sum_map_sub_entries ds (fun e => e.2) (fun e => paidBy (matchSettlements ds cs) e.1),
      sum_map_sub_entries cs (fun e => e.2)
        (fun e => receivedBy (matchSettlements ds cs) e.1)]
    have h1 : (ds.map fun e => paidBy (matchSettlements ds cs) e.1).sum =
        settlementsTotal (matchSettlements ds cs) := hpsum
    have h2 : (cs.map fun e => receivedBy (matchSettlements ds cs) e.1).sum =
        settlementsTotal (matchSettlements ds cs) := hrsum
    rw [h1, h2]
    have h3 : (ds.map fun e => e.2).sum = (ds.map Prod.snd).sum := rfl
    have h4 : (cs.map fun e => e.2).sum = (cs.map Prod.snd).sum := rfl
    rw [h3, h4, htot]
  have hzero_d : (∀ e ∈ ds, e.2 - paidBy (matchSettlements ds cs) e.1 < 1 / 100) →
      ∀ e ∈ ds, paidBy (matchSettlements ds cs) e.1 = e.2 := by
    intro hside e he
    have hw : WholeCents (e.2 - paidBy (matchSettlements ds cs) e.1) :=
      (hdw e he).sub (transferred_wholeCents _ _ _ hamt)
    have := hw.eq_zero (by have := hple e he; linarith) (hside e he)
    linarith
  have hzero_c : (∀ e ∈ cs, e.2 - receivedBy (matchSettlements ds cs) e.1 < 1 / 100) →
      ∀ e ∈ cs, receivedBy (matchSettlements ds cs) e.1 = e.2 := by
    intro hside e he
    have hw : WholeCents (e.2 - receivedBy (matchSettlements ds cs) e.1) :=
      (hcw e he).sub (transferred_wholeCents _ _ _ hamt)
    have := hw.eq_zero (by have := hrle e he; linarith) (hside e he)
    linarith
  rcases one_side_exhausted ds cs hnd hnc with hside | hside
  · have hd := hzero_d hside
    refine ⟨hd, ?_⟩
    have hsum0 : (ds.map fun e => e.2 - paidBy (matchSettlements ds cs) e.1).sum = 0 := by
      apply List.sum_eq_zero
      intro x hx
      obtain ⟨e, he, rfl⟩ := List.mem_map.1 hx
      rw [hd e he, sub_self]
    rw [hsum0] at hdrem
    intro e he
    have := eq_zero_of_sum_eq_zero _ (by
      intro x hx
      obtain ⟨e', he', rfl⟩ := List.mem_map.1 hx
      have := hrle e' he'
      linarith) hdrem.symm _ (List.mem_map.2 ⟨e, he, rfl⟩)
    linarith
  · have hc := hzero_c hside
    refine ⟨?_, hc⟩
    have hsum0 : (cs.map fun e => e.2 - receivedBy (matchSettlements ds cs) e.1).sum = 0 := by
      apply List.sum_eq_zero
      intro x hx
      obtain ⟨e, he, rfl⟩ := List.mem_map.1 hx
      rw [hc e he, sub_self]
    rw [hsum0] at hdrem
    intro e he
    have := eq_zero_of_sum_eq_zero _ (by
      intro x hx
      obtain ⟨e', he', rfl⟩ := List.mem_map.1 hx
      have := hple e' he'
      linarith) hdrem _ (List.mem_map.2 ⟨e, he, rfl⟩)
    linarith

/-- C24: exact settlement on whole-cent balances.  In a well-formed balance map
whose balances are integer multiples of 0.01 and whose debts (balances below
-0.01) and credits (balances above 0.01) have equal totals, the settlements of
`optimizeSettlements` make every debtor pay exactly the debt and every creditor
receive exactly the credit, so applying them leaves each of them at zero. -/
theorem exact_settlement_whole_cents (balances : StdMap) (hwf : StdMap.WF balances)
    (hcents : ∀ e ∈ balances, WholeCents e.2)
    (htot : ((debtorsOf balances).map Prod.snd).sum =
      ((creditorsOf balances).map Prod.snd).sum) :
    ∀ e ∈ balances,
      (e.2 < -(1 / 100) →
        paidBy (optimizeSettlements balances) e.1 = -e.2 ∧
        adjustedBalance e.2 (optimizeSettlements balances) e.1 = 0) ∧
      (1 / 100 < e.2 →
        receivedBy (optimizeSettlements balances) e.1 = e.2 ∧
        adjustedBalance e.2 (optimizeSettlements balances) e.1 = 0) := by
  have hnd := StdMap.nodup_keys hwf
  have hexact := matchSettlements_exact (sortByAmountDesc (debtorsOf balances))
    (sortByAmountDesc (creditorsOf balances))
    (nodup_keys_sortByAmountDesc (nodup_keys_debtorsOf hnd))
    (nodup_keys_sortByAmountDesc (nodup_keys_creditorsOf hnd))
    (fun e he => le_of_lt (debtors_pos balances e he))
    (fun e he => le_of_lt (creditors_pos balances e he))
    (fun e he => by
      have := (hcents _ (mem_debtorsOf.1 (mem_sortByAmountDesc.1 he)).1).neg
      simpa using this)
    (fun e he => hcents _ (mem_creditorsOf.1 (mem_sortByAmountDesc.1 he)).1)
    (by
      rw [((perm_sortByAmountDesc (debtorsOf balances)).map Prod.snd).sum_eq,
        ((perm_sortByAmountDesc (creditorsOf balances)).map Prod.snd).sum_eq, htot])
  intro e he
  obtain ⟨hd, hc, -⟩ := paid_received_bounds hwf he
  constructor
  · intro hlt
    have hmem : (e.1, -e.2) ∈ sortByAmountDesc (debtorsOf balances) :=
      mem_sortByAmountDesc.2 (mem_debtorsOf.2 ⟨by simpa using he, by simp only; linarith⟩)
    have hpaid : paidBy (optimizeSettlements balances) e.1 = -e.2 := hexact.1 _ hmem
    refine ⟨hpaid, ?_⟩
    unfold adjustedBalance
    rw [hpaid, (hd hlt).2.2]
    ring
  · intro hgt
    have hmem : e ∈ sortByAmountDesc (creditorsOf balances) :=
      mem_sortByAmountDesc.2 (mem_creditorsOf.2 ⟨he, hgt⟩)
    have hrecv : receivedBy (optimizeSettlements balances) e.1 = e.2 := hexact.2 _ hmem
    refine ⟨hrecv, ?_⟩
    unfold adjustedBalance
    rw [hrecv, (hc hgt).2.2]
    ring

/-- C24 at the balances A = 50, B = -10, C = -40, D = 0: C pays exactly 40 and
A receives exactly 50, and both end at zero. -/
theorem exact_settlement_whole_cents_witness :
    paidBy (optimizeSettlements [("A", 50), ("B", -10), ("C", -40), ("D", 0)]) "C" = 40 ∧
    adjustedBalance (-40)
      (optimizeSettlements [("A", 50), ("B", -10), ("C", -40), ("D", 0)]) "C" = 0 ∧
    receivedBy (optimizeSettlements [("A", 50), ("B", -10), ("C", -40), ("D", 0)]) "A" = 50 ∧
    adjustedBalance 50
      (optimizeSettlements [("A", 50), ("B", -10), ("C", -40), ("D", 0)]) "A" = 0 := by
  have hwf : StdMap.WF [("A", 50), ("B", -10), ("C", -40), ("D", 0)] := by
    simp [StdMap.WF]; decide
  have hcents : ∀ e ∈ ([("A", 50), ("B", -10), ("C", -40), ("D", 0)] : StdMap),
      WholeCents e.2 := by
    intro e he
    simp only [List.mem_cons, List.mem_singleton, List.not_mem_nil, or_false] at he
    rcases he with rfl | rfl | rfl | rfl
    · exact ⟨5000, by norm_num⟩
    · exact ⟨-1000, by norm_num⟩
    · exact ⟨-4000, by norm_num⟩
    · exact ⟨0, by norm_num⟩
  have htot : ((debtorsOf [("A", 50), ("B", -10), ("C", -40), ("D", 0)]).map Prod.snd).sum =
      ((creditorsOf [("A", 50), ("B", -10), ("C", -40), ("D", 0)]).map Prod.snd).sum := by
    norm_num [debtorsOf, creditorsOf, List.filterMap_cons]
  have h := exact_settlement_whole_cents _ hwf hcents htot
  obtain ⟨hC1, hC2⟩ := (h ("C", -40) (by simp)).1 (by norm_num)
  obtain ⟨hA1, hA2⟩ := (h ("A", 50) (by simp)).2 (by norm_num)
  exact ⟨by simpa using hC1, hC2, hA1, hA2⟩

/-! ## The values and the events of the instrumented run -/

theorem Traced.pure_value {α : Type} (x : α) : (pure x : Traced α).value = x := rfl

theorem Traced.pure_events {α : Type} (x : α) : (pure x : Traced α).events = [] := rfl

theorem Traced.bind_value {α β : Type} (x : Traced α) (f : α → Traced β) :
    (x >>= f).value = (f x.value).value := rfl

theorem Traced.bind_events {α β : Type} (x : Traced α) (f : α → Traced β) :
    (x >>= f).events = x.events ++ (f x.value).events := rfl

theorem equalSharesTraced_value (shareAmount : ℚ) (size : Nat) (ids : List String) :
    (equalSharesTraced shareAmount size ids).value =
      ids.map fun userId => ⟨userId, shareAmount, 100 / (size : ℚ)⟩ := by
  induction ids with
  | nil => rfl
  | cons id rest ih =>
    simp only [equalSharesTraced, Traced.bind_value, Traced.pure_value, ih, tracedDivide,
      List.map_cons]

theorem equalSharesTraced_events (shareAmount : ℚ) (size : Nat) (ids : List String) :
    (equalSharesTraced shareAmount size ids).events =
      ids.map fun _ => Event.divide 100 size := by
  induction ids with
  | nil => rfl
  | cons id rest ih =>
    simp only [equalSharesTraced, Traced.bind_events, Traced.pure_events, ih, tracedDivide,
      List.map_cons, List.append_nil, List.singleton_append]

theorem percentageSharesTraced_value (totalAmount : ℚ) (customShares : Json)
    (ids : List String) :
    (percentageSharesTraced totalAmount customShares ids).value =
      percentageShares totalAmount customShares ids := by
  induction ids with
  | nil => rfl
  | cons id rest ih =>
    unfold percentageSharesTraced percentageShares
    split_ifs
    · cases (customShares.get id).toDouble with
      | error e => rfl
      | ok percentage =>
        simp only [Traced.bind_value, ih, tracedDivide]
        cases percentageShares totalAmount customShares rest <;> rfl
    · exact ih

theorem customAmountSharesTraced_value (totalAmount : ℚ) (customShares : Json)
    (ids : List String) :
    (customAmountSharesTraced totalAmount customShares ids).value =
      customAmountShares totalAmount customShares ids := by
  induction ids with
  | nil => rfl
  | cons id rest ih =>
    unfold customAmountSharesTraced customAmountShares
    split_ifs
    · cases (customShares.get id).toDouble with
      | error e => rfl
      | ok amount =>
        simp only [Traced.bind_value, ih, tracedDivide]
        cases customAmountShares totalAmount customShares rest <;> rfl
    · exact ih

/-- The instrumented share calculator computes `calculateExpenseShares`. -/
theorem calculateExpenseSharesTraced_value (totalAmount : ℚ) (splitType : String)
    (ids : List String) (customShares : Json) :
    (calculateExpenseSharesTraced totalAmount splitType ids customShares).value =
      calculateExpenseShares totalAmount splitType ids customShares := by
  unfold calculateExpenseSharesTraced calculateExpenseShares
  split_ifs
  · simp only [Traced.bind_value, Traced.pure_value, equalSharesTraced_value, tracedDivide]
  · exact percentageSharesTraced_value _ _ _
  · exact customAmountSharesTraced_value _ _ _
  · rfl

/-- The divisions of the `"equal"` branch: line 14 once, then line 16 once per
participant id. -/
theorem calculateExpenseSharesTraced_equal_events (totalAmount : ℚ) (ids : List String)
    (customShares : Json) :
    (calculateExpenseSharesTraced totalAmount "equal" ids customShares).events =
      Event.divide totalAmount ids.length :: ids.map fun _ => Event.divide 100 ids.length := by
  unfold calculateExpenseSharesTraced
  rw [if_pos rfl]
  simp only [Traced.bind_events, Traced.pure_events, equalSharesTraced_events, tracedDivide,
    List.append_nil, List.singleton_append]

/-- Without an override map only the `"equal"` branch divides. -/
theorem calculateExpenseSharesTraced_default_events (totalAmount : ℚ) (splitType : String)
    (ids : List String) (h : splitType ≠ "equal") :
    (calculateExpenseSharesTraced totalAmount splitType ids defaultCustomShares).events = [] := by
  unfold calculateExpenseSharesTraced
  rw [if_neg h]
  simp [defaultCustomShares, Json.empty, Traced.pure_events]

/-! ## The folds, instrumented -/

theorem tracedCall_value (amount : ℚ) (splitType : String) (ids : List String) :
    (tracedCall amount splitType ids).value =
      calculateExpenseShares amount splitType ids defaultCustomShares :=
  calculateExpenseSharesTraced_value _ _ _ _

theorem settlementsExpenseBodyTraced_value (participants : JsonList Participant)
    (balances : StdMap) (e : Expense) :
    (settlementsExpenseBodyTraced participants balances e).value =
      settlementsExpenseBody participants balances e := by
  unfold settlementsExpenseBodyTraced settlementsExpenseBody
  rcases e.payer_id with _ | payerId <;> rcases e.amount with _ | amount <;> try rfl
  simp only
  by_cases hemp : (settlementsParticipantIds participants).isEmpty = true
  · rw [if_pos hemp, if_pos hemp]
    rfl
  · rw [if_neg hemp, if_neg hemp, Traced.bind_value, tracedCall_value]
    cases calculateExpenseShares amount (e.split_type.getD "equal")
      (settlementsParticipantIds participants) defaultCustomShares <;> rfl

theorem balancesExpenseBodyTraced_value (participants : JsonList Participant)
    (balances : StdMap) (e : Expense) :
    (balancesExpenseBodyTraced participants balances e).value =
      balancesExpenseBody participants balances e := by
  unfold balancesExpenseBodyTraced balancesExpenseBody
  rcases e.payer_id with _ | payerId <;> rcases e.amount with _ | amount <;> try rfl
  simp only
  by_cases hemp : (balancesParticipantIds participants).isEmpty = true
  · rw [if_pos hemp, if_pos hemp]
    rfl
  · rw [if_neg hemp, if_neg hemp, Traced.bind_value, tracedCall_value]
    cases calculateExpenseShares amount (e.split_type.getD "equal")
      (balancesParticipantIds participants) defaultCustomShares <;> rfl

theorem forEachExpenseTraced_value (body : StdMap → Expense → Traced (Except String StdMap))
    (body0 : StdMap → Expense → Except String StdMap)
    (h : ∀ balances e, (body balances e).value = body0 balances e)
    (es : List Expense) (balances : StdMap) :
    (forEachExpenseTraced body es balances).value = forEachExpense body0 es balances := by
  induction es generalizing balances with
  | nil => rfl
  | cons e rest ih =>
    unfold forEachExpenseTraced forEachExpense
    rw [Traced.bind_value, h]
    cases body0 balances e with
    | error err => rfl
    | ok next => exact ih next

/-- The instrumented `calculateUserBalances` computes `calculateUserBalances`. -/
theorem calculateUserBalancesTraced_value (eventId : String) (expenses : JsonList Expense)
    (participants : JsonList Participant) :
    (calculateUserBalancesTraced eventId expenses participants).value =
      calculateUserBalances eventId expenses participants := by
  unfold calculateUserBalancesTraced calculateUserBalances
  rw [Traced.bind_value]
  by_cases harr : expenses.is_array = true
  · simp only [harr, if_true]
    rw [forEachExpenseTraced_value _ _ (balancesExpenseBodyTraced_value participants)]
    cases forEachExpense (balancesExpenseBody participants) expenses.elements
      (balancesInit participants) <;> rfl
  · simp only [harr, if_false]
    rfl

/-- The instrumented `calculateEventSettlements` computes
`calculateEventSettlements`. -/
theorem calculateEventSettlementsTraced_value (expenses : JsonList Expense)
    (participants : JsonList Participant) :
    (calculateEventSettlementsTraced expenses participants).value =
      calculateEventSettlements expenses participants := by
  unfold calculateEventSettlementsTraced calculateEventSettlements
  rw [Traced.bind_value]
  by_cases harr : expenses.is_array = true
  · simp only [harr, if_true]
    rw [forEachExpenseTraced_value _ _ (settlementsExpenseBodyTraced_value participants)]
    cases forEachExpense (settlementsExpenseBody participants) expenses.elements
      (settlementsInitBalances participants) <;> rfl
  · simp only [harr, if_false]
    rfl

/-! ## What a fold records -/

/-- A call with at least one participant id records that call and divisions by
the number of ids only. -/
theorem tracedCall_events (amount : ℚ) (splitType : String) (ids : List String)
    (hids : ids ≠ []) :
    ∀ ev ∈ (tracedCall amount splitType ids).events,
      (∀ a t l, ev = Event.call a t l → l ≠ []) ∧ (∀ x d, ev = Event.divide x d → d ≠ 0) := by
  have hlen : ((ids.length : ℕ) : ℚ) ≠ 0 := by
    simpa using hids
  intro ev hev
  unfold tracedCall at hev
  rcases List.mem_cons.1 hev with h | h
  · subst h
    refine ⟨fun a t l h => ?_, fun x d h => ?_⟩
    · injection h with _ _ h3
      rw [← h3]; exact hids
    · cases h
  · by_cases heq : splitType = "equal"
    · subst heq
      rw [calculateExpenseSharesTraced_equal_events] at h
      refine ⟨fun a t l h' => ?_, fun x d h' => ?_⟩
      · subst h'
        rcases List.mem_cons.1 h with h | h
        · cases h
        · obtain ⟨_, _, h⟩ := List.mem_map.1 h
          cases h
      · subst h'
        rcases List.mem_cons.1 h with h | h
        · injection h with _ h0
          rw [h0]; exact hlen
        · obtain ⟨_, _, h⟩ := List.mem_map.1 h
          injection h with _ h0
          rw [← h0]; exact hlen
    · rw [calculateExpenseSharesTraced_default_events _ _ _ heq] at h
      cases h

theorem settlementsExpenseBodyTraced_events (participants : JsonList Participant)
    (balances : StdMap) (e : Expense) :
    (settlementsExpenseBodyTraced participants balances e).events = [] ∨
      ∃ amount : ℚ, settlementsParticipantIds participants ≠ [] ∧
        (settlementsExpenseBodyTraced participants balances e).events =
          (tracedCall amount (e.split_type.getD "equal")
            (settlementsParticipantIds participants)).events := by
  unfold settlementsExpenseBodyTraced
  rcases e.payer_id with _ | payerId <;> rcases e.amount with _ | amount <;>
    try (left; rfl)
  simp only
  by_cases hemp : (settlementsParticipantIds participants).isEmpty = true
  · left
    rw [if_pos hemp]
    rfl
  · right
    refine ⟨amount, by simpa using hemp, ?_⟩
    rw [if_neg hemp, Traced.bind_events]
    cases (tracedCall amount (e.split_type.getD "equal")
      (settlementsParticipantIds participants)).value <;> simp [Traced.pure_events]

theorem balancesExpenseBodyTraced_events (participants : JsonList Participant)
    (balances : StdMap) (e : Expense) :
    (balancesExpenseBodyTraced participants balances e).events = [] ∨
      ∃ amount : ℚ, balancesParticipantIds participants ≠ [] ∧
        (balancesExpenseBodyTraced participants balances e).events =
          (tracedCall amount (e.split_type.getD "equal")
            (balancesParticipantIds participants)).events := by
  unfold balancesExpenseBodyTraced
  rcases e.payer_id with _ | payerId <;> rcases e.amount with _ | amount <;>
    try (left; rfl)
  simp only
  by_cases hemp : (balancesParticipantIds participants).isEmpty = true
  · left
    rw [if_pos hemp]
    rfl
  · right
    refine ⟨amount, by simpa using hemp, ?_⟩
    rw [if_neg hemp, Traced.bind_events]
    cases (tracedCall amount (e.split_type.getD "equal")
      (balancesParticipantIds participants)).value <;> simp [Traced.pure_events]

theorem forEachExpenseTraced_events (P : Event → Prop)
    (body : StdMap → Expense → Traced (Except String StdMap))
    (h : ∀ balances e, ∀ ev ∈ (body balances e).events, P ev)
    (es : List Expense) (balances : StdMap) :
    ∀ ev ∈ (forEachExpenseTraced body es balances).events, P ev := by
  induction es generalizing balances with
  | nil =>
    intro ev hev
    cases hev
  | cons e rest ih =>
    intro ev hev
    unfold forEachExpenseTraced at hev
    rw [Traced.bind_events, List.mem_append] at hev
    rcases hev with hev | hev
    · exact h balances e ev hev
    · cases hval : (body balances e).value with
      | error err =>
        rw [hval] at hev
        cases hev
      | ok next =>
        rw [hval] at hev
        exact ih next ev hev

theorem calculateUserBalancesTraced_events (eventId : String) (expenses : JsonList Expense)
    (participants : JsonList Participant) :
    (calculateUserBalancesTraced eventId expenses participants).events =
      if expenses.is_array then
        (forEachExpenseTraced (balancesExpenseBodyTraced participants) expenses.elements
          (balancesInit participants)).events
      else [] := by
  unfold calculateUserBalancesTraced
  rw [Traced.bind_events]
  by_cases harr : expenses.is_array = true
  · simp only [harr, if_true]
    cases (forEachExpenseTraced (balancesExpenseBodyTraced participants) expenses.elements
      (balancesInit participants)).value <;> simp [Traced.pure_events]
  · simp only [harr, if_false]
    simp [Traced.pure_events, Traced.pure_value]

theorem calculateEventSettlementsTraced_events (expenses : JsonList Expense)
    (participants : JsonList Participant) :
    (calculateEventSettlementsTraced expenses participants).events =
      if expenses.is_array then
        (forEachExpenseTraced (settlementsExpenseBodyTraced participants) expenses.elements
          (settlementsInitBalances participants)).events
      else [] := by
  unfold calculateEventSettlementsTraced
  rw [Traced.bind_events]
  by_cases harr : expenses.is_array = true
  · simp only [harr, if_true]
    cases (forEachExpenseTraced (settlementsExpenseBodyTraced participants) expenses.elements
      (settlementsInitBalances participants)).value <;> simp [Traced.pure_events]
  · simp only [harr, if_false]
    simp [Traced.pure_events, Traced.pure_value]

/-- The guard of lines 77-79: whatever `calculateEventSettlements` records for
one expense is a call with at least one participant id or a division by a
divisor other than zero. -/
theorem settlementsExpenseBodyTraced_guarded (participants : JsonList Participant)
    (balances : StdMap) (e : Expense) :
    ∀ ev ∈ (settlementsExpenseBodyTraced participants balances e).events,
      (∀ a t l, ev = Event.call a t l → l ≠ []) ∧ (∀ x d, ev = Event.divide x d → d ≠ 0) := by
  intro ev hev
  rcases settlementsExpenseBodyTraced_events participants balances e with h | ⟨a, hne, h⟩
  · rw [h] at hev; cases hev
  · rw [h] at hev
    exact tracedCall_events _ _ _ hne ev hev

/-- The guard of lines 139-141: whatever `calculateUserBalances` records for one
expense is a call with at least one participant id or a division by a divisor
other than zero. -/
theorem balancesExpenseBodyTraced_guarded (participants : JsonList Participant)
    (balances : StdMap) (e : Expense) :
    ∀ ev ∈ (balancesExpenseBodyTraced participants balances e).events,
      (∀ a t l, ev = Event.call a t l → l ≠ []) ∧ (∀ x d, ev = Event.divide x d → d ≠ 0) := by
  intro ev hev
  rcases balancesExpenseBodyTraced_events participants balances e with h | ⟨a, hne, h⟩
  · rw [h] at hev; cases hev
  · rw [h] at hev
    exact tracedCall_events _ _ _ hne ev hev

/-! ## The share calculator divides before it looks (C9) -/

/-- C9 fails as stated.  With policy `"equal"` and an empty id list the
calculator does not short-circuit: the run evaluates the division of line 14,
`100 / 0`, before the loop is reached.  The loop body then never runs and the
result is the empty list. -/
theorem equal_split_divides_by_zero :
    (calculateExpenseSharesTraced 100 "equal" [] defaultCustomShares).events =
      [Event.divide 100 0] ∧
    (calculateExpenseSharesTraced 100 "equal" [] defaultCustomShares).value = .ok [] ∧
    calculateExpenseShares 100 "equal" [] defaultCustomShares = .ok [] := by
  refine ⟨?_, ?_, ?_⟩
  · rw [calculateExpenseSharesTraced_equal_events]
    simp
  · rw [calculateExpenseSharesTraced_value]
    simp [calculateExpenseShares]
  · simp [calculateExpenseShares]

/-- C9 (amended): `calculateExpenseShares` has no short-circuit of its own.  With
policy `"equal"` a run evaluates the division of line 14 by the participant
count and then one division by the count per participant; a division by zero is
among them exactly when the id list is empty, and then it is the one division of
the run, its quotient reaches no share and the result is the empty list.  The
values of the instrumented run are those of `calculateExpenseShares`.  The check
for an empty id list is made by the two callers: whatever their loop bodies
record for an expense is a call with at least one id or a division by a divisor
other than zero. -/
theorem equal_split_divisors (amount : ℚ) (ids : List String) (customShares : Json) :
    (calculateExpenseSharesTraced amount "equal" ids customShares).events =
      Event.divide amount ids.length :: ids.map (fun _ => Event.divide 100 ids.length) ∧
    ((∃ x, Event.divide x 0 ∈
        (calculateExpenseSharesTraced amount "equal" ids customShares).events) ↔ ids = []) ∧
    (calculateExpenseSharesTraced amount "equal" [] customShares).events =
      [Event.divide amount 0] ∧
    calculateExpenseShares amount "equal" [] customShares = .ok [] ∧
    (∀ splitType,
      (calculateExpenseSharesTraced amount splitType ids customShares).value =
        calculateExpenseShares amount splitType ids customShares) ∧
    ∀ (participants : JsonList Participant) (balances : StdMap) (expense : Expense),
      ∀ ev ∈ (settlementsExpenseBodyTraced participants balances expense).events ++
          (balancesExpenseBodyTraced participants balances expense).events,
        (∀ total splitType called, ev = Event.call total splitType called → called ≠ []) ∧
        (∀ dividend divisor, ev = Event.divide dividend divisor → divisor ≠ 0) := by
  refine ⟨calculateExpenseSharesTraced_equal_events _ _ _, ?_, ?_, ?_,
    fun splitType => calculateExpenseSharesTraced_value _ _ _ _, ?_⟩
  rotate_right
  · intro participants balances expense ev hev
    rcases List.mem_append.1 hev with hev | hev
    · exact settlementsExpenseBodyTraced_guarded participants balances expense ev hev
    · exact balancesExpenseBodyTraced_guarded participants balances expense ev hev
  · rw [calculateExpenseSharesTraced_equal_events]
    cases ids with
    | nil => simp
    | cons id rest =>
      have hne : (((id :: rest).length : ℕ) : ℚ) ≠ 0 := by
        rw [List.length_cons]; positivity
      simp only [reduceCtorEq, iff_false, not_exists]
      intro x hx
      rcases List.mem_cons.1 hx with h | h
      · injection h with _ h0
        exact hne h0.symm
      · obtain ⟨_, _, h⟩ := List.mem_map.1 h
        injection h with _ h0
        exact hne h0
  · rw [calculateExpenseSharesTraced_equal_events]
    simp
  · simp [calculateExpenseShares]

/-! ## The folds never divide by zero (C30) -/

/-- A run of `calculateUserBalances` on participants A, B and one equal-split
expense of 90: one call, then the division of line 14 and the two of line 16. -/
theorem calculateUserBalancesTraced_example :
    (calculateUserBalancesTraced "event" (.array [⟨some "A", some 90, some "equal"⟩])
      (.array [⟨some "A"⟩, ⟨some "B"⟩])).events =
      [Event.call 90 "equal" ["A", "B"], Event.divide 90 2, Event.divide 100 2,
        Event.divide 100 2] := by
  have h : (calculateUserBalancesTraced "event" (.array [⟨some "A", some 90, some "equal"⟩])
      (.array [⟨some "A"⟩, ⟨some "B"⟩])).events =
      [Event.call 90 "equal" ["A", "B"], Event.divide 90 ((2 : ℕ) : ℚ),
        Event.divide 100 ((2 : ℕ) : ℚ), Event.divide 100 ((2 : ℕ) : ℚ)] := rfl
  rw [h]
  norm_num

/-- C30: the folds call the share calculator with a non-empty id list only.  In
every run of `calculateUserBalances` and of `calculateEventSettlements` each
recorded call of `calculateExpenseShares` passes at least one participant id
and no recorded division has a zero divisor; when no participant record has a
`user_id`, no call is made, nothing is divided and both functions return an
empty result.  The instrumented runs compute the values of the two functions. -/
theorem folds_never_divide_by_zero (eventId : String) (expenses : JsonList Expense)
    (participants : JsonList Participant) :
    (∀ ev ∈ (calculateUserBalancesTraced eventId expenses participants).events ++
        (calculateEventSettlementsTraced expenses participants).events,
      (∀ amount splitType ids, ev = Event.call amount splitType ids → ids ≠ []) ∧
      (∀ dividend divisor, ev = Event.divide dividend divisor → divisor ≠ 0)) ∧
    (calculateUserBalancesTraced eventId expenses participants).value =
      calculateUserBalances eventId expenses participants ∧
    (calculateEventSettlementsTraced expenses participants).value =
      calculateEventSettlements expenses participants ∧
    (trackedIds participants = [] →
      (calculateUserBalancesTraced eventId expenses participants).events = [] ∧
      (calculateEventSettlementsTraced expenses participants).events = [] ∧
      calculateUserBalances eventId expenses participants = .ok [] ∧
      calculateEventSettlements expenses participants = .ok []) := by
  have hb := balancesExpenseBodyTraced_guarded participants
  have hs := settlementsExpenseBodyTraced_guarded participants
  refine ⟨?_, calculateUserBalancesTraced_value _ _ _,
    calculateEventSettlementsTraced_value _ _, ?_⟩
  · intro ev hev
    rw [List.mem_append, calculateUserBalancesTraced_events,
      calculateEventSettlementsTraced_events] at hev
    rcases hev with hev | hev
    · split_ifs at hev
      · exact forEachExpenseTraced_events _ _ hb _ _ ev hev
      · cases hev
    · split_ifs at hev
      · exact forEachExpenseTraced_events _ _ hs _ _ ev hev
      · cases hev
  · intro hnone
    have hb0 : ∀ balances e, ∀ ev ∈ (balancesExpenseBodyTraced participants balances e).events,
        False := by
      intro balances e ev hev
      rcases balancesExpenseBodyTraced_events participants balances e with h | ⟨a, hne, h⟩
      · rw [h] at hev; cases hev
      · rw [balancesParticipantIds_eq, hnone] at hne
        exact hne rfl
    have hs0 : ∀ balances e,
        ∀ ev ∈ (settlementsExpenseBodyTraced participants balances e).events, False := by
      intro balances e ev hev
      rcases settlementsExpenseBodyTraced_events participants balances e with
        h | ⟨a, hne, h⟩
      · rw [h] at hev; cases hev
      · rw [settlementsParticipantIds_eq, hnone] at hne
        exact hne rfl
    refine ⟨?_, ?_, ?_, ?_⟩
    · rw [calculateUserBalancesTraced_events]
      split_ifs
      · exact List.eq_nil_iff_forall_not_mem.2 fun ev hev =>
          forEachExpenseTraced_events (fun _ => False) _ hb0 _ _ ev hev
      · rfl
    · rw [calculateEventSettlementsTraced_events]
      split_ifs
      · exact List.eq_nil_iff_forall_not_mem.2 fun ev hev =>
          forEachExpenseTraced_events (fun _ => False) _ hs0 _ _ ev hev
      · rfl
    · rw [calculateUserBalances_eq, hnone, foldedBalances_no_participants]
    · rw [calculateEventSettlements_eq, hnone, foldedBalances_no_participants]
      simp [optimizeSettlements, debtorsOf, creditorsOf, sortByAmountDesc,
        matchSettlements_nil_left]

/-! ## Rounding to binary64 -/

theorem bitLength_zero (fuel : ℕ) : bitLength fuel 0 = 0 := by
  cases fuel <;> simp [bitLength]

/-- With enough fuel `bitLength` is the number of binary digits. -/
theorem bitLength_spec (fuel n : ℕ) (hn : n ≠ 0) (hfuel : n < 2 ^ fuel) :
    2 ^ (bitLength fuel n - 1) ≤ n ∧ n < 2 ^ bitLength fuel n := by
  induction fuel generalizing n with
  | zero =>
    simp at hfuel
    exact absurd hfuel hn
  | succ f ih =>
    rw [bitLength, if_neg hn]
    have hm : n / 2 < 2 ^ f := by
      rw [pow_succ] at hfuel
      omega
    by_cases h0 : n / 2 = 0
    · rw [h0, bitLength_zero]
      simp only [zero_add, Nat.sub_self, pow_zero, pow_one]
      omega
    · obtain ⟨hlo, hhi⟩ := ih (n / 2) h0 hm
      have hpos : bitLength f (n / 2) ≠ 0 := by
        intro hz
        rw [hz] at hhi
        simp at hhi
        exact h0 hhi
      obtain ⟨k, hk⟩ := Nat.exists_eq_succ_of_ne_zero hpos
      rw [hk] at hlo hhi ⊢
      simp only [Nat.succ_eq_add_one, Nat.add_sub_cancel] at hlo ⊢
      rw [pow_succ] at hhi ⊢
      rw [pow_succ]
      omega

/-- Rounding never takes a magnitude past a number with 53 significant digits
that bounds it. -/
theorem roundUnits_le (e n : ℕ) (h : n ≤ (2 ^ 53 - 1) * 2 ^ e) :
    roundUnits n ≤ (2 ^ 53 - 1) * 2 ^ e := by
  unfold roundUnits
  by_cases h53 : n < 2 ^ 53
  · rw [if_pos h53]
    exact h
  rw [if_neg h53]
  have hn : n ≠ 0 := by
    intro h0
    rw [h0] at h53
    exact h53 (by positivity)
  obtain ⟨hlo, hhi⟩ := bitLength_spec n n hn (Nat.lt_two_pow n)
  generalize bitLength n n = L at hlo hhi
  have hL : 54 ≤ L := by
    by_contra hlt
    have : 2 ^ L ≤ 2 ^ 53 := Nat.pow_le_pow_right (by norm_num) (by omega)
    omega
  obtain ⟨k, rfl⟩ : ∃ k, L = k + 53 := ⟨L - 53, by omega⟩
  simp only [Nat.add_sub_cancel]
  have hlo' : 2 ^ 52 * 2 ^ k ≤ n := by
    have : k + 53 - 1 = 52 + k := by omega
    rw [this, pow_add] at hlo
    exact hlo
  have hhi' : n < 2 ^ 53 * 2 ^ k := by
    rw [add_comm, pow_add] at hhi
    exact hhi
  have hkpos : 0 < 2 ^ k := by positivity
  have hq : n / 2 ^ k < 2 ^ 53 := (Nat.div_lt_iff_lt_mul hkpos).2 hhi'
  have hke : k ≤ e := by
    by_contra hlt
    have h1 : 2 ^ (e + 1) ≤ 2 ^ k := Nat.pow_le_pow_right (by norm_num) (by omega)
    rw [pow_succ] at h1
    have h2 : 2 ^ 52 * (2 ^ e * 2) ≤ 2 ^ 52 * 2 ^ k := Nat.mul_le_mul_left _ h1
    have h3 : (2 ^ 53 - 1) * 2 ^ e < 2 ^ 52 * (2 ^ e * 2) := by
      have hepos : 0 < 2 ^ e := by positivity
      have : 2 ^ 52 * (2 ^ e * 2) = 2 ^ 53 * 2 ^ e := by ring
      rw [this]
      exact Nat.mul_lt_mul_of_pos_right (by norm_num) hepos
    omega
  have hup : (n / 2 ^ k + 1) * 2 ^ k ≤ (2 ^ 53 - 1) * 2 ^ e ∨
      (n / 2 ^ k * 2 ^ k = (2 ^ 53 - 1) * 2 ^ e ∧ n % 2 ^ k = 0) := by
    rcases Nat.lt_or_ge k e with hlt | hge
    · left
      have h1 : 2 ^ (k + 1) ≤ 2 ^ e := Nat.pow_le_pow_right (by norm_num) hlt
      rw [pow_succ] at h1
      calc (n / 2 ^ k + 1) * 2 ^ k ≤ 2 ^ 53 * 2 ^ k := Nat.mul_le_mul_right _ hq
        _ = 2 ^ 52 * (2 ^ k * 2) := by ring
        _ ≤ 2 ^ 52 * 2 ^ e := Nat.mul_le_mul_left _ h1
        _ ≤ (2 ^ 53 - 1) * 2 ^ e := Nat.mul_le_mul_right _ (by norm_num)
    · have hek : k = e := le_antisymm hke hge
      subst hek
      by_cases hq2 : n / 2 ^ k + 1 ≤ 2 ^ 53 - 1
      · left
        exact Nat.mul_le_mul_right _ hq2
      · right
        have hqeq : n / 2 ^ k = 2 ^ 53 - 1 := by omega
        have hle : n / 2 ^ k * 2 ^ k ≤ n := Nat.div_mul_le_self n (2 ^ k)
        rw [hqeq] at hle ⊢
        have hneq : n = (2 ^ 53 - 1) * 2 ^ k := le_antisymm h hle
        refine ⟨rfl, ?_⟩
        rw [hneq]
        exact Nat.mul_mod_left _ _
  have hdown : n / 2 ^ k * 2 ^ k ≤ (2 ^ 53 - 1) * 2 ^ e :=
    le_trans (Nat.div_mul_le_self n (2 ^ k)) h
  rcases hup with hup | ⟨hup1, hup2⟩
  · split_ifs
    · exact hdown
    · exact hdown
    · exact hup
  · rw [hup2, if_pos (by omega)]
    exact hdown

theorem roundUnits_le_maxUnits (n : ℕ) (h : n ≤ maxUnits) : roundUnits n ≤ maxUnits :=
  roundUnits_le 2045 n h

theorem roundUnits_zero : roundUnits 0 = 0 := by
  unfold roundUnits
  rw [if_pos (by positivity)]

/-! ## Amounts in the binary64 loop -/

theorem F64.ofUnits_zero : F64.ofUnits 0 = F64.finite 0 := by
  unfold F64.ofUnits
  simp only [Int.natAbs_zero, roundUnits_zero, Nat.zero_le, if_true, lt_self_iff_false,
    if_false, Nat.cast_zero]

theorem F64.ofUnits_isAmount (z : ℤ) (h0 : 0 ≤ z) (hmax : z ≤ (maxUnits : ℤ)) :
    (F64.ofUnits z).IsAmount := by
  have habs : z.natAbs ≤ maxUnits := by omega
  have hround := roundUnits_le_maxUnits z.natAbs habs
  unfold F64.ofUnits
  rw [if_pos hround, if_neg (by omega)]
  exact ⟨_, rfl, Int.natCast_nonneg _, by exact_mod_cast hround⟩

theorem F64.isAmount_zero : (F64.finite 0).IsAmount :=
  ⟨0, rfl, le_refl _, Int.natCast_nonneg _⟩

theorem F64.lt_zero_cent : F64.lt (F64.finite 0) cent = true := by decide!

theorem F64.lt_zero_neg_cent : F64.lt (F64.finite 0) (F64.neg cent) = false := by decide!

theorem F64.lt_cent_zero : F64.lt cent (F64.finite 0) = false := by decide!

/-- Lines 188-200 on two amounts: after the subtractions one of the two entries
is zero, hence below 0.01, and both are amounts still. -/
theorem F64.step_amounts (x y : F64) (hx : x.IsAmount) (hy : y.IsAmount) :
    (F64.lt (F64.sub x (F64.min x y)) cent = true ∨
      F64.lt (F64.sub y (F64.min x y)) cent = true) ∧
    (F64.sub x (F64.min x y)).IsAmount ∧ (F64.sub y (F64.min x y)).IsAmount := by
  obtain ⟨u, rfl, hu0, humax⟩ := hx
  obtain ⟨v, rfl, hv0, hvmax⟩ := hy
  unfold F64.min
  by_cases hlt : v < u
  · have h1 : F64.lt (F64.finite v) (F64.finite u) = true := by
      simp [F64.lt, hlt]
    rw [if_pos h1]
    have hy0 : F64.sub (F64.finite v) (F64.finite v) = F64.finite 0 := by
      simp only [F64.sub, sub_self, F64.ofUnits_zero]
    rw [hy0]
    refine ⟨Or.inr F64.lt_zero_cent, ?_, F64.isAmount_zero⟩
    simp only [F64.sub]
    exact F64.ofUnits_isAmount _ (by omega) (by omega)
  · have h1 : F64.lt (F64.finite v) (F64.finite u) = false := by
      simp [F64.lt, hlt]
    rw [if_neg (by rw [h1]; simp)]
    have hx0 : F64.sub (F64.finite u) (F64.finite u) = F64.finite 0 := by
      simp only [F64.sub, sub_self, F64.ofUnits_zero]
    rw [hx0]
    refine ⟨Or.inl F64.lt_zero_cent, F64.isAmount_zero, ?_⟩
    simp only [F64.sub]
    exact F64.ofUnits_isAmount _ (by omega) (by omega)

/-! ## The binary64 loop on what lies from the cursors on -/

theorem matchLoop64_nil_left (fuel : ℕ) (cs : List (String × F64)) :
    matchLoop64 fuel [] cs = .returned [] := by
  cases fuel <;> rw [matchLoop64]

theorem matchLoop64_nil_right (fuel : ℕ) (ds : List (String × F64)) :
    matchLoop64 fuel ds [] = .returned [] := by
  cases ds with
  | nil => exact matchLoop64_nil_left _ _
  | cons d rest => cases fuel <;> rw [matchLoop64]

theorem matchLoop64_zero (d : String × F64) (ds : List (String × F64)) (c : String × F64)
    (cs : List (String × F64)) :
    matchLoop64 0 (d :: ds) (c :: cs) = .stillRunning [] := by
  rw [matchLoop64]

theorem matchLoop64_succ (fuel : ℕ) (d : String) (x : F64) (ds : List (String × F64))
    (c : String) (y : F64) (cs : List (String × F64)) :
    matchLoop64 (fuel + 1) ((d, x) :: ds) ((c, y) :: cs) =
      (matchLoop64 fuel
        (if F64.lt (F64.sub x (F64.min x y)) cent then ds
          else (d, F64.sub x (F64.min x y)) :: ds)
        (if F64.lt (F64.sub y (F64.min x y)) cent then cs
          else (c, F64.sub y (F64.min x y)) :: cs)).prepend [⟨d, c, F64.min x y⟩] := by
  rw [matchLoop64]

/-- On amounts the loop returns within `|debtors| + |creditors| - 1` iterations,
with fewer settlements than entries. -/
theorem matchLoop64_returns (fuel : ℕ) (ds cs : List (String × F64))
    (hd : ∀ e ∈ ds, e.2.IsAmount) (hc : ∀ e ∈ cs, e.2.IsAmount)
    (hfuel : ds.length + cs.length ≤ fuel + 1) :
    ∃ l, matchLoop64 fuel ds cs = .returned l ∧
      (l = [] ∨ l.length + 1 ≤ ds.length + cs.length) := by
  induction fuel generalizing ds cs with
  | zero =>
    cases ds with
    | nil => exact ⟨[], matchLoop64_nil_left _ _, Or.inl rfl⟩
    | cons d ds =>
      cases cs with
      | nil => exact ⟨[], matchLoop64_nil_right _ _, Or.inl rfl⟩
      | cons c cs =>
        simp only [List.length_cons] at hfuel
        omega
  | succ fuel ih =>
    cases ds with
    | nil => exact ⟨[], matchLoop64_nil_left _ _, Or.inl rfl⟩
    | cons d ds =>
      cases cs with
      | nil => exact ⟨[], matchLoop64_nil_right _ _, Or.inl rfl⟩
      | cons c cs =>
        obtain ⟨dk, x⟩ := d
        obtain ⟨ck, y⟩ := c
        have hx : x.IsAmount := hd (dk, x) (List.mem_cons_self _ _)
        have hy : y.IsAmount := hc (ck, y) (List.mem_cons_self _ _)
        have hds : ∀ e ∈ ds, e.2.IsAmount := fun e he => hd e (List.mem_cons_of_mem _ he)
        have hcs : ∀ e ∈ cs, e.2.IsAmount := fun e he => hc e (List.mem_cons_of_mem _ he)
        obtain ⟨hmove, hx', hy'⟩ := F64.step_amounts x y hx hy
        rw [matchLoop64_succ]
        simp only [List.length_cons] at hfuel ⊢
        have hd2 : ∀ e ∈ (if F64.lt (F64.sub x (F64.min x y)) cent then ds
            else (dk, F64.sub x (F64.min x y)) :: ds), e.2.IsAmount := by
          split_ifs
          · exact hds
          · intro e he
            rcases List.mem_cons.1 he with h | h
            · rw [h]; exact hx'
            · exact hds e h
        have hc2 : ∀ e ∈ (if F64.lt (F64.sub y (F64.min x y)) cent then cs
            else (ck, F64.sub y (F64.min x y)) :: cs), e.2.IsAmount := by
          split_ifs
          · exact hcs
          · intro e he
            rcases List.mem_cons.1 he with h | h
            · rw [h]; exact hy'
            · exact hcs e h
        have hlen : (if F64.lt (F64.sub x (F64.min x y)) cent then ds
              else (dk, F64.sub x (F64.min x y)) :: ds).length +
            (if F64.lt (F64.sub y (F64.min x y)) cent then cs
              else (ck, F64.sub y (F64.min x y)) :: cs).length + 1 ≤
            ds.length + 1 + (cs.length + 1) := by
          rcases hmove with h | h
          · rw [if_pos h]
            split_ifs <;> (try simp only [List.length_cons]) <;> omega
          · rw [if_pos h]
            split_ifs <;> (try simp only [List.length_cons]) <;> omega
        obtain ⟨l, hl, hbound⟩ := ih _ _ hd2 hc2 (by omega)
        rw [hl]
        refine ⟨⟨dk, ck, F64.min x y⟩ :: l, rfl, Or.inr ?_⟩
        rcases hbound with h | h
        · rw [h]
          simp only [List.length_cons, List.length_nil]
          omega
        · simp only [List.length_cons]
          omega

/-- Once the loop has returned, more iterations allowed change nothing. -/
theorem matchLoop64_mono (fuel : ℕ) (ds cs : List (String × F64))
    (l : List Settlement64) (h : matchLoop64 fuel ds cs = .returned l) :
    matchLoop64 (fuel + 1) ds cs = .returned l := by
  induction fuel generalizing ds cs l with
  | zero =>
    cases ds with
    | nil => rw [matchLoop64_nil_left] at h ⊢; exact h
    | cons d ds =>
      cases cs with
      | nil => rw [matchLoop64_nil_right] at h ⊢; exact h
      | cons c cs =>
        rw [matchLoop64_zero] at h
        cases h
  | succ fuel ih =>
    cases ds with
    | nil => rw [matchLoop64_nil_left] at h ⊢; exact h
    | cons d ds =>
      cases cs with
      | nil => rw [matchLoop64_nil_right] at h ⊢; exact h
      | cons c cs =>
        obtain ⟨dk, x⟩ := d
        obtain ⟨ck, y⟩ := c
        rw [matchLoop64_succ] at h ⊢
        generalize hds2 : (if F64.lt (F64.sub x (F64.min x y)) cent then ds
            else (dk, F64.sub x (F64.min x y)) :: ds) = ds2 at h ⊢
        generalize hcs2 : (if F64.lt (F64.sub y (F64.min x y)) cent then cs
            else (ck, F64.sub y (F64.min x y)) :: cs) = cs2 at h ⊢
        cases hout : matchLoop64 fuel ds2 cs2 with
        | returned l2 =>
          rw [hout] at h
          rw [ih ds2 cs2 l2 hout]
          exact h
        | stillRunning l2 =>
          rw [hout] at h
          cases h

theorem matchLoop64_mono_add (fuel k : ℕ) (ds cs : List (String × F64))
    (l : List Settlement64) (h : matchLoop64 fuel ds cs = .returned l) :
    matchLoop64 (fuel + k) ds cs = .returned l := by
  induction k with
  | zero => exact h
  | succ k ih => exact matchLoop64_mono _ _ _ _ ih

/-! ## The loop with its cursors -/

theorem drop_set_self {α : Type} (l : List α) (i : Nat) (v : α) (h : i < l.length) :
    (l.set i v).drop i = v :: l.drop (i + 1) := by
  induction l generalizing i with
  | nil => simp at h
  | cons a rest ih =>
    cases i with
    | zero => simp
    | succ n =>
      simp only [List.set_cons_succ, List.drop_succ_cons]
      exact ih n (by simpa using h)

theorem drop_set_succ {α : Type} (l : List α) (i : Nat) (v : α) :
    (l.set i v).drop (i + 1) = l.drop (i + 1) := by
  induction l generalizing i with
  | nil => simp
  | cons a rest ih =>
    cases i with
    | zero => simp
    | succ n =>
      simp only [List.set_cons_succ, List.drop_succ_cons]
      exact ih n

theorem drop_eq_cons {α : Type} (l : List α) (i : Nat) (h : i < l.length) :
    ∃ e, l[i]? = some e ∧ e ∈ l ∧ l.drop i = e :: l.drop (i + 1) := by
  refine ⟨l[i], List.getElem?_eq_getElem h, List.getElem_mem h, ?_⟩
  exact List.drop_eq_getElem_cons h

theorem LoopOutcome.prepend_nil (o : LoopOutcome) : o.prepend [] = o := by
  cases o <;> rfl

theorem LoopOutcome.prepend_prepend (l m : List Settlement64) (o : LoopOutcome) :
    (o.prepend m).prepend l = o.prepend (l ++ m) := by
  cases o <;> simp [LoopOutcome.prepend]

theorem MatchState64.running_iff (s : MatchState64) :
    s.running = true ↔ s.i < s.debtors.length ∧ s.j < s.creditors.length := by
  simp [MatchState64.running]

/-- The loop with cursors is `matchLoop64` on what lies from the cursors on,
whatever the values and however many iterations are allowed. -/
theorem runMatchLoop64_eq (fuel : Nat) (s : MatchState64) :
    runMatchLoop64 fuel s =
      (matchLoop64 fuel (s.debtors.drop s.i) (s.creditors.drop s.j)).prepend
        s.settlements := by
  have hstop : ∀ (fuel : Nat) (s : MatchState64), ¬ s.running = true →
      (matchLoop64 fuel (s.debtors.drop s.i) (s.creditors.drop s.j)).prepend s.settlements =
        .returned s.settlements := by
    intro fuel s hr
    rw [MatchState64.running_iff] at hr
    by_cases hi : s.i < s.debtors.length
    · have hj : s.creditors.length ≤ s.j := by
        by_contra hj
        exact hr ⟨hi, by omega⟩
      rw [List.drop_eq_nil_of_le hj, matchLoop64_nil_right]
      simp [LoopOutcome.prepend]
    · rw [List.drop_eq_nil_of_le (by omega), matchLoop64_nil_left]
      simp [LoopOutcome.prepend]
  induction fuel generalizing s with
  | zero =>
    unfold runMatchLoop64
    by_cases hr : s.running = true
    · rw [if_pos hr]
      obtain ⟨hi, hj⟩ := (MatchState64.running_iff s).1 hr
      obtain ⟨d, -, -, hdd⟩ := drop_eq_cons s.debtors s.i hi
      obtain ⟨c, -, -, hcd⟩ := drop_eq_cons s.creditors s.j hj
      rw [hdd, hcd, matchLoop64_zero]
      simp [LoopOutcome.prepend]
    · rw [if_neg hr, hstop 0 s hr]
  | succ fuel ih =>
    unfold runMatchLoop64
    by_cases hr : s.running = true
    · rw [if_pos hr, ih (matchIteration64 s)]
      obtain ⟨hi, hj⟩ := (MatchState64.running_iff s).1 hr
      obtain ⟨d, hd, -, hdd⟩ := drop_eq_cons s.debtors s.i hi
      obtain ⟨c, hc, -, hcd⟩ := drop_eq_cons s.creditors s.j hj
      obtain ⟨dk, dx⟩ := d
      obtain ⟨ck, cy⟩ := c
      rw [hdd, hcd, matchLoop64_succ, LoopOutcome.prepend_prepend]
      unfold matchIteration64
      rw [hd, hc]
      simp only
      by_cases h1 : F64.lt (F64.sub dx (F64.min dx cy)) cent = true <;>
        by_cases h2 : F64.lt (F64.sub cy (F64.min dx cy)) cent = true <;>
        simp only [h1, h2, if_true, if_false, Bool.false_eq_true, drop_set_succ,
          drop_set_self _ _ _ hi, drop_set_self _ _ _ hj]
    · rw [if_neg hr, hstop (fuel + 1) s hr]

theorem optimizeSettlements64With_eq (sort : List (String × F64) → List (String × F64))
    (fuel : Nat) (balances : List (String × F64)) :
    optimizeSettlements64With sort fuel balances =
      matchLoop64 fuel (sort (debtorsOf64 balances)) (sort (creditorsOf64 balances)) := by
  unfold optimizeSettlements64With
  rw [runMatchLoop64_eq]
  simp only [List.drop_zero, LoopOutcome.prepend_nil]

/-- An iteration on amounts moves a cursor and leaves amounts. -/
theorem matchIteration64_progress (s : MatchState64) (hr : s.running = true)
    (h : ∀ e ∈ s.debtors ++ s.creditors, e.2.IsAmount) :
    s.i + s.j < (matchIteration64 s).i + (matchIteration64 s).j ∧
    ∀ e ∈ (matchIteration64 s).debtors ++ (matchIteration64 s).creditors, e.2.IsAmount := by
  obtain ⟨hi, hj⟩ := (MatchState64.running_iff s).1 hr
  obtain ⟨d, hd, hdm, -⟩ := drop_eq_cons s.debtors s.i hi
  obtain ⟨c, hc, hcm, -⟩ := drop_eq_cons s.creditors s.j hj
  obtain ⟨dk, dx⟩ := d
  obtain ⟨ck, cy⟩ := c
  have hx : dx.IsAmount := h (dk, dx) (List.mem_append_left _ hdm)
  have hy : cy.IsAmount := h (ck, cy) (List.mem_append_right _ hcm)
  obtain ⟨hmove, hx', hy'⟩ := F64.step_amounts dx cy hx hy
  unfold matchIteration64
  rw [hd, hc]
  simp only
  constructor
  · rcases hmove with hm | hm
    · rw [if_pos hm]; split_ifs <;> omega
    · rw [if_pos hm]; split_ifs <;> omega
  · intro e he
    rcases List.mem_append.1 he with he | he
    · rcases List.mem_or_eq_of_mem_set he with he | he
      · exact h e (List.mem_append_left _ he)
      · rw [he]; exact hx'
    · rcases List.mem_or_eq_of_mem_set he with he | he
      · exact h e (List.mem_append_right _ he)
      · rw [he]; exact hy'

/-! ## Debtors and creditors of finite balances -/

theorem cent_pos : ∃ c : ℤ, cent = F64.finite c ∧ 0 < c :=
  ⟨5764607523034235 * ((2 ^ 1015 : ℕ) : ℤ), rfl, by decide!⟩

theorem debtorsOf64_isAmount (balances : List (String × F64))
    (h : ∀ e ∈ balances, e.2.IsFinite) : ∀ e ∈ debtorsOf64 balances, e.2.IsAmount := by
  obtain ⟨c, hc, hcpos⟩ := cent_pos
  intro e he
  unfold debtorsOf64 at he
  obtain ⟨a, ha, hsome⟩ := List.mem_filterMap.1 he
  have hfin := h a ha
  obtain ⟨k, x⟩ := a
  cases x with
  | finite u =>
    simp only [hc, F64.neg, F64.lt] at hsome
    split_ifs at hsome with hlt
    · simp only [Option.some.injEq] at hsome
      rw [← hsome]
      have hlt' : u < -c := by simpa using hlt
      have hmax : u.natAbs ≤ maxUnits := hfin
      exact ⟨-u, rfl, by omega, by omega⟩
  | posInf => exact absurd hfin id
  | negInf => exact absurd hfin id
  | nan => exact absurd hfin id

theorem creditorsOf64_isAmount (balances : List (String × F64))
    (h : ∀ e ∈ balances, e.2.IsFinite) : ∀ e ∈ creditorsOf64 balances, e.2.IsAmount := by
  obtain ⟨c, hc, hcpos⟩ := cent_pos
  intro e he
  unfold creditorsOf64 at he
  obtain ⟨a, ha, hsome⟩ := List.mem_filterMap.1 he
  have hfin := h a ha
  obtain ⟨k, x⟩ := a
  cases x with
  | finite u =>
    simp only [hc, F64.neg, F64.lt] at hsome
    split_ifs at hsome with hlt hgt
    · simp only [Option.some.injEq] at hsome
      rw [← hsome]
      have hgt' : c < u := by simpa using hgt
      have hmax : u.natAbs ≤ maxUnits := hfin
      exact ⟨u, rfl, by omega, by omega⟩
  | posInf => exact absurd hfin id
  | negInf => exact absurd hfin id
  | nan => exact absurd hfin id

/-- Debtors and creditors are distinct participants with a nonzero balance. -/
theorem debtors_creditors_length64 (balances : List (String × F64)) :
    (debtorsOf64 balances).length + (creditorsOf64 balances).length ≤
      nonzeroCount64 balances := by
  induction balances with
  | nil => simp [debtorsOf64, creditorsOf64, nonzeroCount64]
  | cons e rest ih =>
    unfold debtorsOf64 creditorsOf64 nonzeroCount64 at ih ⊢
    rw [List.filterMap_cons, List.filterMap_cons, List.filter_cons]
    by_cases h0 : e.2 = F64.finite 0
    · rw [h0, F64.lt_zero_neg_cent, F64.lt_cent_zero]
      simp only [Bool.false_eq_true, if_false, ne_eq, not_true_eq_false, decide_False]
      exact ih
    · have hd : decide (e.2 ≠ F64.finite 0) = true := by simpa using h0
      rw [hd]
      simp only [if_true, List.length_cons]
      split_ifs <;> simp only [List.length_cons] <;> omega

/-- On finite balances the program returns, within `|debtors| + |creditors|`
iterations of the loop, fewer settlements than there are debtors and creditors. -/
theorem optimizeSettlements64With_returns
    (sort : List (String × F64) → List (String × F64))
    (hsort : ∀ entries, (sort entries).Perm entries)
    (balances : List (String × F64)) (hfinite : ∀ e ∈ balances, e.2.IsFinite) :
    ∃ settlements,
      (∀ fuel, (debtorsOf64 balances).length + (creditorsOf64 balances).length ≤ fuel →
        optimizeSettlements64With sort fuel balances = .returned settlements) ∧
      (settlements = [] ∨
        settlements.length + 1 ≤
          (debtorsOf64 balances).length + (creditorsOf64 balances).length) := by
  have hd : ∀ e ∈ sort (debtorsOf64 balances), e.2.IsAmount := fun e he =>
    debtorsOf64_isAmount balances hfinite e ((hsort _).mem_iff.1 he)
  have hc : ∀ e ∈ sort (creditorsOf64 balances), e.2.IsAmount := fun e he =>
    creditorsOf64_isAmount balances hfinite e ((hsort _).mem_iff.1 he)
  have hdl := (hsort (debtorsOf64 balances)).length_eq
  have hcl := (hsort (creditorsOf64 balances)).length_eq
  obtain ⟨l, hl, hbound⟩ := matchLoop64_returns
    ((debtorsOf64 balances).length + (creditorsOf64 balances).length) _ _ hd hc (by omega)
  refine ⟨l, ?_, by rw [hdl, hcl] at hbound; exact hbound⟩
  intro fuel hfuel
  obtain ⟨k, rfl⟩ := Nat.exists_eq_add_of_le hfuel
  rw [optimizeSettlements64With_eq]
  exact matchLoop64_mono_add _ k _ _ l hl

theorem perm_insertByAmountDesc64 (x : String × F64) (l : List (String × F64)) :
    (insertByAmountDesc64 x l).Perm (x :: l) := by
  induction l with
  | nil => exact List.Perm.refl _
  | cons y ys ih =>
    unfold insertByAmountDesc64
    split_ifs
    · exact ((List.Perm.cons y ih).trans (List.Perm.swap x y ys))
    · exact List.Perm.refl _

theorem perm_sortByAmountDesc64 (l : List (String × F64)) : (sortByAmountDesc64 l).Perm l := by
  induction l with
  | nil => exact List.Perm.refl _
  | cons x xs ih =>
    unfold sortByAmountDesc64
    exact (perm_insertByAmountDesc64 x _).trans (List.Perm.cons x ih)

/-! ## Termination and the settlement count on binary64 (C3, C13) -/

/-- With an infinite debt and an infinite credit the loop reaches `inf - inf`,
which is NaN, on both sides; `NaN < 0.01` is false, no cursor moves, and every
further iteration appends a settlement of amount NaN. -/
theorem runMatchLoop64_nan (fuel : Nat) (l : List Settlement64) :
    runMatchLoop64 fuel ⟨[("B", F64.nan)], [("A", F64.nan)], 0, 0, l⟩ =
      .stillRunning (l ++ List.replicate fuel ⟨"B", "A", F64.nan⟩) := by
  induction fuel generalizing l with
  | zero => simp [runMatchLoop64, MatchState64.running]
  | succ fuel ih =>
    have hstep : matchIteration64 ⟨[("B", F64.nan)], [("A", F64.nan)], 0, 0, l⟩ =
        ⟨[("B", F64.nan)], [("A", F64.nan)], 0, 0, l ++ [⟨"B", "A", F64.nan⟩]⟩ := rfl
    have hrun : MatchState64.running ⟨[("B", F64.nan)], [("A", F64.nan)], 0, 0, l⟩ = true :=
      rfl
    rw [runMatchLoop64, if_pos hrun, hstep, ih, List.append_assoc, List.replicate_succ]
    rfl

theorem optimizeSettlements64_infinite (fuel : Nat) :
    ∃ appended, optimizeSettlements64 fuel infiniteBalances = .stillRunning appended ∧
      appended.length = fuel := by
  have hinit : optimizeSettlements64 fuel infiniteBalances =
      runMatchLoop64 fuel ⟨[("B", F64.posInf)], [("A", F64.posInf)], 0, 0, []⟩ := rfl
  rw [hinit]
  cases fuel with
  | zero => exact ⟨[], rfl, rfl⟩
  | succ fuel =>
    have hstep : matchIteration64 ⟨[("B", F64.posInf)], [("A", F64.posInf)], 0, 0, []⟩ =
        ⟨[("B", F64.nan)], [("A", F64.nan)], 0, 0, [⟨"B", "A", F64.posInf⟩]⟩ := rfl
    have hrun :
        MatchState64.running ⟨[("B", F64.posInf)], [("A", F64.posInf)], 0, 0, []⟩ = true := rfl
    rw [runMatchLoop64, if_pos hrun, hstep, runMatchLoop64_nan]
    exact ⟨_, rfl, by simp [Nat.add_comm]⟩

/-- C13 fails as stated.  On the balance map A = +inf, B = -inf the matching
loop never ends: whatever number of iterations is allowed, the program has not
returned. -/
theorem infinite_balances_never_return :
    ¬ ∃ fuel settlements,
      optimizeSettlements64 fuel infiniteBalances = .returned settlements := by
  rintro ⟨fuel, settlements, h⟩
  obtain ⟨appended, happ, -⟩ := optimizeSettlements64_infinite fuel
  rw [happ] at h
  cases h

/-- C3 fails as stated.  The balance map A = +inf, B = -inf has two nonzero
balances, but no list of at most one settlement is returned: after two
iterations the loop has appended two settlements and runs on, and after any
number of iterations it has appended that many. -/
theorem infinite_balances_unbounded :
    nonzeroCount64 infiniteBalances = 2 ∧
    optimizeSettlements64 2 infiniteBalances =
      .stillRunning [⟨"B", "A", F64.posInf⟩, ⟨"B", "A", F64.nan⟩] ∧
    ∀ fuel, ∃ appended,
      optimizeSettlements64 fuel infiniteBalances = .stillRunning appended ∧
        appended.length = fuel := by
  exact ⟨by decide, by decide!, optimizeSettlements64_infinite⟩

/-- C13 (amended): `optimizeSettlements` terminates on every balance map whose
balances are finite, whatever order `std::sort` leaves equal amounts in.  The
entries of the sorted vectors are finite and not negative; an iteration of the
loop on such entries moves at least one of the cursors `i`, `j` and leaves such
entries; the loop ends within `|debtors| + |creditors|` iterations and the
settlements are returned; the empty balance map gives the empty list. -/
theorem optimizeSettlements_terminates
    (sort : List (String × F64) → List (String × F64))
    (hsort : ∀ entries, (sort entries).Perm entries)
    (balances : List (String × F64)) (hfinite : ∀ e ∈ balances, e.2.IsFinite) :
    (∀ e ∈ sort (debtorsOf64 balances) ++ sort (creditorsOf64 balances), e.2.IsAmount) ∧
    (∀ s : MatchState64, s.running = true →
      (∀ e ∈ s.debtors ++ s.creditors, e.2.IsAmount) →
      s.i + s.j < (matchIteration64 s).i + (matchIteration64 s).j ∧
      ∀ e ∈ (matchIteration64 s).debtors ++ (matchIteration64 s).creditors, e.2.IsAmount) ∧
    (∃ settlements, ∀ fuel,
      (debtorsOf64 balances).length + (creditorsOf64 balances).length ≤ fuel →
      optimizeSettlements64With sort fuel balances = .returned settlements) ∧
    ∀ fuel, optimizeSettlements64With sort fuel [] = .returned [] := by
  refine ⟨?_, matchIteration64_progress, ?_, ?_⟩
  · intro e he
    rcases List.mem_append.1 he with he | he
    · exact debtorsOf64_isAmount balances hfinite e ((hsort _).mem_iff.1 he)
    · exact creditorsOf64_isAmount balances hfinite e ((hsort _).mem_iff.1 he)
  · obtain ⟨l, hl, -⟩ := optimizeSettlements64With_returns sort hsort balances hfinite
    exact ⟨l, hl⟩
  · intro fuel
    rw [optimizeSettlements64With_eq]
    have hnil : sort (debtorsOf64 []) = [] := List.Perm.eq_nil (hsort _)
    rw [hnil, matchLoop64_nil_left]

/-- C13 (amended) at the balances A = 60, B = -30, C = -30 with the insertion
sort. -/
theorem optimizeSettlements_terminates_witness :
    (∀ entries, (sortByAmountDesc64 entries).Perm entries) ∧
    (∀ e ∈ exampleBalances64, e.2.IsFinite) ∧
    (∃ settlements, ∀ fuel,
      (debtorsOf64 exampleBalances64).length + (creditorsOf64 exampleBalances64).length ≤
        fuel →
      optimizeSettlements64With sortByAmountDesc64 fuel exampleBalances64 =
        .returned settlements) :=
  ⟨perm_sortByAmountDesc64, by decide!,
    (optimizeSettlements_terminates sortByAmountDesc64 perm_sortByAmountDesc64
      exampleBalances64 (by decide!)).2.2.1⟩

/-- C3 (amended): settlement minimality bound.  For every balance map whose
balances are finite and of which `n ≥ 1` are nonzero, `optimizeSettlements`
returns, and returns at most `n - 1` settlements, whatever order `std::sort`
leaves equal amounts in. -/
theorem settlement_count_bound
    (sort : List (String × F64) → List (String × F64))
    (hsort : ∀ entries, (sort entries).Perm entries)
    (balances : List (String × F64)) (hfinite : ∀ e ∈ balances, e.2.IsFinite)
    (_hn : 1 ≤ nonzeroCount64 balances) :
    ∃ settlements,
      (∀ fuel, (debtorsOf64 balances).length + (creditorsOf64 balances).length ≤ fuel →
        optimizeSettlements64With sort fuel balances = .returned settlements) ∧
      settlements.length ≤ nonzeroCount64 balances - 1 := by
  obtain ⟨l, hl, hbound⟩ := optimizeSettlements64With_returns sort hsort balances hfinite
  refine ⟨l, hl, ?_⟩
  have hcount := debtors_creditors_length64 balances
  rcases hbound with h | h
  · rw [h]
    exact Nat.zero_le _
  · omega

/-- C3 (amended) at the balances A = 60, B = -30, C = -30: three nonzero
balances, and the two settlements B to A 30 and C to A 30 are returned. -/
theorem settlement_count_bound_witness :
    (∀ entries, (sortByAmountDesc64 entries).Perm entries) ∧
    (∀ e ∈ exampleBalances64, e.2.IsFinite) ∧
    1 ≤ nonzeroCount64 exampleBalances64 ∧
    (∃ settlements,
      (∀ fuel,
        (debtorsOf64 exampleBalances64).length + (creditorsOf64 exampleBalances64).length ≤
          fuel →
        optimizeSettlements64With sortByAmountDesc64 fuel exampleBalances64 =
          .returned settlements) ∧
      settlements.length ≤ nonzeroCount64 exampleBalances64 - 1) ∧
    optimizeSettlements64 3 exampleBalances64 =
      .returned [⟨"B", "A", F64.ofInt 30⟩, ⟨"C", "A", F64.ofInt 30⟩] :=
  ⟨perm_sortByAmountDesc64, by decide!, by decide!,
    settlement_count_bound sortByAmountDesc64 perm_sortByAmountDesc64 exampleBalances64
      (by decide!) (by decide!),
    by decide!⟩

/-! ## Rounded remainders (C2, C15, C25, C26) -/

/-- The constants of the binary64 examples are the doubles nearest to the
decimal values they stand for: each differs from its decimal by at most half a
unit in its last place. -/
theorem decimal_constants_nearest :
    cent = F64.ofUnits (5764607523034235 * ((2 ^ 1015 : ℕ) : ℤ)) ∧
    |100 * cent.units - 1 * ((2 ^ 1074 : ℕ) : ℤ)| * 2 ≤ 100 * ((2 ^ 1015 : ℕ) : ℤ) ∧
    (∀ e ∈ roundedBalances ++ shortfallBalances ++ singleCreditorBalances,
      e.2 = F64.ofUnits e.2.units) ∧
    |100 * (F64.scaled 5045438957538509 1027).units - 3585 * ((2 ^ 1074 : ℕ) : ℤ)| * 2 ≤
      100 * ((2 ^ 1027 : ℕ) : ℤ) ∧
    |100 * (F64.scaled 7566047373982433 1025).units - 1344 * ((2 ^ 1074 : ℕ) : ℤ)| * 2 ≤
      100 * ((2 ^ 1025 : ℕ) : ℤ) ∧
    |100 * (F64.scaled 8067072832527401 1025).units - 1433 * ((2 ^ 1074 : ℕ) : ℤ)| * 2 ≤
      100 * ((2 ^ 1025 : ℕ) : ℤ) ∧
    |10 * (F64.scaled 3856207180935987 1026).units - 137 * ((2 ^ 1074 : ℕ) : ℤ)| * 2 ≤
      10 * ((2 ^ 1026 : ℕ) : ℤ) ∧
    |100 * (F64.scaled 3003096108944589 1033).units - 136565 * ((2 ^ 1074 : ℕ) : ℤ)| * 2 ≤
      100 * ((2 ^ 1033 : ℕ) : ℤ) ∧
    |100 * (F64.scaled 8636883738506035 1030).units - 49095 * ((2 ^ 1074 : ℕ) : ℤ)| * 2 ≤
      100 * ((2 ^ 1030 : ℕ) : ℤ) ∧
    |10 * (F64.scaled 4287215739024179 1031).units - 4874 * ((2 ^ 1074 : ℕ) : ℤ)| * 2 ≤
      10 * ((2 ^ 1031 : ℕ) : ℤ) := by
  decide!

/-- C15 fails as stated.  The balances `A = 3 + 2^-50`, `B = -(1 + 3 * 2^-52)`,
`C = -(1 + 2^-52)`, `D = -1` have the one creditor A, whose credit is the sum
of the three debts exactly, and the debts differ, so their order is fixed.  The
program returns B to A and C to A with the full debts, and then D to A with
`1 - 2^-52`: A's remainder was rounded on the way, and D's debt of 1 is not the
amount of any settlement. -/
theorem single_creditor_rounded :
    creditorsOf64 singleCreditorBalances = [("A", F64.scaled 3377699720527873 1024)] ∧
    debtorsOf64 singleCreditorBalances =
      [("B", F64.scaled 4503599627370499 1022), ("C", F64.scaled 4503599627370497 1022),
        ("D", F64.ofInt 1)] ∧
    ((debtorsOf64 singleCreditorBalances).map fun e => e.2.units).sum =
      (F64.scaled 3377699720527873 1024).units ∧
    optimizeSettlements64 3 singleCreditorBalances = .returned singleCreditorSettlements ∧
    (⟨"D", "A", F64.ofInt 1⟩ : Settlement64) ∉ singleCreditorSettlements := by
  decide!

/-! ## One creditor, any `std::sort` (C15) -/

theorem optimizeSettlements_eq_with (balances : StdMap) :
    optimizeSettlements balances = optimizeSettlementsWith sortByAmountDesc balances := rfl

theorem stdSortSpec_sortByAmountDesc : StdSortSpec sortByAmountDesc :=
  fun entries => ⟨perm_sortByAmountDesc entries, sorted_sortByAmountDesc entries⟩

/-- C15 (amended): single creditor, in exact arithmetic.  When a balance map has
exactly one creditor `c` and the credit equals the total of the debts,
`optimizeSettlements` returns one settlement per debtor, from that debtor to
`c`, of the debtor's full debt; the debtors are taken in the order `std::sort`
leaves them in, which is non-increasing in debt, whichever way it orders equal
debts. -/
theorem single_creditor_settlements
    (sort : List (String × ℚ) → List (String × ℚ)) (hsort : StdSortSpec sort)
    (balances : StdMap) (c : String) (y : ℚ)
    (hc : creditorsOf balances = [(c, y)])
    (hy : y = ((debtorsOf balances).map Prod.snd).sum) :
    optimizeSettlementsWith sort balances =
      (sort (debtorsOf balances)).map (fun e => ⟨e.1, c, e.2⟩) ∧
    (sort (debtorsOf balances)).Perm (debtorsOf balances) ∧
    (sort (debtorsOf balances)).Pairwise (fun a b => b.2 ≤ a.2) := by
  refine ⟨?_, (hsort _).1, (hsort _).2⟩
  unfold optimizeSettlementsWith
  have hone : sort (creditorsOf balances) = [(c, y)] := by
    rw [hc]
    exact List.perm_singleton.1 (hsort [(c, y)]).1
  have hsum : y = ((sort (debtorsOf balances)).map Prod.snd).sum := by
    rw [hy]
    exact ((((hsort (debtorsOf balances)).1).map Prod.snd).sum_eq).symm
  rw [hone, hsum]
  apply matchSettlements_single_creditor
  intro e he
  exact (mem_debtorsOf.1 (((hsort _).1).mem_iff.1 he)).2

/-- C15 (amended) at the balances A = 60, B = -30, C = -30 with the insertion
sort: B pays A 30, then C pays A 30. -/
theorem single_creditor_settlements_witness :
    StdSortSpec sortByAmountDesc ∧
    optimizeSettlements [("A", 60), ("B", -30), ("C", -30)] =
      [⟨"B", "A", 30⟩, ⟨"C", "A", 30⟩] := by
  have hd : debtorsOf [("A", 60), ("B", -30), ("C", -30)] = [("B", 30), ("C", 30)] := by
    norm_num [debtorsOf, List.filterMap_cons]
  have hc : creditorsOf [("A", 60), ("B", -30), ("C", -30)] = [("A", 60)] := by
    norm_num [creditorsOf, List.filterMap_cons]
  have h := (single_creditor_settlements sortByAmountDesc stdSortSpec_sortByAmountDesc
    [("A", 60), ("B", -30), ("C", -30)] "A" 60 hc (by rw [hd]; norm_num)).1
  refine ⟨stdSortSpec_sortByAmountDesc, ?_⟩
  rw [optimizeSettlements_eq_with, h, hd]
  norm_num [sortByAmountDesc, List.insertionSort, List.orderedInsert, byAmountDesc]

end BillSplitter
